import Mathlib

/-! # semtag: version inference engine

A shallow embedding of the decision logic of `cmd/semtag/version.go` and
`internal/git/git.go`, together with the parts of the Go standard library
(`strings`, `regexp`) and of `Masterminds/semver/v3` that this logic calls.

Go strings are modelled as lists of Unicode code points (`Str`); the strings
handled here (tags, commit titles and bodies) are UTF-8 text, on which
byte-level and code-point-level substring search agree.
-/

namespace Semtag

/-- A Go `string`, as the sequence of its code points. -/
abbrev Str := List Char

/-! ## Package `regexp` (RE2 syntax, Go flavour) -/

/-- Abstract syntax of the regular expressions used by `version.go`.
`cls p` matches one code point satisfying `p`. -/
inductive Regex where
  | nothing : Regex
  | empty : Regex
  | cls (p : Char → Bool) : Regex
  | cat (a b : Regex) : Regex
  | alt (a b : Regex) : Regex
  | star (a : Regex) : Regex

namespace Regex

/-- Whether the expression matches the empty string. -/
def nullable : Regex → Bool
  | nothing => false
  | empty => true
  | cls _ => false
  | cat a b => a.nullable && b.nullable
  | alt a b => a.nullable || b.nullable
  | star _ => true

/-- Sequencing that drops dead and trivial branches. -/
def mkCat : Regex → Regex → Regex
  | nothing, _ => nothing
  | empty, b => b
  | a, b => cat a b

/-- Alternation that drops dead branches. -/
def mkAlt : Regex → Regex → Regex
  | nothing, b => b
  | a, nothing => a
  | a, b => alt a b

/-- Brzozowski derivative of an expression by one code point. -/
def deriv : Regex → Char → Regex
  | nothing, _ => nothing
  | empty, _ => nothing
  | cls p, c => if p c then empty else nothing
  | cat a b, c =>
    if a.nullable then mkAlt (mkCat (a.deriv c) b) (b.deriv c) else mkCat (a.deriv c) b
  | alt a b, c => mkAlt (a.deriv c) (b.deriv c)
  | star a, c => mkCat (a.deriv c) (star a)

/-- Anchored match: the whole of `s` is in the language of `r`. -/
def fullMatch : Regex → Str → Bool
  | r, [] => r.nullable
  | r, c :: s => fullMatch (r.deriv c) s

/-- A literal string, compared code point by code point. -/
def lit : Str → Regex
  | [] => empty
  | c :: s => cat (cls (fun x => x == c)) (lit s)

/-- A literal string under the flag `i`: each letter also matches its other
case. (The letters used by the patterns below, `f e a t i x`, have no
further simple case folds in Unicode.) -/
def litFold : Str → Regex
  | [] => empty
  | c :: s => cat (cls (fun x => x == c.toLower || x == c.toUpper)) (litFold s)

/-- The class `.` without the flag `s`: any code point but a line feed. -/
def dot : Regex := cls (fun x => x != '\n')

/-- Any code point at all. -/
def any : Regex := cls (fun _ => true)

/-- Zero or one occurrence, `r?`. -/
def opt (r : Regex) : Regex := alt r empty

/-- One or more occurrences, `r+`. -/
def plus (r : Regex) : Regex := cat r (star r)

/-- The class `\w` as Go compiles it under the flag `i`: `[0-9A-Za-z_]`
closed under simple case folding, which adds U+017F (long s, folds to `s`)
and U+212A (Kelvin sign, folds to `k`). -/
def wordFold (x : Char) : Bool :=
  x.isAlphanum || x == '_' || x == Char.ofNat 0x17F || x == Char.ofNat 0x212A

/-- `(*Regexp).MatchString`: whether `s` contains any match of `r`. The
search is unanchored, so it is the anchored match of `r` with arbitrary text
allowed on both sides. -/
def MatchString (r : Regex) (s : Str) : Bool :=
  fullMatch (cat (star any) (cat r (star any))) s

/-- The language of an expression: `Matches r s` when `s` as a whole is
matched by `r`. -/
inductive Matches : Regex → Str → Prop
  | empty : Matches empty []
  | cls {p : Char → Bool} {c : Char} : p c = true → Matches (cls p) [c]
  | cat {a b : Regex} {s t : Str} : Matches a s → Matches b t → Matches (cat a b) (s ++ t)
  | altL {a b : Regex} {s : Str} : Matches a s → Matches (alt a b) s
  | altR {a b : Regex} {s : Str} : Matches b s → Matches (alt a b) s
  | starNil {a : Regex} : Matches (star a) []
  | starCons {a : Regex} {s t : Str} :
      Matches a s → Matches (star a) t → Matches (star a) (s ++ t)

end Regex

open Regex

/-! ## `internal/git`: commits -/

/-- Commit: a hash, a title (first line of the message) and a body. -/
structure Commit where
  SHA : Str
  Title : Str
  Body : Str

/-! ## `cmd/semtag/version.go`: the commit classifier -/

/-- Pattern `(?m).*BREAKING[ -]CHANGE:.*`. -/
def breakingBody : Regex :=
  cat (star dot)
    (cat (lit "BREAKING".toList)
      (cat (cls (fun x => x == ' ' || x == '-'))
        (cat (lit "CHANGE:".toList) (star dot))))

/-- The optional scope `(\(.*\))?`. -/
def scopeOpt : Regex :=
  opt (cat (lit "(".toList) (cat (star dot) (lit ")".toList)))

/-- Pattern `(?im).*(\w+)(\(.*\))?!:.*`. -/
def breaking : Regex :=
  cat (star dot)
    (cat (plus (cls wordFold))
      (cat scopeOpt (cat (lit "!:".toList) (star dot))))

/-- Pattern `(?im).*feat(\(.*\))?:.*`. -/
def feature : Regex :=
  cat (star dot)
    (cat (litFold "feat".toList) (cat scopeOpt (cat (lit ":".toList) (star dot))))

/-- Pattern `(?im).*fix(\(.*\))?:.*`. -/
def patch : Regex :=
  cat (star dot)
    (cat (litFold "fix".toList) (cat scopeOpt (cat (lit ":".toList) (star dot))))

def isBreaking (commit : Commit) : Bool :=
  MatchString breakingBody commit.Body || MatchString breaking commit.Title

def isFeature (commit : Commit) : Bool :=
  MatchString feature commit.Title

def isPatch (commit : Commit) : Bool :=
  MatchString patch commit.Title

/-! ## Package `strings` -/

/-- `strings.HasPrefix`. -/
def HasPrefix (s pre : Str) : Bool := pre.isPrefixOf s

/-- `strings.TrimPrefix`: `s` without the leading `pre`, or `s` itself. -/
def TrimPrefix (s pre : Str) : Str :=
  if HasPrefix s pre then s.drop pre.length else s

/-- `strings.Index`: position of the leftmost occurrence of `substr` in `s`;
`none` stands for Go's `-1`. -/
def Index : Str → Str → Option Nat
  | [], substr => if HasPrefix [] substr then some 0 else none
  | c :: s, substr =>
    if HasPrefix (c :: s) substr then some 0 else (Index s substr).map (· + 1)

/-- `strings.Contains`: `Index(s, substr) >= 0`. -/
def Contains (s substr : Str) : Bool := (Index s substr).isSome

/-- The counting loop of `strings.Count` for a non-empty `substr`: cut after
each leftmost occurrence until none is left. Every round removes at least one
code point, so `fuel = len(s)` rounds always suffice. -/
def countLoop (substr : Str) : Nat → Str → Nat
  | 0, _ => 0
  | fuel + 1, s =>
    match Index s substr with
    | none => 0
    | some i => countLoop substr fuel (s.drop (i + substr.length)) + 1

/-- `strings.Count`: number of non-overlapping occurrences of `substr`. -/
def Count (s substr : Str) : Nat :=
  if substr = [] then s.length + 1 else countLoop substr s.length s

/-- The loop of `strings.genSplit` with `sepSave = 0`, run at most `n` times. -/
def genSplitLoop (sep : Str) : Nat → Str → List Str
  | 0, s => [s]
  | n + 1, s =>
    match Index s sep with
    | none => [s]
    | some m => s.take m :: genSplitLoop sep n (s.drop (m + sep.length))

/-- `strings.explode` without a limit: one string per code point. -/
def explode (s : Str) : List Str := s.map (fun c => [c])

/-- `strings.Split(s, sep)`, that is `genSplit(s, sep, 0, -1)`. -/
def Split (s sep : Str) : List Str :=
  if sep = [] then explode s
  else genSplitLoop sep (min (Count s sep + 1) (s.length + 1) - 1) s

/-! ## `internal/git/git.go`: the tag classifier -/

/-- Go `isDigit`: `c >= '0' && c <= '9'`. -/
def isDigit (c : Char) : Bool := decide ('0' ≤ c) && decide (c ≤ '9')

/-- Go `hasSuffix`. `remaining[0]` is the first byte of `remaining`; it is
`.` or an ASCII digit exactly when the first code point is. -/
def hasSuffix (tag suffix : Str) : Bool :=
  let tag := TrimPrefix tag "v".toList
  let suffixPattern := "-".toList ++ suffix
  if Contains tag suffixPattern then
    match Split tag suffixPattern with
    | [_, remaining] =>
      match remaining with
      | [] => true
      | c :: _ => c == '.' || isDigit c
    | _ => false
  else false

/-! ## `Masterminds/semver/v3`: versions and their increments -/

/-- Wrap-around of Go's `uint64` arithmetic. -/
def uint64 (n : Nat) : Nat := n % 2 ^ 64

/-- Modelled from the spec: the type `semver.Version` of
`Masterminds/semver/v3`, a package that is not among the sources. A version
is `major.minor.patch` (`uint64` numbers) with an optional pre-release and
optional build metadata; `original` is the text it was parsed from. -/
structure Version where
  major : Nat
  minor : Nat
  patch : Nat
  pre : Str
  metadata : Str
  original : Str
  deriving DecidableEq

namespace Version

/-- Modelled from the spec: `Version.String`, the text
`major.minor.patch[-pre][+metadata]` with the numbers in decimal. -/
def String (v : Version) : Str :=
  Nat.toDigits 10 v.major ++ ".".toList ++ Nat.toDigits 10 v.minor ++ ".".toList
    ++ Nat.toDigits 10 v.patch
    ++ (if v.pre ≠ [] then "-".toList ++ v.pre else [])
    ++ (if v.metadata ≠ [] then "+".toList ++ v.metadata else [])

/-- Modelled from the spec: `Version.originalVPrefix` of the library, `"v"`
when the original text began with it. -/
def originalVPrefix (v : Version) : Str :=
  if HasPrefix v.original "v".toList then "v".toList else []

/-- Modelled from the spec: the last step of every increment in the library,
which rewrites `original` as the new version's text behind the old `v`. -/
def reoriginal (v vNext : Version) : Version :=
  { vNext with original := v.originalVPrefix ++ vNext.String }

/-- Modelled from the spec: `Version.IncMajor` resets minor, patch and
pre-release; as in the library, build metadata is cleared as well. -/
def IncMajor (v : Version) : Version :=
  reoriginal v { v with metadata := [], pre := [], patch := 0, minor := 0,
                        major := uint64 (v.major + 1) }

/-- Modelled from the spec: `Version.IncMinor` resets patch and pre-release;
as in the library, build metadata is cleared as well. -/
def IncMinor (v : Version) : Version :=
  reoriginal v { v with metadata := [], pre := [], patch := 0,
                        minor := uint64 (v.minor + 1) }

/-- Modelled from the spec: `Version.IncPatch` clears the pre-release; as in
the library, build metadata is cleared as well, and a version that had a
pre-release becomes the release of the same core while any other version
gets its patch number incremented. -/
def IncPatch (v : Version) : Version :=
  if v.pre ≠ [] then
    reoriginal v { v with metadata := [], pre := [] }
  else
    reoriginal v { v with metadata := [], pre := [], patch := uint64 (v.patch + 1) }

end Version

/-! ## `cmd/semtag/version.go`: the bump decision -/

/-- The scan of `findNext`: returns the values of `major`, `minor` and
`patchCommit` when the loop ends (by exhaustion or by `break`). -/
def findNextScan :
    List Commit → Option Commit → Option Commit → Option Commit × Option Commit × Option Commit
  | [], minor, patchCommit => (none, minor, patchCommit)
  | c :: changes, minor, patchCommit =>
    if isBreaking c then (some c, minor, patchCommit)
    else
      let minor := if minor.isNone && isFeature c then some c else minor
      let patchCommit := if patchCommit.isNone && isPatch c then some c else patchCommit
      findNextScan changes minor patchCommit

/-- Go `findNext` (the advisory log lines are not modelled). -/
def findNext (current : Version) (changes : List Commit) : Version :=
  match findNextScan changes none none with
  | (some _, _, _) => current.IncMajor
  | (none, some _, _) => current.IncMinor
  | (none, none, some _) => current.IncPatch
  | (none, none, none) => current

/-! ## Package `strconv` -/

/-- Value of a run of decimal digits, most significant first. -/
def digitsValue (s : Str) : Nat :=
  s.foldl (fun acc c => acc * 10 + (c.toNat - '0'.toNat)) 0

/-- The number written by a non-empty run of decimal digits; `none` when the
text is empty or holds any other character. -/
def parseDigits (s : Str) : Option Nat :=
  if s ≠ [] ∧ s.all isDigit = true then some (digitsValue s) else none

/-- `strconv.Atoi` where `int` has 64 bits; `none` stands for a non-nil
error. The text is an optional sign `+` or `-` followed by decimal digits
(base 10, so no underscores), and the value must lie in the range of `int`. -/
def Atoi (s : Str) : Option Int :=
  if HasPrefix s "-".toList then
    (parseDigits (s.drop 1)).bind fun n => if n ≤ 2 ^ 63 then some (-(n : Int)) else none
  else if HasPrefix s "+".toList then
    (parseDigits (s.drop 1)).bind fun n => if n < 2 ^ 63 then some (n : Int) else none
  else
    (parseDigits s).bind fun n => if n < 2 ^ 63 then some (n : Int) else none

/-- `strconv.Itoa`: the decimal text of an `int`. -/
def Itoa (i : Int) : Str :=
  if i < 0 then "-".toList ++ Nat.toDigits 10 i.natAbs else Nat.toDigits 10 i.toNat

/-- Wrap-around of Go's 64-bit `int` arithmetic. -/
def int64 (i : Int) : Int := (i + 2 ^ 63) % 2 ^ 64 - 2 ^ 63

/-! ## `internal/git/git.go`: stable tags -/

/-- The slice `prereleaseIndicators` of `isStableTag`. -/
def prereleaseIndicators : List Str :=
  ["-alpha".toList, "-beta".toList, "-rc".toList, "-pre".toList, "-dev".toList,
    "-snapshot".toList]

/-- Go `isStableTag`. -/
def isStableTag (tag : Str) : Bool :=
  let tag := TrimPrefix tag "v".toList
  if prereleaseIndicators.any (fun indicator => Contains tag indicator) then false
  else
    let parts := Split tag "-".toList
    if parts.length > 1 then
      let lastPart := parts.getLastD []
      match Atoi lastPart with
      | none => false
      | some _ => true
    else true

/-! ## `cmd/semtag/version.go`: the pre-release counter -/

/-- Go `getNextPrereleaseNumber`; `number + 1` is computed in `int`. -/
def getNextPrereleaseNumber (prerelease suffix : Str) : Int :=
  let pattern := suffix ++ ".".toList
  if HasPrefix prerelease pattern then
    let numberStr := TrimPrefix prerelease pattern
    match Atoi numberStr with
    | some number => int64 (number + 1)
    | none => 1
  else 1

/-! ## Packages `unicode` and `strings`: white space, letter case, suffixes -/

/-- `unicode.IsSpace`: the white space of Latin-1 and the code points with
the property `White_Space` beyond it. -/
def isSpace (c : Char) : Bool :=
  c == '\t' || c == '\n' || c == Char.ofNat 0x0B || c == Char.ofNat 0x0C || c == '\r' ||
    c == ' ' || c == Char.ofNat 0x85 || c == Char.ofNat 0xA0 || c == Char.ofNat 0x1680 ||
    (decide (0x2000 ≤ c.toNat) && decide (c.toNat ≤ 0x200A)) ||
    c == Char.ofNat 0x2028 || c == Char.ofNat 0x2029 || c == Char.ofNat 0x202F ||
    c == Char.ofNat 0x205F || c == Char.ofNat 0x3000

/-- `strings.TrimSpace`: the text without leading and trailing white space. -/
def TrimSpace (s : Str) : Str :=
  ((s.dropWhile isSpace).reverse.dropWhile isSpace).reverse

/-- `strings.ToLower`: every code point mapped by `unicode.ToLower`. The
Unicode case table is part of the Go library, so the mapping of one code
point is the parameter `lower`. -/
def ToLower (lower : Char → Char) (s : Str) : Str := s.map lower

/-- What is used of `unicode.ToLower`: on ASCII it lower-cases the letters
`A` to `Z` and nothing else, it maps lower-cased code points to themselves,
and it maps white space to white space and nothing else to white space. -/
structure CaseLaws (lower : Char → Char) : Prop where
  ascii : ∀ c : Char, c.toNat < 128 → lower c = c.toLower
  idem : ∀ c : Char, lower (lower c) = lower c
  space : ∀ c : Char, isSpace (lower c) = isSpace c

/-- `strings.HasSuffix`. -/
def HasSuffix (s suffix : Str) : Bool := suffix.isSuffixOf s

/-- `strings.TrimSuffix`: `s` without the trailing `suffix`, or `s` itself. -/
def TrimSuffix (s suffix : Str) : Str :=
  if HasSuffix s suffix then s.take (s.length - suffix.length) else s

/-- `strings.explode` with a limit `n`: at most `n` parts, one code point
each but the last, which takes the rest. -/
def explodeN (s : Str) (n : Int) : List Str :=
  let n : Nat := if n < 0 ∨ n > s.length then s.length else n.toNat
  if n = 0 then [] else (s.take (n - 1)).map (fun c => [c]) ++ [s.drop (n - 1)]

/-- `strings.SplitN(s, sep, n)`, that is `genSplit(s, sep, 0, n)`. -/
def SplitN (s sep : Str) (n : Int) : List Str :=
  if n = 0 then []
  else if sep = [] then explodeN s n
  else
    let n : Nat := if n < 0 then Count s sep + 1 else n.toNat
    genSplitLoop sep (min n (s.length + 1) - 1) s

/-! ## Go maps from strings to strings -/

/-- A `map[string]string`: its entries, no key twice. A `range` loop visits
them in an order that the language leaves open, see `RangeLaw`. -/
abbrev GoMap := List (Str × Str)

namespace GoMap

/-- The lookup `m[k]` with its `ok` flag. -/
def get? (m : GoMap) (k : Str) : Option Str := List.lookup k m

/-- The assignment `m[k] = v`. -/
def set : GoMap → Str → Str → GoMap
  | [], k, v => [(k, v)]
  | e :: m, k, v => if e.1 = k then (k, v) :: m else e :: set m k v

end GoMap

/-- The order in which `range` visits a map is some arrangement of its
entries. -/
def RangeLaw (order : GoMap → GoMap) : Prop := ∀ m : GoMap, (order m).Perm m

/-- What it takes to compare a map with the same map without one entry:
taking an entry out leaves the order in which `range` visits the others as
it was. -/
def StableOrder (order : GoMap → GoMap) : Prop :=
  ∀ (m : GoMap) (x : Str × Str), order (m.erase x) = (order m).erase x

/-! ## `cmd/semtag/branch_suffix.go`: the suffix resolver -/

/-- Go `prefixRule`; the field `pfx` is the Go field `prefix`. -/
structure prefixRule where
  pfx : Str
  suffix : Str
  deriving DecidableEq

/-- Go `branchSuffixResolver`; the fields are the Go fields `exact` and
`prefix`. -/
structure branchSuffixResolver where
  exactMap : GoMap
  prefixRules : List prefixRule
  deriving DecidableEq

/-- Go `defaultBranchSuffixMapping`. -/
def defaultBranchSuffixMapping : GoMap :=
  [("beta".toList, "beta".toList),
   ("develop".toList, "beta".toList),
   ("dev".toList, "beta".toList),
   ("staging".toList, "beta".toList),
   ("alpha".toList, "alpha".toList),
   ("experimental".toList, "alpha".toList),
   ("wip".toList, "alpha".toList),
   ("rc".toList, "rc".toList),
   ("release".toList, "rc".toList),
   ("hotfix".toList, "hotfix".toList),
   ("release/*".toList, "rc".toList),
   ("feature/*".toList, "alpha".toList),
   ("hotfix/*".toList, "beta".toList)]

/-- The comparison given to `sort.SliceStable`, read as "may stand before":
`a` may stand before `b` unless `b` has the longer prefix. -/
def longerFirst (a b : prefixRule) : Prop := b.pfx.length ≤ a.pfx.length

instance longerFirstDecidable : DecidableRel longerFirst :=
  fun a b => Nat.decLe b.pfx.length a.pfx.length

/-- One round of the loop that merges the explicit overrides. -/
def mergeOverride (lower : Char → Char) (mapping : GoMap) (entry : Str × Str) : GoMap :=
  if TrimSpace entry.1 = [] then mapping
  else mapping.set (ToLower lower (TrimSpace entry.1)) (TrimSpace entry.2)

/-- One round of the loop that sorts the merged entries into exact and
prefix rules. -/
def addRule (lower : Char → Char) (resolver : branchSuffixResolver) (entry : Str × Str) :
    branchSuffixResolver :=
  let normalizedKey := ToLower lower (TrimSpace entry.1)
  let normalizedValue := TrimSpace entry.2
  if normalizedKey = [] ∨ normalizedValue = [] then resolver
  else if HasSuffix normalizedKey "/*".toList then
    { resolver with
      prefixRules := resolver.prefixRules ++
        [{ pfx := TrimSuffix normalizedKey "/*".toList, suffix := normalizedValue }] }
  else
    { resolver with exactMap := resolver.exactMap.set normalizedKey normalizedValue }

/-- The first half of `newBranchSuffixResolver` from a given first layer:
the environment layer, then the explicit overrides, are merged into it.
`order` is the order of the `range` loops. -/
def mergedMapping (lower : Char → Char) (order : GoMap → GoMap)
    (defaults env overrides : GoMap) : GoMap :=
  let mapping := defaults
  let mapping := (order env).foldl (fun m entry => m.set entry.1 entry.2) mapping
  (order overrides).foldl (mergeOverride lower) mapping

/-- The body of `newBranchSuffixResolver` from a given first layer: merge the
layers, sort the entries into exact and prefix rules, and order the prefix
rules by a stable sort, longest prefix first. -/
def buildResolver (lower : Char → Char) (order : GoMap → GoMap)
    (defaults env overrides : GoMap) : branchSuffixResolver :=
  let mapping := mergedMapping lower order defaults env overrides
  let resolver := (order mapping).foldl (addRule lower) { exactMap := [], prefixRules := [] }
  { resolver with prefixRules := resolver.prefixRules.insertionSort longerFirst }

/-- Go `newBranchSuffixResolver`; `env` is what
`loadBranchSuffixEnvOverrides` returned. -/
def newBranchSuffixResolver (lower : Char → Char) (order : GoMap → GoMap) (env : GoMap)
    (overrides : GoMap) : branchSuffixResolver :=
  buildResolver lower order defaultBranchSuffixMapping env overrides

/-- One round of the first loop of `loadBranchSuffixEnvOverrides`, over the
comma-separated pairs of `SVU_BRANCH_SUFFIX_MAPPING`. -/
def loadMappingPair (lower : Char → Char) (result : GoMap) (pair : Str) : GoMap :=
  match Split (TrimSpace pair) ":".toList with
  | [part0, part1] =>
    let branch := ToLower lower (TrimSpace part0)
    let suffix := TrimSpace part1
    if branch ≠ [] ∧ suffix ≠ [] then result.set branch suffix else result
  | _ => result

/-- One round of the second loop of `loadBranchSuffixEnvOverrides`, over the
entries `NAME=value` of `os.Environ()`. -/
def loadEnvironEntry (lower : Char → Char) (result : GoMap) (env : Str) : GoMap :=
  if !HasPrefix env "SVU_BRANCH_".toList || !HasSuffix env "_SUFFIX".toList then result
  else
    match SplitN env "=".toList 2 with
    | [branchEnv, part1] =>
      let value := TrimSpace part1
      if value = [] then result
      else
        let branchName := TrimPrefix branchEnv "SVU_BRANCH_".toList
        let branchName := TrimSuffix branchName "_SUFFIX".toList
        let branchName := ToLower lower branchName
        if branchName ≠ [] then result.set branchName value else result
    | _ => result

/-- Go `loadBranchSuffixEnvOverrides`. The process environment belongs to
the operating system: `envMapping` is what
`os.Getenv("SVU_BRANCH_SUFFIX_MAPPING")` returned and `environ` what
`os.Environ()` returned. -/
def loadBranchSuffixEnvOverrides (lower : Char → Char) (envMapping : Str)
    (environ : List Str) : GoMap :=
  let result : GoMap := []
  let result :=
    if envMapping ≠ [] then
      (Split envMapping ",".toList).foldl (loadMappingPair lower) result
    else result
  environ.foldl (loadEnvironEntry lower) result

/-- Go `suffixForBranch`. -/
def suffixForBranch (lower : Char → Char) (r : branchSuffixResolver) (branch : Str) : Str :=
  let branch := ToLower lower (TrimSpace branch)
  if branch = [] then []
  else
    match r.exactMap.get? branch with
    | some suffix => suffix
    | none =>
      match r.prefixRules.find? (fun rule => HasPrefix branch rule.pfx) with
      | some rule => rule.suffix
      | none => []

/-! ## `cmd/semtag/main.go`: the override flag -/

/-- The loop of `parseBranchSuffixPairs` over the entries that are left,
with the mapping filled so far; the error is the message of `fmt.Errorf`. -/
def parsePairsLoop (lower : Char → Char) : List Str → GoMap → Except Str GoMap
  | [], mapping => Except.ok mapping
  | entry :: values, mapping =>
    let candidate := TrimSpace entry
    if candidate = [] then parsePairsLoop lower values mapping
    else
      match SplitN candidate ":".toList 2 with
      | [part0, part1] =>
        let branch := ToLower lower (TrimSpace part0)
        let suffix := TrimSpace part1
        if branch = [] ∨ suffix = [] then
          Except.error ("invalid branch-suffix format: ".toList ++ entry)
        else parsePairsLoop lower values (mapping.set branch suffix)
      | _ => Except.error ("invalid branch-suffix format: ".toList ++ entry)

/-- Go `parseBranchSuffixPairs`; `none` is the nil map. -/
def parseBranchSuffixPairs (lower : Char → Char) (values : List Str) :
    Except Str (Option GoMap) :=
  if values.length = 0 then Except.ok none
  else
    match parsePairsLoop lower values [] with
    | Except.error err => Except.error err
    | Except.ok mapping =>
      if mapping.length = 0 then Except.ok none else Except.ok (some mapping)

/-! ## `Masterminds/semver/v3`: parsing, pre-releases, precedence -/

/-- The functions of `Masterminds/semver/v3` that `applyBranchSuffix` relies
on, a package that is not among the sources: the parser `NewVersion`
(`none` for an error) and the check that `SetPrerelease` applies to a
non-empty pre-release. They are parameters of the model. -/
structure Semver where
  NewVersion : Str → Option Version
  validatePrerelease : Str → Bool

/-- Modelled from the spec: `Version.SetPrerelease`, the set-operation that
attaches a pre-release and fails (`none`) when the library rejects it. -/
def Version.SetPrerelease (validate : Str → Bool) (v : Version) (pre : Str) :
    Option Version :=
  if pre ≠ [] ∧ validate pre = false then none
  else some (Version.reoriginal v { v with pre := pre })

/-- A character of a pre-release or build identifier: `[0-9A-Za-z-]`. -/
def isIdentChar (c : Char) : Bool := c.isAlphanum || c == '-'

/-- Modelled from the spec: the library's check of a pre-release, as
dot-separated identifiers over `[0-9A-Za-z-]` of which the numeric ones have
no leading zero. -/
def validatePrerelease (p : Str) : Bool :=
  (Split p ".".toList).all fun part =>
    if part.all isDigit then !(decide (part.length > 1) && part.head? == some '0')
    else part.all isIdentChar

/-- Modelled from the spec: the library's check of build metadata, as
dot-separated identifiers over `[0-9A-Za-z-]`. -/
def validateMetadata (m : Str) : Bool :=
  (Split m ".".toList).all fun part => part.all isIdentChar

/-- `strconv.ParseUint(s, 10, 64)`; `none` stands for a non-nil error. -/
def ParseUint (s : Str) : Option Nat :=
  (parseDigits s).bind fun n => if n < 2 ^ 64 then some n else none

/-- Modelled from the spec: the parser of the library on tags written
`[v]major.minor.patch[-prerelease][+build]`, the form of section 3 of the
specification; every other text is refused here. -/
def parseVersion (v : Str) : Option Version :=
  let s := TrimPrefix v "v".toList
  let mainAndBuild := SplitN s "+".toList 2
  let main := mainAndBuild.headD []
  let coreAndPre := SplitN main "-".toList 2
  match Split (coreAndPre.headD []) ".".toList with
  | [a, b, c] =>
    match ParseUint a, ParseUint b, ParseUint c with
    | some major, some minor, some patch =>
      let pre := (coreAndPre.drop 1).headD []
      let metadata := (mainAndBuild.drop 1).headD []
      if (coreAndPre.length = 2 → pre ≠ [] ∧ validatePrerelease pre = true) ∧
          (mainAndBuild.length = 2 → metadata ≠ [] ∧ validateMetadata metadata = true) then
        some { major := major, minor := minor, patch := patch, pre := pre,
               metadata := metadata, original := v }
      else none
    | _, _, _ => none
  | _ => none

/-- The library as it behaves on tags of the form of the specification. -/
def semverStrict : Semver :=
  { NewVersion := parseVersion, validatePrerelease := validatePrerelease }

/-- Modelled from the spec: `comparePrePart` of the library, the precedence
of two pre-release identifiers: numeric ones by value, others in ASCII
order, numeric below non-numeric, a missing one below any. -/
def comparePrePart (s o : Str) : Int :=
  if s = o then 0
  else if s = [] then (if o ≠ [] then -1 else 1)
  else if o = [] then (if s ≠ [] then 1 else -1)
  else
    match ParseUint o, ParseUint s with
    | none, none => if o < s then 1 else -1
    | none, some _ => -1
    | some _, none => 1
    | some oi, some si => if si > oi then 1 else -1

/-- Modelled from the spec: the loop of `comparePrerelease` over the
identifiers of both pre-releases, from index `i` for `n` more rounds; a
missing identifier is read as empty. -/
def comparePreLoop (sparts oparts : List Str) : Nat → Nat → Int
  | 0, _ => 0
  | n + 1, i =>
    if comparePrePart (sparts.getD i []) (oparts.getD i []) ≠ 0 then
      comparePrePart (sparts.getD i []) (oparts.getD i [])
    else comparePreLoop sparts oparts n (i + 1)

/-- Modelled from the spec: `comparePrerelease` of the library. -/
def comparePrerelease (v o : Str) : Int :=
  comparePreLoop (Split v ".".toList) (Split o ".".toList)
    (max (Split v ".".toList).length (Split o ".".toList).length) 0

/-- Modelled from the spec: `Version.Compare`, semantic-versioning
precedence: `-1`, `0` or `1`; build metadata is ignored. -/
def Version.Compare (v o : Version) : Int :=
  if v.major < o.major then -1
  else if v.major > o.major then 1
  else if v.minor < o.minor then -1
  else if v.minor > o.minor then 1
  else if v.patch < o.patch then -1
  else if v.patch > o.patch then 1
  else if v.pre = [] ∧ o.pre = [] then 0
  else if v.pre = [] then 1
  else if o.pre = [] then -1
  else comparePrerelease v.pre o.pre

/-! ## `internal/git/git.go`: the latest tag with a suffix -/

/-- Go `GetLatestTagWithSuffix` for the empty pattern, the only one the
program passes; `allTags` is the result of `getAllTags`, tags in descending
version order or an error. -/
def GetLatestTagWithSuffix (allTags : Except Str (List Str)) (suffix : Str) :
    Except Str Str :=
  match allTags with
  | Except.error err => Except.error err
  | Except.ok tags =>
    if tags.length = 0 then Except.ok []
    else
      let suffixTags := tags.filter (fun tag => hasSuffix tag suffix)
      if suffixTags.length = 0 then Except.ok [] else Except.ok (suffixTags.headD [])

/-! ## `cmd/semtag/version.go`: the branch suffix -/

/-- Go `versionFromTag`. -/
def versionFromTag (NewVersion : Str → Option Version) (tag pfx : Str) : Option Version :=
  if tag = [] then NewVersion (TrimPrefix "0.0.0".toList pfx)
  else NewVersion (TrimPrefix tag pfx)

/-- The errors that `applyBranchSuffix` returns. -/
inductive Failure where
  | latestTag (suffix : Str) (err : Str) : Failure
  | parseExisting (tag : Str) : Failure
  | setPrerelease (nextSuffix : Str) : Failure
  deriving DecidableEq

/-- What the program reads from the process and the repository: the order of
its `range` loops, the environment overrides, the current branch and the
tags merged into it. -/
structure World where
  order : GoMap → GoMap
  env : GoMap
  CurrentBranch : Str
  allTags : Except Str (List Str)

/-- Go `applyBranchSuffix`; `pfx` is the Go parameter `prefix`. -/
def applyBranchSuffix (lower : Char → Char) (lib : Semver) (w : World)
    (version : Version) (pfx : Str) (overrides : GoMap) : Except Failure Version :=
  let resolver := newBranchSuffixResolver lower w.order w.env overrides
  let branchSuffix := suffixForBranch lower resolver w.CurrentBranch
  if branchSuffix = [] then Except.ok version
  else
    match GetLatestTagWithSuffix w.allTags branchSuffix with
    | Except.error err => Except.error (Failure.latestTag branchSuffix err)
    | Except.ok existingTag =>
      let next : Except Failure Str :=
        if existingTag = [] then Except.ok (branchSuffix ++ ".1".toList)
        else
          match versionFromTag lib.NewVersion existingTag pfx with
          | none => Except.error (Failure.parseExisting existingTag)
          | some existingVersion =>
            if existingVersion.major = version.major ∧
                existingVersion.minor = version.minor ∧
                existingVersion.patch = version.patch then
              let prerelease := existingVersion.pre
              if prerelease = [] then Except.ok (branchSuffix ++ ".1".toList)
              else
                let nextNumber := getNextPrereleaseNumber prerelease branchSuffix
                Except.ok (branchSuffix ++ ".".toList ++ Itoa nextNumber)
            else Except.ok (branchSuffix ++ ".1".toList)
      match next with
      | Except.error err => Except.error err
      | Except.ok nextSuffix =>
        match version.SetPrerelease lib.validatePrerelease nextSuffix with
        | none => Except.error (Failure.setPrerelease nextSuffix)
        | some withSuffix => Except.ok withSuffix

/-! ## Vocabulary of the specification -/

/-- The keyword `kw` written in any letter case: `k` has the letters of `kw`,
each in lower or in upper case. -/
def anyCase : Str → Str → Bool
  | [], [] => true
  | x :: k, c :: kw => (x == c.toLower || x == c.toUpper) && anyCase k kw
  | _, _ => false

/-- An optional parenthesised scope written on one line: nothing, or `(`,
text without a line feed, `)`. -/
def IsOptScope (s : Str) : Prop :=
  s = [] ∨ ∃ mid : Str, s = '(' :: mid ++ [')'] ∧ '\n' ∉ mid

/-- The title contains, somewhere, a header of keyword `kw`: the keyword in
any letter case, an optional scope, then `:`. -/
def ContainsHeader (kw title : Str) : Prop :=
  ∃ pre k scope post : Str,
    title = pre ++ k ++ scope ++ ':' :: post ∧ anyCase k kw = true ∧ IsOptScope scope

/-- The title begins with a header of keyword `kw`. -/
def BeginsWithHeader (kw title : Str) : Prop :=
  ∃ k scope post : Str,
    title = k ++ scope ++ ':' :: post ∧ anyCase k kw = true ∧ IsOptScope scope

/-- The body contains `BREAKING CHANGE:` or `BREAKING-CHANGE:`, spelled so. -/
def BodyHasMarker (body : Str) : Prop :=
  "BREAKING CHANGE:".toList <:+: body ∨ "BREAKING-CHANGE:".toList <:+: body

/-- The title contains a word character (class `\w` of the pattern)
immediately followed by an optional scope and then `!:`. -/
def TitleHasBang (title : Str) : Prop :=
  ∃ (pre : Str) (w : Char) (scope post : Str),
    title = pre ++ w :: scope ++ '!' :: ':' :: post ∧ wordFold w = true ∧ IsOptScope scope

/-- What may stand right after the suffix of a tag: the end of the string,
a `.` or a digit. -/
def endsToken : Str → Bool
  | [] => true
  | c :: _ => c == '.' || isDigit c

/-- The text contains `pat` immediately followed by the end of the string, a
`.` or a digit. -/
def ContainsToken (t pat : Str) : Prop :=
  ∃ A B : Str, t = A ++ pat ++ B ∧ endsToken B = true

/-- The text is `A ++ pat ++ B` where this occurrence of `pat` is the
leftmost one, `B` holds no further occurrence of `pat`, and `B` is empty or
begins with a `.` or a digit. -/
def SingleToken (t pat : Str) : Prop :=
  ∃ A B : Str, t = A ++ pat ++ B ∧
    (∀ A' B' : Str, t = A' ++ pat ++ B' → A.length ≤ A'.length) ∧
    ¬ pat <:+: B ∧ endsToken B = true

/-- The text after the last `-` of `t` (all of `t` when it holds none). -/
def afterLastDash (t : Str) : Str :=
  (t.reverse.takeWhile (fun c => c != '-')).reverse

/-- A purely numeric text: a non-empty run of decimal digits. -/
def purelyNumeric (s : Str) : Bool := !s.isEmpty && s.all isDigit

/-- The text contains one of the pre-release indicators of `isStableTag`. -/
def HasIndicator (t : Str) : Prop := ∃ ind ∈ prereleaseIndicators, ind <:+: t

/-- A tag written `[v]MAJOR.MINOR.PATCH[-prerelease][+build]`, by its parts. -/
structure SemverTag where
  v : Bool
  major : Str
  minor : Str
  patch : Str
  pre : Option Str
  build : Option Str

/-- Dot-separated, non-empty identifiers over `[0-9A-Za-z-]`. -/
def isIdentifiers (s : Str) : Bool :=
  (Split s ".".toList).all (fun part => !part.isEmpty && part.all isIdentChar)

namespace SemverTag

/-- The three numbers are runs of digits; pre-release and build metadata,
when present, are dot-separated identifiers. -/
def wellFormed (g : SemverTag) : Bool :=
  purelyNumeric g.major && purelyNumeric g.minor && purelyNumeric g.patch &&
    (match g.pre with
      | some p => isIdentifiers p
      | none => true) &&
    (match g.build with
      | some b => isIdentifiers b
      | none => true)

/-- The tag without its leading `v`. -/
def bare (g : SemverTag) : Str :=
  g.major ++ ".".toList ++ g.minor ++ ".".toList ++ g.patch ++
    (match g.pre with
      | some p => "-".toList ++ p
      | none => []) ++
    (match g.build with
      | some b => "+".toList ++ b
      | none => [])

/-- The tag as written. -/
def text (g : SemverTag) : Str :=
  (if g.v then "v".toList else []) ++ g.bare

end SemverTag

/-- The entry becomes the exact rule for the branch name `n`: key and value
are not empty after normalisation, the key is no prefix pattern and it
normalises to `n`. -/
def isExactFor (lower : Char → Char) (n : Str) (entry : Str × Str) : Bool :=
  ToLower lower (TrimSpace entry.1) != [] && TrimSpace entry.2 != [] &&
    !HasSuffix (ToLower lower (TrimSpace entry.1)) "/*".toList &&
    ToLower lower (TrimSpace entry.1) == n

/-- The prefix rule that the entry becomes, if it becomes one. -/
def toPrefixRule (lower : Char → Char) (entry : Str × Str) : Option prefixRule :=
  if ToLower lower (TrimSpace entry.1) != [] && TrimSpace entry.2 != [] &&
      HasSuffix (ToLower lower (TrimSpace entry.1)) "/*".toList then
    some { pfx := TrimSuffix (ToLower lower (TrimSpace entry.1)) "/*".toList,
           suffix := TrimSpace entry.2 }
  else none

/-- Every code point of the text is ASCII. -/
def isAscii (s : Str) : Bool := s.all (fun c => decide (c.toNat < 128))

/-- The call returned, without error, the base version's major, minor and
patch with the pre-release `pre`. -/
def ReturnsWithPre (result : Except Failure Version) (version : Version) (pre : Str) : Prop :=
  ∃ r : Version, result = Except.ok r ∧ r.major = version.major ∧
    r.minor = version.minor ∧ r.patch = version.patch ∧ r.pre = pre

/-- The ten exact names of the default mapping. -/
def exactDefaultNames : List Str :=
  ["beta".toList, "develop".toList, "dev".toList, "staging".toList, "alpha".toList,
    "experimental".toList, "wip".toList, "rc".toList, "release".toList, "hotfix".toList]

/-- The three wildcard keys of the default mapping without their `/*`. -/
def wildcardStems : List Str := ["release".toList, "feature".toList, "hotfix".toList]

/-- The three wildcard keys of the default mapping without their `*`: the
beginnings of the branches inside `release/`, `feature/` and `hotfix/`. -/
def wildcardFolders : List Str := ["release/".toList, "feature/".toList, "hotfix/".toList]

/-! # Theorems -/

/-! ## Package `regexp`: the matcher decides the language -/

namespace Regex

theorem matches_nothing (s : Str) : ¬ Matches nothing s := by
  intro h; cases h

theorem matches_empty_iff (s : Str) : Matches empty s ↔ s = [] := by
  constructor
  · intro h; cases h; rfl
  · rintro rfl; exact Matches.empty

theorem matches_cls_iff (p : Char → Bool) (s : Str) :
    Matches (cls p) s ↔ ∃ c, s = [c] ∧ p c = true := by
  constructor
  · intro h; cases h with
    | cls hc => exact ⟨_, rfl, hc⟩
  · rintro ⟨c, rfl, hc⟩; exact Matches.cls hc

theorem matches_cat_iff (a b : Regex) (s : Str) :
    Matches (cat a b) s ↔ ∃ u v, s = u ++ v ∧ Matches a u ∧ Matches b v := by
  constructor
  · intro h; cases h with
    | cat ha hb => exact ⟨_, _, rfl, ha, hb⟩
  · rintro ⟨u, v, rfl, ha, hb⟩; exact Matches.cat ha hb

theorem matches_alt_iff (a b : Regex) (s : Str) :
    Matches (alt a b) s ↔ Matches a s ∨ Matches b s := by
  constructor
  · intro h; cases h with
    | altL ha => exact Or.inl ha
    | altR hb => exact Or.inr hb
  · rintro (ha | hb)
    · exact Matches.altL ha
    · exact Matches.altR hb

theorem matches_mkCat_iff (a b : Regex) (s : Str) :
    Matches (mkCat a b) s ↔ Matches (cat a b) s := by
  cases a <;> simp only [mkCat]
  · simp [matches_cat_iff, matches_nothing]
  · rw [matches_cat_iff]
    constructor
    · intro h; exact ⟨[], s, rfl, Matches.empty, h⟩
    · rintro ⟨u, v, rfl, hu, hv⟩
      rw [(matches_empty_iff u).mp hu]
      exact hv

theorem matches_mkAlt_iff (a b : Regex) (s : Str) :
    Matches (mkAlt a b) s ↔ Matches (alt a b) s := by
  cases a <;> cases b <;> simp [mkAlt, matches_alt_iff, matches_nothing]

theorem nullable_iff (r : Regex) : r.nullable = true ↔ Matches r [] := by
  induction r with
  | nothing => simp [nullable, matches_nothing]
  | empty => simp [nullable, matches_empty_iff]
  | cls p => simp [nullable, matches_cls_iff]
  | cat a b iha ihb =>
    simp only [nullable, Bool.and_eq_true, iha, ihb, matches_cat_iff]
    constructor
    · rintro ⟨ha, hb⟩; exact ⟨[], [], rfl, ha, hb⟩
    · rintro ⟨u, v, huv, ha, hb⟩
      have h := List.append_eq_nil.mp huv.symm
      rw [h.1] at ha; rw [h.2] at hb
      exact ⟨ha, hb⟩
  | alt a b iha ihb => simp [nullable, iha, ihb, matches_alt_iff]
  | star a _ => simp only [nullable, true_iff]; exact Matches.starNil

theorem matches_deriv_of_cons {r : Regex} {w : Str} (h : Matches r w) :
    ∀ (c : Char) (s : Str), w = c :: s → Matches (r.deriv c) s := by
  induction h with
  | empty => intro c s hw; cases hw
  | cls hc =>
    intro c s hw
    cases hw
    simp [deriv, hc, matches_empty_iff]
  | @cat a b u v ha hb iha ihb =>
    intro c s hw
    cases u with
    | nil =>
      have hn : a.nullable = true := (nullable_iff a).mpr ha
      simp only [deriv, hn, if_true, matches_mkAlt_iff, matches_alt_iff]
      exact Or.inr (ihb c s hw)
    | cons d u' =>
      simp only [List.cons_append, List.cons.injEq] at hw
      obtain ⟨rfl, rfl⟩ := hw
      have h1 : Matches (cat (a.deriv d) b) (u' ++ v) := Matches.cat (iha d u' rfl) hb
      by_cases hn : a.nullable = true
      · simp only [deriv, hn, if_true, matches_mkAlt_iff, matches_alt_iff, matches_mkCat_iff]
        exact Or.inl h1
      · have hn2 : a.nullable = false := by simpa using hn
        simp only [deriv, hn2, Bool.false_eq_true, if_false, matches_mkCat_iff]
        exact h1
  | altL _ ih =>
    intro c s hw
    simp only [deriv, matches_mkAlt_iff, matches_alt_iff]
    exact Or.inl (ih c s hw)
  | altR _ ih =>
    intro c s hw
    simp only [deriv, matches_mkAlt_iff, matches_alt_iff]
    exact Or.inr (ih c s hw)
  | starNil => intro c s hw; cases hw
  | @starCons a u v ha hs iha ihs =>
    intro c s hw
    cases u with
    | nil => exact ihs c s hw
    | cons d u' =>
      simp only [List.cons_append, List.cons.injEq] at hw
      obtain ⟨rfl, rfl⟩ := hw
      simp only [deriv, matches_mkCat_iff]
      exact Matches.cat (iha d u' rfl) hs

theorem matches_cons_of_deriv (r : Regex) (c : Char) :
    ∀ s : Str, Matches (r.deriv c) s → Matches r (c :: s) := by
  induction r with
  | nothing => intro s h; simp [deriv, matches_nothing] at h
  | empty => intro s h; simp [deriv, matches_nothing] at h
  | cls p =>
    intro s h
    by_cases hp : p c = true
    · simp only [deriv, hp, if_true, matches_empty_iff] at h
      subst h
      exact Matches.cls hp
    · simp [deriv, hp, matches_nothing] at h
  | cat a b iha ihb =>
    intro s h
    have key : Matches (cat (a.deriv c) b) s → Matches (cat a b) (c :: s) := by
      intro h1
      obtain ⟨u, v, rfl, hu, hv⟩ := (matches_cat_iff _ _ _).mp h1
      exact Matches.cat (iha u hu) hv
    by_cases hn : a.nullable = true
    · simp only [deriv, hn, if_true, matches_mkAlt_iff, matches_alt_iff, matches_mkCat_iff] at h
      rcases h with h | h
      · exact key h
      · exact Matches.cat (s := []) ((nullable_iff a).mp hn) (ihb s h)
    · have hn2 : a.nullable = false := by simpa using hn
      simp only [deriv, hn2, Bool.false_eq_true, if_false, matches_mkCat_iff] at h
      exact key h
  | alt a b iha ihb =>
    intro s h
    simp only [deriv, matches_mkAlt_iff, matches_alt_iff] at h
    rcases h with h | h
    · exact Matches.altL (iha s h)
    · exact Matches.altR (ihb s h)
  | star a iha =>
    intro s h
    simp only [deriv, matches_mkCat_iff] at h
    obtain ⟨u, v, rfl, hu, hv⟩ := (matches_cat_iff _ _ _).mp h
    exact Matches.starCons (iha u hu) hv

theorem matches_deriv_iff (r : Regex) (c : Char) (s : Str) :
    Matches (r.deriv c) s ↔ Matches r (c :: s) :=
  ⟨matches_cons_of_deriv r c s, fun h => matches_deriv_of_cons h c s rfl⟩

/-- The derivative matcher decides the language of the expression. -/
theorem fullMatch_iff (r : Regex) (s : Str) : fullMatch r s = true ↔ Matches r s := by
  induction s generalizing r with
  | nil => simp [fullMatch, nullable_iff]
  | cons c s ih => simp only [fullMatch, ih, matches_deriv_iff]

theorem matches_star_cls_forall {r : Regex} {s : Str} (h : Matches r s) :
    ∀ p : Char → Bool, r = star (cls p) → ∀ c ∈ s, p c = true := by
  induction h with
  | empty => intro p hr; cases hr
  | cls _ => intro p hr; cases hr
  | cat _ _ _ _ => intro p hr; cases hr
  | altL _ _ => intro p hr; cases hr
  | altR _ _ => intro p hr; cases hr
  | starNil => intro p _ c hc; simp at hc
  | starCons ha _ _ ihs =>
    intro p hr c hc
    cases hr
    rcases List.mem_append.mp hc with h1 | h2
    · obtain ⟨d, rfl, hd⟩ := (matches_cls_iff _ _).mp ha
      simp only [List.mem_singleton] at h1
      subst h1
      exact hd
    · exact ihs p rfl c h2

theorem matches_star_cls_iff (p : Char → Bool) (s : Str) :
    Matches (star (cls p)) s ↔ ∀ c ∈ s, p c = true := by
  constructor
  · intro h; exact matches_star_cls_forall h p rfl
  · intro h
    induction s with
    | nil => exact Matches.starNil
    | cons c s ih =>
      have h1 : Matches (cls p) [c] := Matches.cls (h c (List.mem_cons_self _ _))
      exact Matches.starCons h1 (ih fun d hd => h d (List.mem_cons_of_mem _ hd))

theorem matches_star_any (s : Str) : Matches (star any) s :=
  (matches_star_cls_iff _ s).mpr fun _ _ => rfl

theorem matches_star_dot_iff (s : Str) : Matches (star dot) s ↔ '\n' ∉ s := by
  unfold dot
  rw [matches_star_cls_iff]
  constructor
  · intro h hn
    have := h _ hn
    simp at this
  · intro h c hc
    have : c ≠ '\n' := fun e => h (e ▸ hc)
    simpa using this

theorem matches_plus_cls_iff (p : Char → Bool) (s : Str) :
    Matches (plus (cls p)) s ↔ s ≠ [] ∧ ∀ c ∈ s, p c = true := by
  unfold plus
  rw [matches_cat_iff]
  constructor
  · rintro ⟨u, v, rfl, hu, hv⟩
    obtain ⟨d, rfl, hd⟩ := (matches_cls_iff _ _).mp hu
    refine ⟨by simp, ?_⟩
    intro c hc
    rcases List.mem_append.mp hc with h1 | h2
    · simp only [List.mem_singleton] at h1
      subst h1
      exact hd
    · exact (matches_star_cls_iff p v).mp hv c h2
  · rintro ⟨hne, h⟩
    cases s with
    | nil => exact absurd rfl hne
    | cons c s =>
      refine ⟨[c], s, rfl, Matches.cls (h c (List.mem_cons_self _ _)), ?_⟩
      exact (matches_star_cls_iff p s).mpr fun d hd => h d (List.mem_cons_of_mem _ hd)

theorem matches_lit_iff (w s : Str) : Matches (lit w) s ↔ s = w := by
  induction w generalizing s with
  | nil => simp [lit, matches_empty_iff]
  | cons c w ih =>
    simp only [lit, matches_cat_iff, matches_cls_iff, ih]
    constructor
    · rintro ⟨u, v, rfl, ⟨d, rfl, hd⟩, rfl⟩
      have : d = c := by simpa using hd
      simp [this]
    · rintro rfl
      exact ⟨[c], w, rfl, ⟨c, rfl, by simp⟩, rfl⟩

theorem matches_litFold_iff (w s : Str) : Matches (litFold w) s ↔ anyCase s w = true := by
  induction w generalizing s with
  | nil =>
    cases s <;> simp [litFold, matches_empty_iff, anyCase]
  | cons c w ih =>
    simp only [litFold, matches_cat_iff, matches_cls_iff, ih]
    constructor
    · rintro ⟨u, v, rfl, ⟨d, rfl, hd⟩, hv⟩
      simp only [List.singleton_append, anyCase, Bool.and_eq_true]
      exact ⟨hd, hv⟩
    · intro h
      cases s with
      | nil => simp [anyCase] at h
      | cons d s =>
        simp only [anyCase, Bool.and_eq_true] at h
        exact ⟨[d], s, rfl, ⟨d, rfl, h.1⟩, h.2⟩

theorem anyCase_length {k kw : Str} (h : anyCase k kw = true) : k.length = kw.length := by
  induction k generalizing kw with
  | nil => cases kw <;> simp_all [anyCase]
  | cons x k ih =>
    cases kw with
    | nil => simp [anyCase] at h
    | cons c kw =>
      simp only [anyCase, Bool.and_eq_true] at h
      simp [ih h.2]

theorem matches_scopeOpt_iff (s : Str) : Matches scopeOpt s ↔ IsOptScope s := by
  unfold scopeOpt opt IsOptScope
  simp only [matches_alt_iff, matches_empty_iff, matches_cat_iff, matches_lit_iff,
    matches_star_dot_iff]
  constructor
  · rintro (⟨u, v, rfl, rfl, m, w, rfl, hm, rfl⟩ | h)
    · exact Or.inr ⟨m, rfl, hm⟩
    · exact Or.inl h
  · rintro (h | ⟨m, rfl, hm⟩)
    · exact Or.inr h
    · exact Or.inl ⟨['('], m ++ [')'], rfl, rfl, m, [')'], rfl, hm, rfl⟩

/-- `MatchString` holds exactly when some substring is in the language. -/
theorem MatchString_iff (r : Regex) (s : Str) :
    MatchString r s = true ↔ ∃ a b c, s = a ++ b ++ c ∧ Matches r b := by
  unfold MatchString
  rw [fullMatch_iff]
  simp only [matches_cat_iff]
  constructor
  · rintro ⟨a, v, rfl, _, b, c, rfl, hb, _⟩
    exact ⟨a, b, c, by simp, hb⟩
  · rintro ⟨a, b, c, rfl, hb⟩
    exact ⟨a, b ++ c, by simp, matches_star_any a, b, c, rfl, hb, matches_star_any c⟩

end Regex

/-! ## The bump decision: what the scan computes -/

theorem findNextScan_breaking (changes : List Commit) (minor patchCommit : Option Commit)
    (h : ∃ c ∈ changes, isBreaking c = true) :
    ∃ c, (findNextScan changes minor patchCommit).1 = some c := by
  induction changes generalizing minor patchCommit with
  | nil => simp at h
  | cons c cs ih =>
    unfold findNextScan
    by_cases hc : isBreaking c = true
    · exact ⟨c, by simp [hc]⟩
    · obtain ⟨d, hd, hbd⟩ := h
      have hd2 : d ∈ cs := by
        rcases List.mem_cons.mp hd with rfl | hd2
        · exact absurd hbd hc
        · exact hd2
      simp only [hc]
      exact ih _ _ ⟨d, hd2, hbd⟩

theorem findNextScan_noBreaking (changes : List Commit) (minor patchCommit : Option Commit)
    (h : ∀ c ∈ changes, isBreaking c = false) :
    findNextScan changes minor patchCommit =
      (none, minor.or (changes.find? isFeature), patchCommit.or (changes.find? isPatch)) := by
  induction changes generalizing minor patchCommit with
  | nil => simp [findNextScan]
  | cons c cs ih =>
    have hc : isBreaking c = false := h c (List.mem_cons_self _ _)
    have hcs : ∀ d ∈ cs, isBreaking d = false := fun d hd => h d (List.mem_cons_of_mem _ hd)
    unfold findNextScan
    simp only [hc, Bool.false_eq_true, if_false]
    rw [ih _ _ hcs]
    cases minor <;> cases patchCommit <;> cases hf : isFeature c <;> cases hp : isPatch c <;>
      simp [List.find?, hf, hp]

theorem find?_of_exists {p : Commit → Bool} (changes : List Commit)
    (h : ∃ c ∈ changes, p c = true) : ∃ c, changes.find? p = some c := by
  cases hf : changes.find? p with
  | some c => exact ⟨c, rfl⟩
  | none =>
    obtain ⟨d, hd, hpd⟩ := h
    have := List.find?_eq_none.mp hf d hd
    exact absurd hpd this

theorem find?_of_forall {p : Commit → Bool} (changes : List Commit)
    (h : ∀ c ∈ changes, p c = false) : changes.find? p = none := by
  apply List.find?_eq_none.mpr
  intro c hc
  simp [h c hc]

/-- C1. A commit list with at least one breaking commit, wherever it stands,
makes `findNext` return the major bump of the base version: major number
incremented (in `uint64` arithmetic, so exactly `major + 1` whenever that
fits), minor and patch zero, pre-release and build metadata empty. -/
theorem findNext_breaking_major (current : Version) (changes : List Commit)
    (h : ∃ c ∈ changes, isBreaking c = true) :
    findNext current changes = current.IncMajor ∧
      (findNext current changes).major = uint64 (current.major + 1) ∧
      (current.major + 1 < 2 ^ 64 → (findNext current changes).major = current.major + 1) ∧
      (findNext current changes).minor = 0 ∧
      (findNext current changes).patch = 0 ∧
      (findNext current changes).pre = [] ∧
      (findNext current changes).metadata = [] := by
  obtain ⟨c, hc⟩ := findNextScan_breaking changes none none h
  have hN : findNext current changes = current.IncMajor := by
    unfold findNext
    rcases hs : findNextScan changes none none with ⟨a, b, d⟩
    rw [hs] at hc
    simp only at hc
    subst hc
    rfl
  rw [hN]
  exact ⟨rfl, rfl, fun hlt => Nat.mod_eq_of_lt hlt, rfl, rfl, rfl, rfl⟩

theorem findNext_breaking_major_witness :
    (∃ c ∈ ([⟨[], "fix: a".toList, []⟩, ⟨[], "feat!: z".toList, []⟩, ⟨[], "feat: b".toList, []⟩] :
        List Commit), isBreaking c = true) ∧
    findNext ⟨1, 2, 3, [], [], "1.2.3".toList⟩
        [⟨[], "fix: a".toList, []⟩, ⟨[], "feat!: z".toList, []⟩, ⟨[], "feat: b".toList, []⟩]
      = Version.IncMajor ⟨1, 2, 3, [], [], "1.2.3".toList⟩ :=
  ⟨⟨⟨[], "feat!: z".toList, []⟩, by simp, by decide⟩,
   (findNext_breaking_major ⟨1, 2, 3, [], [], "1.2.3".toList⟩ _
      ⟨⟨[], "feat!: z".toList, []⟩, by simp, by decide⟩).1⟩

/-- C2. With no breaking commit and at least one feature commit, `findNext`
returns the minor bump: same major, minor incremented (in `uint64`
arithmetic, so exactly `minor + 1` whenever that fits), patch zero,
pre-release and build metadata empty, whatever the base version carried and
wherever fix commits stand. -/
theorem findNext_feature_minor (current : Version) (changes : List Commit)
    (hb : ∀ c ∈ changes, isBreaking c = false)
    (hf : ∃ c ∈ changes, isFeature c = true) :
    findNext current changes = current.IncMinor ∧
      (findNext current changes).major = current.major ∧
      (findNext current changes).minor = uint64 (current.minor + 1) ∧
      (current.minor + 1 < 2 ^ 64 → (findNext current changes).minor = current.minor + 1) ∧
      (findNext current changes).patch = 0 ∧
      (findNext current changes).pre = [] ∧
      (findNext current changes).metadata = [] := by
  obtain ⟨c, hc⟩ := find?_of_exists changes hf
  have hN : findNext current changes = current.IncMinor := by
    unfold findNext
    rw [findNextScan_noBreaking changes none none hb, hc]
    rfl
  rw [hN]
  exact ⟨rfl, rfl, rfl, fun hlt => Nat.mod_eq_of_lt hlt, rfl, rfl, rfl⟩

theorem findNext_feature_minor_witness :
    (findNext ⟨3, 4, 5, "beta34".toList, "ads".toList, "v3.4.5-beta34+ads".toList⟩
        [⟨[], "fix: a".toList, []⟩, ⟨[], "feat: w".toList, []⟩]).minor = uint64 (4 + 1) :=
  (findNext_feature_minor ⟨3, 4, 5, "beta34".toList, "ads".toList, "v3.4.5-beta34+ads".toList⟩
      [⟨[], "fix: a".toList, []⟩, ⟨[], "feat: w".toList, []⟩]
      (by decide) ⟨⟨[], "feat: w".toList, []⟩, by simp, by decide⟩).2.2.1

/-- C3. For a base version without a pre-release component, a commit list
with no breaking and no feature commit and at least one fix commit makes
`findNext` return the patch bump: same major and minor, patch incremented (in
`uint64` arithmetic, so exactly `patch + 1` whenever that fits), pre-release
and build metadata empty. -/
theorem findNext_patch_patch (current : Version) (changes : List Commit)
    (hpre : current.pre = [])
    (hb : ∀ c ∈ changes, isBreaking c = false)
    (hf : ∀ c ∈ changes, isFeature c = false)
    (hp : ∃ c ∈ changes, isPatch c = true) :
    findNext current changes = current.IncPatch ∧
      (findNext current changes).major = current.major ∧
      (findNext current changes).minor = current.minor ∧
      (findNext current changes).patch = uint64 (current.patch + 1) ∧
      (current.patch + 1 < 2 ^ 64 → (findNext current changes).patch = current.patch + 1) ∧
      (findNext current changes).pre = [] ∧
      (findNext current changes).metadata = [] := by
  obtain ⟨c, hc⟩ := find?_of_exists changes hp
  have hN : findNext current changes = current.IncPatch := by
    unfold findNext
    rw [findNextScan_noBreaking changes none none hb, hc, find?_of_forall changes hf]
    rfl
  rw [hN]
  have hP : current.IncPatch.patch = uint64 (current.patch + 1) := by
    simp [Version.IncPatch, Version.reoriginal, hpre]
  refine ⟨rfl, ?_, ?_, hP, fun hlt => hP.trans (Nat.mod_eq_of_lt hlt), ?_, ?_⟩ <;>
    simp [Version.IncPatch, Version.reoriginal, hpre]

theorem findNext_patch_patch_witness :
    (findNext ⟨0, 4, 5, [], [], "0.4.5".toList⟩ [⟨[], "fix: y".toList, []⟩]).patch
      = uint64 (5 + 1) :=
  (findNext_patch_patch ⟨0, 4, 5, [], [], "0.4.5".toList⟩ [⟨[], "fix: y".toList, []⟩]
      rfl (by decide) (by decide) ⟨⟨[], "fix: y".toList, []⟩, by simp, by decide⟩).2.2.2.1

/-- C4. When no commit of the list (the empty list included) is breaking, a
feature or a fix, `findNext` returns the base version itself, every field
unchanged. -/
theorem findNext_none_unchanged (current : Version) (changes : List Commit)
    (hb : ∀ c ∈ changes, isBreaking c = false)
    (hf : ∀ c ∈ changes, isFeature c = false)
    (hp : ∀ c ∈ changes, isPatch c = false) :
    findNext current changes = current := by
  unfold findNext
  rw [findNextScan_noBreaking changes none none hb, find?_of_forall changes hf,
    find?_of_forall changes hp]
  rfl

theorem findNext_none_unchanged_witness :
    findNext ⟨0, 4, 5, [], [], "0.4.5".toList⟩ [⟨[], "chore: x".toList, []⟩]
      = ⟨0, 4, 5, [], [], "0.4.5".toList⟩ :=
  findNext_none_unchanged ⟨0, 4, 5, [], [], "0.4.5".toList⟩ [⟨[], "chore: x".toList, []⟩]
    (by decide) (by decide) (by decide)

/-! ## The commit classifier: what the four patterns accept -/

theorem matchString_header_iff (kw title : Str) :
    MatchString (cat (star dot)
        (cat (litFold kw) (cat scopeOpt (cat (lit ":".toList) (star dot))))) title = true
      ↔ ContainsHeader kw title := by
  rw [MatchString_iff]
  simp only [matches_cat_iff, matches_litFold_iff, matches_scopeOpt_iff, matches_lit_iff]
  constructor
  · rintro ⟨a, b, c, rfl, d1, _, rfl, _, k, _, rfl, hk, sc, _, rfl, hsc, _, d2, rfl, rfl, _⟩
    exact ⟨a ++ d1, k, sc, d2 ++ c, by simp, hk, hsc⟩
  · rintro ⟨pre, k, sc, post, rfl, hk, hsc⟩
    refine ⟨pre, k ++ (sc ++ [':']), post, by simp, [], k ++ (sc ++ [':']), rfl,
      (matches_star_dot_iff []).mpr (by simp), k, sc ++ [':'], rfl, hk, sc, [':'], rfl, hsc,
      [':'], [], rfl, rfl, (matches_star_dot_iff []).mpr (by simp)⟩

theorem isFeature_iff (c : Commit) :
    isFeature c = true ↔ ContainsHeader "feat".toList c.Title :=
  matchString_header_iff _ _

theorem isPatch_iff (c : Commit) :
    isPatch c = true ↔ ContainsHeader "fix".toList c.Title :=
  matchString_header_iff _ _

theorem matchString_breakingBody_iff (body : Str) :
    MatchString breakingBody body = true ↔ BodyHasMarker body := by
  rw [MatchString_iff]
  unfold breakingBody BodyHasMarker
  simp only [matches_cat_iff, matches_lit_iff, matches_cls_iff]
  constructor
  · rintro ⟨a, b, c, rfl, d1, _, rfl, _, _, _, rfl, rfl, _, _, rfl, ⟨x, rfl, hx⟩, _, d2, rfl,
      rfl, _⟩
    simp only [Bool.or_eq_true, beq_iff_eq] at hx
    rcases hx with rfl | rfl
    · exact Or.inl ⟨a ++ d1, d2 ++ c, by simp⟩
    · exact Or.inr ⟨a ++ d1, d2 ++ c, by simp⟩
  · have hd : Matches (star dot) [] := (matches_star_dot_iff []).mpr (by simp)
    rintro (⟨u, v, rfl⟩ | ⟨u, v, rfl⟩)
    · exact ⟨u, "BREAKING CHANGE:".toList, v, rfl, [], _, rfl, hd, "BREAKING".toList, _, rfl,
        rfl, [' '], _, rfl, ⟨' ', rfl, rfl⟩, "CHANGE:".toList, [], rfl, rfl, hd⟩
    · exact ⟨u, "BREAKING-CHANGE:".toList, v, rfl, [], _, rfl, hd, "BREAKING".toList, _, rfl,
        rfl, ['-'], _, rfl, ⟨'-', rfl, rfl⟩, "CHANGE:".toList, [], rfl, rfl, hd⟩

theorem matchString_breaking_iff (title : Str) :
    MatchString breaking title = true ↔ TitleHasBang title := by
  rw [MatchString_iff]
  unfold breaking TitleHasBang
  simp only [matches_cat_iff, matches_lit_iff, matches_scopeOpt_iff, matches_plus_cls_iff]
  constructor
  · rintro ⟨a, b, c, rfl, d1, _, rfl, _, ws, _, rfl, ⟨hne, hws⟩, sc, _, rfl, hsc, _, d2, rfl,
      rfl, _⟩
    obtain ⟨ws', w, rfl⟩ : ∃ ws' w, ws = ws' ++ [w] :=
      ⟨ws.dropLast, ws.getLast hne, (List.dropLast_append_getLast hne).symm⟩
    exact ⟨a ++ d1 ++ ws', w, sc, d2 ++ c, by simp, hws w (by simp), hsc⟩
  · have hd : Matches (star dot) [] := (matches_star_dot_iff []).mpr (by simp)
    rintro ⟨pre, w, sc, post, rfl, hw, hsc⟩
    refine ⟨pre, w :: (sc ++ ['!', ':']), post, by simp, [], _, rfl, hd, [w], sc ++ ['!', ':'],
      rfl, ⟨by simp, ?_⟩, sc, ['!', ':'], rfl, hsc, ['!', ':'], [], rfl, rfl, hd⟩
    intro x hx
    simp only [List.mem_singleton] at hx
    subst hx
    exact hw

theorem isBreaking_iff (c : Commit) :
    isBreaking c = true ↔ BodyHasMarker c.Body ∨ TitleHasBang c.Title := by
  unfold isBreaking
  rw [Bool.or_eq_true, matchString_breakingBody_iff, matchString_breaking_iff]

theorem beginsWithHeader_contains {kw title : Str} (h : BeginsWithHeader kw title) :
    ContainsHeader kw title := by
  obtain ⟨k, sc, post, rfl, hk, hsc⟩ := h
  exact ⟨[], k, sc, post, rfl, hk, hsc⟩

theorem beginsWithHeader_take {kw title : Str} (h : BeginsWithHeader kw title) :
    anyCase (title.take kw.length) kw = true := by
  obtain ⟨k, sc, post, rfl, hk, _⟩ := h
  have hl := anyCase_length hk
  rw [← hl, List.append_assoc, List.take_left]
  exact hk

theorem anyCase_letter {k kw : Str} (h : anyCase k kw = true) :
    ∀ c ∈ kw, ∃ x ∈ k, (x == c.toLower || x == c.toUpper) = true := by
  induction k generalizing kw with
  | nil => cases kw <;> simp_all [anyCase]
  | cons x k ih =>
    cases kw with
    | nil => simp [anyCase] at h
    | cons d kw =>
      simp only [anyCase, Bool.and_eq_true] at h
      intro c hc
      rcases List.mem_cons.mp hc with rfl | hc
      · exact ⟨x, List.mem_cons_self _ _, h.1⟩
      · obtain ⟨y, hy, hyc⟩ := ih h.2 c hc
        exact ⟨y, List.mem_cons_of_mem _ hy, hyc⟩

/-- A title that contains a header of keyword `kw` contains every letter of
`kw`, in one case or the other. -/
theorem containsHeader_letter {kw title : Str} (h : ContainsHeader kw title) :
    ∀ c ∈ kw, ∃ x ∈ title, (x == c.toLower || x == c.toUpper) = true := by
  obtain ⟨pre, k, sc, post, rfl, hk, _⟩ := h
  intro c hc
  obtain ⟨x, hx, hxc⟩ := anyCase_letter hk c hc
  exact ⟨x, by simp [hx], hxc⟩

/-- C5. A commit is breaking exactly when its body contains
`BREAKING CHANGE:` or `BREAKING-CHANGE:` in this spelling, or its title
contains a word character immediately followed by an optional one-line
parenthesised scope and then `!:`. The three titles that only mention a
differently spelled marker, with an empty body, are not breaking. -/
theorem isBreaking_iff_marker_or_bang :
    (∀ c : Commit, isBreaking c = true ↔ BodyHasMarker c.Body ∨ TitleHasBang c.Title) ∧
    isBreaking ⟨[], "docs: BREAKING change: lalal".toList, []⟩ = false ∧
    isBreaking ⟨[], "docs: breaking-change: aehijhk".toList, []⟩ = false ∧
    isBreaking ⟨[], "docs: BREAKING_CHANGE: foo".toList, []⟩ = false :=
  ⟨isBreaking_iff, by decide, by decide, by decide⟩

/-- C6. A title that begins with `feat` in any letter case, an optional
one-line parenthesised scope and `:` is a feature; a title that begins with
`fix` in any letter case, an optional one-line parenthesised scope and `:`
is a fix. -/
theorem header_at_start_classified :
    (∀ c : Commit, BeginsWithHeader "feat".toList c.Title → isFeature c = true) ∧
    (∀ c : Commit, BeginsWithHeader "fix".toList c.Title → isPatch c = true) :=
  ⟨fun c h => (isFeature_iff c).mpr (beginsWithHeader_contains h),
   fun c h => (isPatch_iff c).mpr (beginsWithHeader_contains h)⟩

theorem header_at_start_classified_witness :
    isFeature ⟨[], "FeAt(lalal): foobar".toList, []⟩ = true ∧
    isPatch ⟨[], "Fix: foo".toList, []⟩ = true :=
  ⟨header_at_start_classified.1 ⟨[], "FeAt(lalal): foobar".toList, []⟩
      ⟨"FeAt".toList, "(lalal)".toList, " foobar".toList, rfl, rfl,
        Or.inr ⟨"lalal".toList, rfl, by decide⟩⟩,
   header_at_start_classified.2 ⟨[], "Fix: foo".toList, []⟩
      ⟨"Fix".toList, [], " foo".toList, rfl, rfl, Or.inl rfl⟩⟩

/-- C7, as stated, fails: the title `chore: defeat: x` does not begin with a
feat header, yet the pattern finds `feat:` further on and `isFeature` holds. -/
theorem isFeature_header_inside_title :
    ¬ BeginsWithHeader "feat".toList "chore: defeat: x".toList ∧
    isFeature ⟨[], "chore: defeat: x".toList, []⟩ = true :=
  ⟨fun h => absurd (beginsWithHeader_take h) (by decide), by decide⟩

/-- C7, amended. A title that nowhere contains a feat header (`feat` in any
letter case, an optional one-line parenthesised scope, then `:`) is not a
feature. -/
theorem isFeature_false_of_no_header (c : Commit)
    (h : ¬ ContainsHeader "feat".toList c.Title) : isFeature c = false := by
  cases hf : isFeature c with
  | false => rfl
  | true => exact absurd ((isFeature_iff c).mp hf) h

theorem isFeature_false_of_no_header_witness :
    isFeature ⟨[], "fix: foo".toList, []⟩ = false :=
  isFeature_false_of_no_header ⟨[], "fix: foo".toList, []⟩ fun h => by
    have h2 := containsHeader_letter h 'e' (by decide)
    revert h2
    decide

/-- C8, as stated, fails: the title `chore: prefix: x` does not begin with a
fix header, yet the pattern finds `fix:` inside `prefix:` and `isPatch`
holds. -/
theorem isPatch_header_inside_title :
    ¬ BeginsWithHeader "fix".toList "chore: prefix: x".toList ∧
    isPatch ⟨[], "chore: prefix: x".toList, []⟩ = true :=
  ⟨fun h => absurd (beginsWithHeader_take h) (by decide), by decide⟩

/-- C8, amended. A title that nowhere contains a fix header (`fix` in any
letter case, an optional one-line parenthesised scope, then `:`) is not a
fix. -/
theorem isPatch_false_of_no_header (c : Commit)
    (h : ¬ ContainsHeader "fix".toList c.Title) : isPatch c = false := by
  cases hf : isPatch c with
  | false => rfl
  | true => exact absurd ((isPatch_iff c).mp hf) h

/-! ## Package `strings`: `Index`, `Count` and `Split` -/

theorem HasPrefix_iff (s pre : Str) : HasPrefix s pre = true ↔ ∃ r, s = pre ++ r := by
  unfold HasPrefix
  rw [List.isPrefixOf_iff_prefix]
  constructor
  · rintro ⟨r, h⟩; exact ⟨r, h.symm⟩
  · rintro ⟨r, h⟩; exact ⟨r, h.symm⟩

/-- Every occurrence of `p` is seen by `Index`, which answers with a position
not after it. -/
theorem Index_of_occurrence (A p B : Str) :
    ∃ m, Index (A ++ p ++ B) p = some m ∧ m ≤ A.length := by
  induction A with
  | nil =>
    have hp : HasPrefix (p ++ B) p = true := (HasPrefix_iff _ _).mpr ⟨B, rfl⟩
    refine ⟨0, ?_, Nat.le_refl _⟩
    simp only [List.nil_append]
    cases h : p ++ B with
    | nil => rw [h] at hp; simp [Index, hp]
    | cons c s => rw [h] at hp; simp [Index, hp]
  | cons a A ih =>
    obtain ⟨m, hm, hle⟩ := ih
    have e : (a :: A) ++ p ++ B = a :: (A ++ p ++ B) := by simp
    rw [e]
    simp only [Index]
    by_cases hp : HasPrefix (a :: (A ++ p ++ B)) p = true
    · exact ⟨0, by rw [if_pos hp], Nat.zero_le _⟩
    · exact ⟨m + 1, by rw [if_neg hp, hm]; rfl, by simpa using hle⟩

/-- The position answered by `Index` is that of an occurrence. -/
theorem Index_some_occurrence {s p : Str} {m : Nat} (h : Index s p = some m) :
    ∃ A B, s = A ++ p ++ B ∧ A.length = m := by
  induction s generalizing m with
  | nil =>
    simp only [Index] at h
    by_cases hp : HasPrefix [] p = true
    · obtain ⟨r, hr⟩ := (HasPrefix_iff _ _).mp hp
      simp only [hp, if_true, Option.some.injEq] at h
      exact ⟨[], r, by simpa using hr, by simpa using h⟩
    · simp [hp] at h
  | cons c s ih =>
    simp only [Index] at h
    by_cases hp : HasPrefix (c :: s) p = true
    · obtain ⟨r, hr⟩ := (HasPrefix_iff _ _).mp hp
      simp only [hp, if_true, Option.some.injEq] at h
      exact ⟨[], r, by simpa using hr, by simpa using h⟩
    · simp only [hp, Bool.false_eq_true, if_false, Option.map_eq_some'] at h
      obtain ⟨m', hm', rfl⟩ := h
      obtain ⟨A, B, rfl, hA⟩ := ih hm'
      exact ⟨c :: A, B, by simp, by simp [hA]⟩

theorem Index_leftmost {s p : Str} {m : Nat} (h : Index s p = some m) (A B : Str)
    (hs : s = A ++ p ++ B) : m ≤ A.length := by
  obtain ⟨m', hm', hle⟩ := Index_of_occurrence A p B
  rw [← hs, h] at hm'
  cases hm'
  exact hle

theorem Index_eq_none_iff (s p : Str) : Index s p = none ↔ ¬ p <:+: s := by
  constructor
  · rintro h ⟨A, B, hs⟩
    obtain ⟨m, hm, _⟩ := Index_of_occurrence A p B
    rw [hs, h] at hm
    cases hm
  · intro h
    cases hi : Index s p with
    | none => rfl
    | some m =>
      obtain ⟨A, B, hs, _⟩ := Index_some_occurrence hi
      exact absurd ⟨A, B, hs.symm⟩ h

theorem countLoop_le (p : Str) (fuel : Nat) (s : Str) : countLoop p fuel s ≤ fuel := by
  induction fuel generalizing s with
  | zero => simp [countLoop]
  | succ n ih =>
    simp only [countLoop]
    cases Index s p with
    | none => simp
    | some i => simpa using ih _

/-- The round limit of the counting loop is never what ends it: any fuel
from `len(s)` on gives the same count. -/
theorem countLoop_fuel (p : Str) (hp : p ≠ []) (fuel : Nat) (s : Str)
    (h : s.length ≤ fuel) : countLoop p fuel s = countLoop p s.length s := by
  induction fuel using Nat.strong_induction_on generalizing s with
  | _ fuel ih =>
    cases fuel with
    | zero =>
      have : s.length = 0 := Nat.le_zero.mp h
      rw [this]
    | succ n =>
      cases hl : s.length with
      | zero =>
        have hs : s = [] := List.length_eq_zero.mp hl
        subst hs
        have hn : Index [] p = none := by
          rw [Index_eq_none_iff]
          rintro ⟨A, B, hAB⟩
          simp at hAB
          exact hp hAB.2.1
        simp [countLoop, hn]
      | succ k =>
        simp only [countLoop]
        cases hi : Index s p with
        | none => rfl
        | some i =>
          simp only
          have hp1 : 0 < p.length := List.length_pos.mpr hp
          have hd : (s.drop (i + p.length)).length ≤ k := by
            rw [List.length_drop]; omega
          have hn : k ≤ n := by omega
          rw [ih n (Nat.lt_succ_self n) _ (Nat.le_trans hd hn),
            ih k (by omega) _ hd]

theorem genSplitLoop_none (p : Str) (n : Nat) (s : Str) (h : Index s p = none) :
    genSplitLoop p n s = [s] := by
  cases n <;> simp [genSplitLoop, h]

theorem genSplitLoop_ne_nil (p : Str) (n : Nat) (s : Str) : genSplitLoop p n s ≠ [] := by
  cases n with
  | zero => simp [genSplitLoop]
  | succ n =>
    simp only [genSplitLoop]
    cases Index s p <;> simp

theorem Split_eq (s p : Str) (hp : p ≠ []) :
    Split s p = genSplitLoop p (countLoop p s.length s) s := by
  unfold Split Count
  have h := countLoop_le p s.length s
  simp only [hp, if_false]
  congr 1
  omega

theorem Index_some_bound {s p : Str} {m : Nat} (h : Index s p = some m) :
    m + p.length ≤ s.length := by
  obtain ⟨A, B, rfl, rfl⟩ := Index_some_occurrence h
  simp only [List.length_append]
  omega

/-- Splitting yields exactly two parts when the text after the leftmost
separator holds no further separator; the second part is that text. -/
theorem Split_two_iff (s p : Str) (hp : p ≠ []) (a r : Str) :
    Split s p = [a, r] ↔
      ∃ m, Index s p = some m ∧ a = s.take m ∧ r = s.drop (m + p.length) ∧
        Index r p = none := by
  rw [Split_eq s p hp]
  have hp1 : 0 < p.length := List.length_pos.mpr hp
  cases hi : Index s p with
  | none => simp [genSplitLoop_none p _ s hi]
  | some m =>
    have hb := Index_some_bound hi
    obtain ⟨k, hk⟩ : ∃ k, s.length = k + 1 := ⟨s.length - 1, by omega⟩
    rw [hk]
    simp only [countLoop, hi, genSplitLoop, Option.some.injEq, exists_eq_left']
    cases hr : Index (s.drop (m + p.length)) p with
    | none =>
      rw [genSplitLoop_none p _ _ hr]
      constructor
      · intro h
        simp only [List.cons.injEq, and_true] at h
        exact ⟨h.1.symm, h.2.symm, by rw [← h.2]; exact hr⟩
      · rintro ⟨rfl, rfl, _⟩
        rfl
    | some m' =>
      have hb' := Index_some_bound hr
      rw [List.length_drop] at hb'
      obtain ⟨k', hk'⟩ : ∃ k', k = k' + 1 := ⟨k - 1, by omega⟩
      subst hk'
      simp only [countLoop, hr, genSplitLoop]
      constructor
      · intro h
        simp only [List.cons.injEq] at h
        exact absurd h.2.2 (genSplitLoop_ne_nil _ _ _)
      · rintro ⟨_, rfl, h⟩
        rw [hr] at h
        cases h

theorem Index_nil_none (p : Str) (hp : p ≠ []) : Index [] p = none := by
  rw [Index_eq_none_iff]
  rintro ⟨A, B, hAB⟩
  simp at hAB
  exact hp hAB.2.1

theorem genSplitLoop_parts (p : Str) (hp : p ≠ []) (fuel : Nat) (s : Str)
    (h : s.length ≤ fuel) :
    ∀ part ∈ genSplitLoop p (countLoop p fuel s) s, ¬ p <:+: part := by
  induction fuel generalizing s with
  | zero =>
    have hs : s = [] := List.length_eq_zero.mp (Nat.le_zero.mp h)
    subst hs
    intro part hpart
    simp only [countLoop, genSplitLoop, List.mem_singleton] at hpart
    subst hpart
    exact (Index_eq_none_iff [] p).mp (Index_nil_none p hp)
  | succ n ih =>
    intro part hpart
    cases hi : Index s p with
    | none =>
      simp only [countLoop, hi, genSplitLoop, List.mem_singleton] at hpart
      subst hpart
      exact (Index_eq_none_iff _ p).mp hi
    | some m =>
      have hp1 : 0 < p.length := List.length_pos.mpr hp
      simp only [countLoop, hi, genSplitLoop, List.mem_cons] at hpart
      rcases hpart with rfl | hpart
      · rintro ⟨A, B, hAB⟩
        have hs : s = A ++ p ++ (B ++ s.drop m) := by
          conv_lhs => rw [← List.take_append_drop m s, ← hAB]
          simp
        have hle := Index_leftmost hi A _ hs
        have hlen := congrArg List.length hAB
        simp only [List.length_append, List.length_take] at hlen
        omega
      · refine ih _ ?_ part hpart
        rw [List.length_drop]
        omega

/-- No part of a split holds the separator: the round limit taken from
`Count` lets the loop cut at every occurrence. -/
theorem Split_parts (s p : Str) (hp : p ≠ []) : ∀ part ∈ Split s p, ¬ p <:+: part := by
  rw [Split_eq s p hp]
  exact genSplitLoop_parts p hp s.length s (Nat.le_refl _)

/-! ## The tag classifier -/

theorem hasSuffix_iff (tag suffix : Str) :
    hasSuffix tag suffix = true ↔
      ∃ m, Index (TrimPrefix tag "v".toList) ('-' :: suffix) = some m ∧
        Index ((TrimPrefix tag "v".toList).drop (m + ('-' :: suffix).length)) ('-' :: suffix)
          = none ∧
        endsToken ((TrimPrefix tag "v".toList).drop (m + ('-' :: suffix).length)) = true := by
  have hp : ('-' :: suffix) ≠ [] := by simp
  unfold hasSuffix
  simp only [show "-".toList ++ suffix = '-' :: suffix from rfl]
  generalize TrimPrefix tag "v".toList = t
  constructor
  · intro h
    split at h
    · split at h
      · next a r hsp =>
        obtain ⟨m, hm, -, rfl, hn⟩ := (Split_two_iff t _ hp a r).mp hsp
        refine ⟨m, hm, hn, ?_⟩
        revert h
        cases t.drop (m + ('-' :: suffix).length) <;> simp [endsToken]
      · cases h
    · cases h
  · rintro ⟨m, hm, hn, he⟩
    have hc : Contains t ('-' :: suffix) = true := by simp [Contains, hm]
    have hsp := (Split_two_iff t _ hp (t.take m) (t.drop (m + ('-' :: suffix).length))).mpr
      ⟨m, hm, rfl, rfl, hn⟩
    simp only [hc, if_true, hsp]
    revert he
    cases t.drop (m + ('-' :: suffix).length) <;> simp [endsToken]

theorem isPatch_false_of_no_header_witness :
    isPatch ⟨[], "chore: foobar".toList, []⟩ = false :=
  isPatch_false_of_no_header ⟨[], "chore: foobar".toList, []⟩ fun h => by
    have h2 := containsHeader_letter h 'i' (by decide)
    revert h2
    decide

theorem drop_of_occurrence (A p B : Str) (m : Nat) (h : A.length = m) :
    (A ++ p ++ B).drop (m + p.length) = B := by
  apply List.drop_left'
  simp [h]

theorem TrimPrefix_v_dash (X rest : Str) :
    ∃ Y, TrimPrefix (X ++ '-' :: rest) "v".toList = Y ++ '-' :: rest := by
  show ∃ Y, TrimPrefix (X ++ '-' :: rest) ['v'] = Y ++ '-' :: rest
  unfold TrimPrefix HasPrefix
  cases X with
  | nil => exact ⟨[], by simp [List.isPrefixOf]⟩
  | cons x X =>
    by_cases hx : x = 'v'
    · subst hx
      exact ⟨X, by simp [List.isPrefixOf]⟩
    · exact ⟨x :: X, by simp [List.isPrefixOf, Ne.symm hx]⟩

/-- When the suffix holds no `-`, a tag text `Y-sE` whose `E` may not follow
a suffix is never split into two parts with an acceptable second part. -/
theorem no_single_token_of_extension (Y s E : Str) (hs : '-' ∉ s)
    (hE : endsToken E = false) (m : Nat)
    (hm : Index (Y ++ '-' :: s ++ E) ('-' :: s) = some m)
    (hn : Index ((Y ++ '-' :: s ++ E).drop (m + ('-' :: s).length)) ('-' :: s) = none)
    (he : endsToken ((Y ++ '-' :: s ++ E).drop (m + ('-' :: s).length)) = true) : False := by
  obtain ⟨A, R, hAR, hA⟩ := Index_some_occurrence hm
  have hle : m ≤ Y.length := Index_leftmost hm Y E rfl
  rw [hAR, drop_of_occurrence A _ R m hA] at hn he
  rw [Index_eq_none_iff] at hn
  have e : A ++ (('-' :: s) ++ R) = Y ++ (('-' :: s) ++ E) := by
    simpa using hAR.symm
  have hRE : R = E → False := fun h => by
    rw [h, hE] at he
    cases he
  rcases List.append_eq_append_iff.mp e with ⟨a', _, hpR⟩ | ⟨c', hA', hpE⟩
  · rcases List.append_eq_append_iff.mp hpR with ⟨x, _, hR⟩ | ⟨y, hp, hpE⟩
    · exact hn ⟨x, E, by simp [hR]⟩
    · cases a' with
      | nil =>
        simp only [List.nil_append] at hp
        subst hp
        exact hRE (List.append_cancel_left hpE).symm
      | cons q a'' =>
        simp only [List.cons_append, List.cons.injEq] at hp
        obtain ⟨_, hs2⟩ := hp
        cases y with
        | nil =>
          simp only [List.nil_append] at hpE
          exact hn ⟨[], E, by simp [hpE]⟩
        | cons z y' =>
          simp only [List.cons_append, List.cons.injEq] at hpE
          apply hs
          rw [hs2, hpE.1]
          simp
  · have hc : c' = [] := by
      have hl := congrArg List.length hA'
      simp only [List.length_append] at hl
      exact List.length_eq_zero.mp (by omega)
    subst hc
    simp only [List.nil_append] at hpE
    exact hRE (List.append_cancel_left hpE).symm

/-- C9. For a non-empty suffix `s` of letters and digits, a tag `X-sE` whose
`E` is non-empty and begins with neither `.` nor a digit is not recognised as
carrying the suffix `s`. -/
theorem hasSuffix_rejects_extension (X s : Str) (e : Char) (E : Str)
    (_hne : s ≠ []) (hs : ∀ c ∈ s, c.isAlphanum = true)
    (hdot : e ≠ '.') (hdig : isDigit e = false) :
    hasSuffix (X ++ "-".toList ++ s ++ e :: E) s = false := by
  have hdash : '-' ∉ s := fun h => by
    have := hs _ h
    revert this
    decide
  have hE : endsToken (e :: E) = false := by simp [endsToken, hdot, hdig]
  cases h : hasSuffix (X ++ "-".toList ++ s ++ e :: E) s with
  | false => rfl
  | true =>
    exfalso
    obtain ⟨m, hm, hn, he⟩ := (hasSuffix_iff _ _).mp h
    obtain ⟨Y, hY⟩ := TrimPrefix_v_dash X (s ++ e :: E)
    have e1 : X ++ "-".toList ++ s ++ e :: E = X ++ '-' :: (s ++ e :: E) := by
      show X ++ ['-'] ++ s ++ e :: E = X ++ '-' :: (s ++ e :: E)
      simp
    have e2 : Y ++ '-' :: (s ++ e :: E) = Y ++ '-' :: s ++ e :: E := by simp
    rw [e1, hY, e2] at hm hn he
    exact no_single_token_of_extension Y s (e :: E) hdash hE m hm hn he

theorem hasSuffix_rejects_extension_witness :
    hasSuffix ("1.0.0".toList ++ "-".toList ++ "beta".toList ++ 'p' :: "lus".toList)
      "beta".toList = false :=
  hasSuffix_rejects_extension "1.0.0".toList "beta".toList 'p' "lus".toList
    (by decide) (by decide) (by decide) (by decide)

/-- C10, as stated, fails: after removing the leading `v`, the tag
`v1.0.0-beta.1-beta.2` contains `-beta` followed by `.`, but its two
occurrences of `-beta` split it into three parts and `hasSuffix` answers
false. -/
theorem hasSuffix_second_occurrence :
    ContainsToken (TrimPrefix "v1.0.0-beta.1-beta.2".toList "v".toList)
        ("-".toList ++ "beta".toList) ∧
    hasSuffix "v1.0.0-beta.1-beta.2".toList "beta".toList = false :=
  ⟨⟨"1.0.0".toList, ".1-beta.2".toList, by decide, by decide⟩, by decide⟩

/-- C10, amended. `hasSuffix(tag, suffix)` holds exactly when the tag, after
removing one leading `v`, is `A + "-" + suffix + B` where this occurrence of
`"-" + suffix` is the leftmost one, `B` contains no further occurrence of it,
and `B` is empty or begins with a `.` or a digit. -/
theorem hasSuffix_iff_single_token (tag suffix : Str) :
    hasSuffix tag suffix = true ↔
      SingleToken (TrimPrefix tag "v".toList) ("-".toList ++ suffix) := by
  rw [hasSuffix_iff, show "-".toList ++ suffix = '-' :: suffix from rfl]
  generalize TrimPrefix tag "v".toList = t
  constructor
  · rintro ⟨m, hm, hn, he⟩
    obtain ⟨A, R, hAR, hA⟩ := Index_some_occurrence hm
    rw [hAR, drop_of_occurrence A _ R m hA] at hn he
    rw [Index_eq_none_iff] at hn
    refine ⟨A, R, hAR, ?_, hn, he⟩
    intro A' B' h'
    rw [hA]
    exact Index_leftmost hm A' B' h'
  · rintro ⟨A, B, ht, hleft, hnot, he⟩
    obtain ⟨m, hm, hle⟩ := Index_of_occurrence A ('-' :: suffix) B
    rw [← ht] at hm
    obtain ⟨A2, B2, ht2, hA2⟩ := Index_some_occurrence hm
    have hge := hleft A2 B2 ht2
    have hmA : A.length = m := by omega
    refine ⟨m, hm, ?_, ?_⟩
    · rw [ht, drop_of_occurrence A _ B m hmA, Index_eq_none_iff]
      exact hnot
    · rw [ht, drop_of_occurrence A _ B m hmA]
      exact he

/-! ## Stable tags -/

theorem Contains_iff (s p : Str) : Contains s p = true ↔ p <:+: s := by
  unfold Contains
  cases h : Index s p with
  | none =>
    have := (Index_eq_none_iff s p).mp h
    simp [this]
  | some m =>
    obtain ⟨A, B, hs, _⟩ := Index_some_occurrence h
    simp only [Option.isSome_some, true_iff]
    exact ⟨A, B, hs.symm⟩

/-- The last part of a split holds no separator and is what follows the last
separator of the text; a single part is the whole text. -/
theorem genSplitLoop_last (p : Str) (hp : p ≠ []) (fuel : Nat) (s : Str)
    (h : s.length ≤ fuel) :
    ∃ init L, genSplitLoop p (countLoop p fuel s) s = init ++ [L] ∧ ¬ p <:+: L ∧
      ((init = [] ∧ s = L) ∨ (init ≠ [] ∧ ∃ A, s = A ++ p ++ L)) := by
  induction fuel generalizing s with
  | zero =>
    have hs : s = [] := List.length_eq_zero.mp (Nat.le_zero.mp h)
    subst hs
    exact ⟨[], [], by simp [countLoop, genSplitLoop],
      (Index_eq_none_iff [] p).mp (Index_nil_none p hp), Or.inl ⟨rfl, rfl⟩⟩
  | succ n ih =>
    cases hi : Index s p with
    | none =>
      exact ⟨[], s, by simp [countLoop, hi, genSplitLoop],
        (Index_eq_none_iff s p).mp hi, Or.inl ⟨rfl, rfl⟩⟩
    | some m =>
      have hp1 : 0 < p.length := List.length_pos.mpr hp
      have hlen : (s.drop (m + p.length)).length ≤ n := by
        rw [List.length_drop]; omega
      obtain ⟨init, L, hR, hL, hcase⟩ := ih (s.drop (m + p.length)) hlen
      obtain ⟨A, B, hAB, hA⟩ := Index_some_occurrence hi
      have hdrop : s.drop (m + p.length) = B := by
        rw [hAB]; exact drop_of_occurrence A p B m hA
      refine ⟨s.take m :: init, L, by simp [countLoop, hi, genSplitLoop, hR], hL,
        Or.inr ⟨by simp, ?_⟩⟩
      rw [hdrop] at hcase
      rcases hcase with ⟨_, hBL⟩ | ⟨_, A', hB⟩
      · exact ⟨A, by rw [hAB, hBL]⟩
      · exact ⟨A ++ p ++ A', by rw [hAB, hB]; simp⟩

theorem Split_last (s p : Str) (hp : p ≠ []) :
    ∃ init L, Split s p = init ++ [L] ∧ ¬ p <:+: L ∧
      ((init = [] ∧ s = L) ∨ (init ≠ [] ∧ ∃ A, s = A ++ p ++ L)) := by
  rw [Split_eq s p hp]
  exact genSplitLoop_last p hp s.length s (Nat.le_refl _)

theorem dash_infix_iff (t : Str) : "-".toList <:+: t ↔ '-' ∈ t := by
  constructor
  · intro h
    exact h.mem (show '-' ∈ "-".toList by decide)
  · intro h
    obtain ⟨A, B, rfl⟩ := List.append_of_mem h
    exact ⟨A, B, by simp⟩

theorem afterLastDash_of_last (A L : Str) (hL : '-' ∉ L) :
    afterLastDash (A ++ "-".toList ++ L) = L := by
  unfold afterLastDash
  have e : (A ++ "-".toList ++ L).reverse = L.reverse ++ '-' :: A.reverse := by
    show (A ++ ['-'] ++ L).reverse = L.reverse ++ '-' :: A.reverse
    simp
  rw [e, List.takeWhile_append_of_pos]
  · simp
  · intro a ha
    have : a ≠ '-' := fun e => hL (e ▸ List.mem_reverse.mp ha)
    simpa using this

theorem afterLastDash_of_none (t : Str) (h : '-' ∉ t) : afterLastDash t = t := by
  unfold afterLastDash
  have : t.reverse.takeWhile (fun c => c != '-') = t.reverse := by
    rw [List.takeWhile_eq_self_iff]
    intro a ha
    have : a ≠ '-' := fun e => h (e ▸ List.mem_reverse.mp ha)
    simpa using this
  rw [this, List.reverse_reverse]

/-- Splitting at `-` gives more than one part exactly when the text holds a
`-`, and then the last part is the text after the last `-`. -/
theorem Split_dash (t : Str) :
    ((Split t "-".toList).length > 1 ↔ '-' ∈ t) ∧
      (Split t "-".toList).getLastD [] = afterLastDash t := by
  obtain ⟨init, L, hS, hL, hcase⟩ := Split_last t "-".toList (by decide)
  rw [dash_infix_iff] at hL
  rw [hS]
  rcases hcase with ⟨hi, ht⟩ | ⟨hi, A, ht⟩
  · subst hi
    subst ht
    refine ⟨by simp [hL], ?_⟩
    simp [afterLastDash_of_none t hL]
  · constructor
    · constructor
      · intro _
        rw [ht]
        simp
      · intro _
        have : 0 < init.length := List.length_pos.mpr hi
        simp only [List.length_append, List.length_singleton]
        omega
    · rw [ht, afterLastDash_of_last A L hL]
      simp

theorem any_indicator_iff (t : Str) :
    prereleaseIndicators.any (fun indicator => Contains t indicator) = true ↔
      HasIndicator t := by
  unfold HasIndicator
  rw [List.any_eq_true]
  constructor
  · rintro ⟨x, hx, hc⟩
    exact ⟨x, hx, (Contains_iff t x).mp hc⟩
  · rintro ⟨x, hx, hc⟩
    exact ⟨x, hx, (Contains_iff t x).mpr hc⟩

theorem isStableTag_eq_false_iff (tag : Str) :
    isStableTag tag = false ↔
      HasIndicator (TrimPrefix tag "v".toList) ∨
        ('-' ∈ TrimPrefix tag "v".toList ∧
          Atoi (afterLastDash (TrimPrefix tag "v".toList)) = none) := by
  unfold isStableTag
  simp only
  generalize TrimPrefix tag "v".toList = t
  obtain ⟨hlen, hlast⟩ := Split_dash t
  by_cases hind : HasIndicator t
  · simp [(any_indicator_iff t).mpr hind, hind]
  · have hany : prereleaseIndicators.any (fun indicator => Contains t indicator) = false := by
      cases h : prereleaseIndicators.any (fun indicator => Contains t indicator) with
      | false => rfl
      | true => exact absurd ((any_indicator_iff t).mp h) hind
    simp only [hany, Bool.false_eq_true, if_false, hind, false_or]
    by_cases hd : '-' ∈ t
    · have h1 : (Split t "-".toList).length > 1 := hlen.mpr hd
      simp only [h1, if_true, hlast, hd, true_and]
      cases Atoi (afterLastDash t) <;> simp
    · have h1 : ¬ (Split t "-".toList).length > 1 := fun h => hd (hlen.mp h)
      simp only [h1, if_false, hd, false_and]
      simp

theorem isStableTag_eq_true_iff (tag : Str) :
    isStableTag tag = true ↔
      ¬ HasIndicator (TrimPrefix tag "v".toList) ∧
        ('-' ∉ TrimPrefix tag "v".toList ∨
          (Atoi (afterLastDash (TrimPrefix tag "v".toList))).isSome = true) := by
  have h := isStableTag_eq_false_iff tag
  cases hs : isStableTag tag with
  | false =>
    constructor
    · intro hf
      cases hf
    · rintro ⟨hni, hor⟩
      exfalso
      rcases h.mp hs with h2 | ⟨h2, h3⟩
      · exact hni h2
      · rcases hor with hd | ha
        · exact hd h2
        · rw [h3] at ha
          cases ha
  | true =>
    simp only [true_iff]
    have h2 : ¬ (HasIndicator (TrimPrefix tag "v".toList) ∨
        ('-' ∈ TrimPrefix tag "v".toList ∧
          Atoi (afterLastDash (TrimPrefix tag "v".toList)) = none)) := fun hh => by
      have := h.mpr hh
      rw [hs] at this
      cases this
    simp only [not_or, not_and] at h2
    refine ⟨h2.1, ?_⟩
    by_cases hd : '-' ∈ TrimPrefix tag "v".toList
    · right
      have := h2.2 hd
      cases ha : Atoi (afterLastDash (TrimPrefix tag "v".toList)) with
      | none => exact absurd ha this
      | some _ => rfl
    · exact Or.inl hd

theorem parseDigits_eq_some_iff (s : Str) (n : Nat) :
    parseDigits s = some n ↔ purelyNumeric s = true ∧ digitsValue s = n := by
  unfold parseDigits purelyNumeric
  cases s with
  | nil => simp
  | cons c r =>
    by_cases h : (c :: r).all isDigit = true
    · simp [h]
    · simp [h]

/-- What `Atoi` accepts among the texts that hold no `-`: decimal digits,
optionally behind a `+`, with a value below `2 ^ 63`. -/
theorem Atoi_isSome_iff (s : Str) (hs : '-' ∉ s) :
    (Atoi s).isSome = true ↔
      (purelyNumeric s = true ∧ digitsValue s < 2 ^ 63) ∨
        ∃ d, s = '+' :: d ∧ purelyNumeric d = true ∧ digitsValue d < 2 ^ 63 := by
  have key : ∀ r : Str, ((parseDigits r).bind fun n =>
      if n < 2 ^ 63 then some (n : Int) else none).isSome = true ↔
        (purelyNumeric r = true ∧ digitsValue r < 2 ^ 63) := by
    intro r
    cases hp : parseDigits r with
    | none =>
      have : ¬ purelyNumeric r = true := fun h =>
        absurd ((parseDigits_eq_some_iff r _).mpr ⟨h, rfl⟩) (by simp [hp])
      simp [this]
    | some n =>
      obtain ⟨h1, h2⟩ := (parseDigits_eq_some_iff r n).mp hp
      by_cases hn : n < 2 ^ 63
      · simp [hn, h1, h2]
      · simp [hn, h1, h2]
  unfold Atoi HasPrefix
  cases s with
  | nil => simp [parseDigits, purelyNumeric]
  | cons c r =>
    have hc : c ≠ '-' := fun e => hs (by simp [e])
    have h1 : ("-".toList).isPrefixOf (c :: r) = false := by
      show (['-'] : Str).isPrefixOf (c :: r) = false
      simp [List.isPrefixOf, Ne.symm hc]
    rw [h1]
    simp only [Bool.false_eq_true, if_false]
    by_cases hplus : c = '+'
    · subst hplus
      have h2 : ("+".toList).isPrefixOf ('+' :: r) = true := by
        show (['+'] : Str).isPrefixOf ('+' :: r) = true
        simp [List.isPrefixOf]
      rw [h2]
      simp only [if_true, List.drop_succ_cons, List.drop_zero, key r]
      constructor
      · intro h
        exact Or.inr ⟨r, rfl, h⟩
      · rintro (⟨h, _⟩ | ⟨d, hd, h⟩)
        · have : isDigit '+' = false := by decide
          simp [purelyNumeric, this] at h
        · cases hd
          exact h
    · have h2 : ("+".toList).isPrefixOf (c :: r) = false := by
        show (['+'] : Str).isPrefixOf (c :: r) = false
        simp [List.isPrefixOf, Ne.symm hplus]
      rw [h2]
      simp only [Bool.false_eq_true, if_false, key (c :: r)]
      constructor
      · intro h
        exact Or.inl h
      · rintro (h | ⟨d, hd, _⟩)
        · exact h
        · cases hd
          exact absurd rfl hplus

theorem afterLastDash_no_dash (t : Str) : '-' ∉ afterLastDash t := by
  unfold afterLastDash
  intro h
  have h2 := List.mem_reverse.mp h
  have h3 := List.mem_takeWhile_imp h2
  simp at h3

/-- C12, as stated, fails: `1.0.0-+5` holds a `-` and the component after it,
`+5`, is not purely numeric, yet `Atoi` accepts it and the tag is stable;
`1.0.0-99999999999999999999` has no indicator and a purely numeric last
component, yet `Atoi` rejects the number as out of range and the tag is not
stable. -/
theorem isStableTag_numeric_by_Atoi :
    ('-' ∈ TrimPrefix "1.0.0-+5".toList "v".toList ∧
      purelyNumeric (afterLastDash (TrimPrefix "1.0.0-+5".toList "v".toList)) = false ∧
      isStableTag "1.0.0-+5".toList = true) ∧
    (¬ HasIndicator (TrimPrefix "1.0.0-99999999999999999999".toList "v".toList) ∧
      purelyNumeric
        (afterLastDash (TrimPrefix "1.0.0-99999999999999999999".toList "v".toList)) = true ∧
      isStableTag "1.0.0-99999999999999999999".toList = false) :=
  ⟨⟨by decide, by decide, by decide⟩,
   ⟨fun h => absurd ((any_indicator_iff _).mpr h) (by decide), by decide, by decide⟩⟩

/-- C12, amended. With `t` the tag after removing one leading `v`:
`isStableTag(tag)` is false exactly when `t` contains one of the six
indicators, or `t` contains a `-` and the component after the last `-` is
not accepted by `strconv.Atoi`; it is true in every other case. `Atoi`
accepts such a component exactly when it is a non-empty run of decimal
digits, optionally behind a `+`, with a value below `2 ^ 63`. -/
theorem isStableTag_iff_indicator_or_Atoi :
    (∀ tag : Str, isStableTag tag = false ↔
      HasIndicator (TrimPrefix tag "v".toList) ∨
        ('-' ∈ TrimPrefix tag "v".toList ∧
          Atoi (afterLastDash (TrimPrefix tag "v".toList)) = none)) ∧
    (∀ tag : Str, isStableTag tag = true ↔
      ¬ HasIndicator (TrimPrefix tag "v".toList) ∧
        ('-' ∉ TrimPrefix tag "v".toList ∨
          (Atoi (afterLastDash (TrimPrefix tag "v".toList))).isSome = true)) ∧
    (∀ t : Str, (Atoi (afterLastDash t)).isSome = true ↔
      (purelyNumeric (afterLastDash t) = true ∧ digitsValue (afterLastDash t) < 2 ^ 63) ∨
        ∃ d, afterLastDash t = '+' :: d ∧ purelyNumeric d = true ∧ digitsValue d < 2 ^ 63) :=
  ⟨isStableTag_eq_false_iff, isStableTag_eq_true_iff,
    fun t => Atoi_isSome_iff _ (afterLastDash_no_dash t)⟩

theorem purelyNumeric_no_dash {s : Str} (h : purelyNumeric s = true) : '-' ∉ s := by
  intro hd
  unfold purelyNumeric at h
  simp only [Bool.and_eq_true, List.all_eq_true] at h
  have := h.2 _ hd
  revert this
  decide

theorem purelyNumeric_head {s : Str} (h : purelyNumeric s = true) :
    ∃ c r, s = c :: r ∧ isDigit c = true := by
  cases s with
  | nil => simp [purelyNumeric] at h
  | cons c r =>
    unfold purelyNumeric at h
    simp only [Bool.and_eq_true, List.all_eq_true] at h
    exact ⟨c, r, rfl, h.2 c (List.mem_cons_self _ _)⟩

theorem HasIndicator_dash {t : Str} (h : HasIndicator t) : '-' ∈ t := by
  obtain ⟨ind, hind, hin⟩ := h
  have hall : ∀ i ∈ prereleaseIndicators, '-' ∈ i := by decide
  exact hin.mem (hall ind hind)

namespace SemverTag

theorem wellFormed_numbers {g : SemverTag} (h : g.wellFormed = true) :
    purelyNumeric g.major = true ∧ purelyNumeric g.minor = true ∧
      purelyNumeric g.patch = true := by
  unfold wellFormed at h
  simp only [Bool.and_eq_true] at h
  exact ⟨h.1.1.1.1, h.1.1.1.2, h.1.1.2⟩

theorem TrimPrefix_text {g : SemverTag} (h : g.wellFormed = true) :
    TrimPrefix g.text "v".toList = g.bare := by
  obtain ⟨c, r, hm, hc⟩ := purelyNumeric_head (wellFormed_numbers h).1
  have hb : ∃ rest, g.bare = c :: rest := by
    unfold bare
    rw [hm]
    simp only [List.cons_append]
    exact ⟨_, rfl⟩
  obtain ⟨rest, hb⟩ := hb
  unfold text
  cases g.v with
  | true =>
    show TrimPrefix (['v'] ++ g.bare) ['v'] = g.bare
    simp [TrimPrefix, HasPrefix, List.isPrefixOf]
  | false =>
    have hcv : c ≠ 'v' := fun e => by
      rw [e] at hc
      revert hc
      decide
    show TrimPrefix ([] ++ g.bare) ['v'] = g.bare
    rw [hb]
    simp [TrimPrefix, HasPrefix, List.isPrefixOf, Ne.symm hcv]

theorem dash_mem_bare {g : SemverTag} (h : g.wellFormed = true) :
    '-' ∈ g.bare ↔ g.pre ≠ none ∨ ∃ b, g.build = some b ∧ '-' ∈ b := by
  obtain ⟨h1, h2, h3⟩ := wellFormed_numbers h
  have d1 := purelyNumeric_no_dash h1
  have d2 := purelyNumeric_no_dash h2
  have d3 := purelyNumeric_no_dash h3
  have e1 : "-".toList = ['-'] := rfl
  have e2 : ".".toList = ['.'] := rfl
  have e3 : "+".toList = ['+'] := rfl
  unfold bare
  rw [e1, e2, e3]
  cases g.pre <;> cases g.build <;> simp [d1, d2, d3]

end SemverTag

/-- C11, as stated, fails in both directions: `1.0.0-1` has the pre-release
component `1` and is judged stable; `v1.0.0+exp-alpha` has no pre-release
component (the `-` belongs to its build metadata) and is judged not stable. -/
theorem isStableTag_not_prerelease_free :
    (SemverTag.wellFormed ⟨false, "1".toList, "0".toList, "0".toList, some "1".toList, none⟩
        = true ∧
      SemverTag.text ⟨false, "1".toList, "0".toList, "0".toList, some "1".toList, none⟩
        = "1.0.0-1".toList ∧
      isStableTag "1.0.0-1".toList = true) ∧
    (SemverTag.wellFormed
        ⟨true, "1".toList, "0".toList, "0".toList, none, some "exp-alpha".toList⟩ = true ∧
      SemverTag.text ⟨true, "1".toList, "0".toList, "0".toList, none, some "exp-alpha".toList⟩
        = "v1.0.0+exp-alpha".toList ∧
      isStableTag "v1.0.0+exp-alpha".toList = false) :=
  ⟨⟨by decide, by decide, by decide⟩, ⟨by decide, by decide, by decide⟩⟩

/-- C11, amended. A tag of the form `[v]MAJOR.MINOR.PATCH[-prerelease][+build]`
is judged stable exactly when it has no pre-release component and no `-` in
its build metadata, or it contains none of the six indicators and the text
after its last `-` is accepted by `strconv.Atoi` (as in `1.0.0-1`). -/
theorem isStableTag_semver_iff (g : SemverTag) (h : g.wellFormed = true) :
    isStableTag g.text = true ↔
      (g.pre = none ∧ ∀ b, g.build = some b → '-' ∉ b) ∨
        (¬ HasIndicator g.bare ∧ (Atoi (afterLastDash g.bare)).isSome = true) := by
  rw [isStableTag_eq_true_iff, SemverTag.TrimPrefix_text h]
  have hd := SemverTag.dash_mem_bare h
  constructor
  · rintro ⟨hni, hnd | ha⟩
    · left
      rw [hd] at hnd
      simp only [not_or, not_not, not_exists, not_and] at hnd
      exact hnd
    · exact Or.inr ⟨hni, ha⟩
  · rintro (⟨hp, hb⟩ | ⟨hni, ha⟩)
    · have hnd : '-' ∉ g.bare := by
        rw [hd]
        simp only [not_or, not_not, not_exists, not_and]
        exact ⟨hp, hb⟩
      exact ⟨fun hi => hnd (HasIndicator_dash hi), Or.inl hnd⟩
    · exact ⟨hni, Or.inr ha⟩

theorem isStableTag_semver_iff_witness :
    isStableTag (SemverTag.text
      ⟨true, "1".toList, "2".toList, "3".toList, none, some "build.5".toList⟩) = true :=
  (isStableTag_semver_iff
      ⟨true, "1".toList, "2".toList, "3".toList, none, some "build.5".toList⟩
      (by decide)).mpr
    (Or.inl ⟨rfl, fun b hb => by
      cases hb
      decide⟩)

/-! ## Package `strconv`: decimal text and its value -/

theorem digitChar_digit : ∀ k : Nat, k < 10 →
    isDigit (Nat.digitChar k) = true ∧ (Nat.digitChar k).toNat - '0'.toNat = k := by
  decide

theorem digitsValue_append_singleton (pre : Str) (d : Char) :
    digitsValue (pre ++ [d]) = digitsValue pre * 10 + (d.toNat - '0'.toNat) := by
  simp [digitsValue, List.foldl_append]

/-- The digits produced for `n` are a non-empty run of decimal digits whose
value is `n`, put in front of what was there. -/
theorem toDigitsCore_spec (fuel : Nat) : ∀ (n : Nat) (ds : Str), n < fuel →
    ∃ pre : Str, Nat.toDigitsCore 10 fuel n ds = pre ++ ds ∧ pre ≠ [] ∧
      pre.all isDigit = true ∧ digitsValue pre = n := by
  induction fuel with
  | zero => intro n ds h; omega
  | succ f ih =>
    intro n ds h
    obtain ⟨hd1, hd2⟩ := digitChar_digit (n % 10) (Nat.mod_lt _ (by decide))
    unfold Nat.toDigitsCore
    by_cases h0 : n / 10 = 0
    · have hn : n % 10 = n := Nat.mod_eq_of_lt (by omega)
      refine ⟨[Nat.digitChar (n % 10)], by simp [h0], by simp, by simp [hd1], ?_⟩
      simp only [digitsValue, List.foldl_cons, List.foldl_nil, Nat.zero_mul, Nat.zero_add]
      rw [hd2]
      exact hn
    · obtain ⟨pre, hpre, hne, hall, hval⟩ :=
        ih (n / 10) (Nat.digitChar (n % 10) :: ds) (by omega)
      refine ⟨pre ++ [Nat.digitChar (n % 10)], by simp [h0, hpre], by simp, ?_, ?_⟩
      · simp [List.all_append, hall, hd1]
      · rw [digitsValue_append_singleton, hval, hd2]
        omega

theorem toDigits_spec (n : Nat) :
    Nat.toDigits 10 n ≠ [] ∧ (Nat.toDigits 10 n).all isDigit = true ∧
      digitsValue (Nat.toDigits 10 n) = n := by
  obtain ⟨pre, hpre, hne, hall, hval⟩ := toDigitsCore_spec (n + 1) n [] (Nat.lt_succ_self n)
  unfold Nat.toDigits
  rw [hpre, List.append_nil]
  exact ⟨hne, hall, hval⟩

theorem parseDigits_toDigits (n : Nat) : parseDigits (Nat.toDigits 10 n) = some n := by
  obtain ⟨hne, hall, hval⟩ := toDigits_spec n
  unfold parseDigits
  simp [hne, hall, hval]

/-- `Atoi` reads back the decimal text of every number below `2 ^ 63`. -/
theorem Atoi_toDigits (n : Nat) (h : n < 2 ^ 63) : Atoi (Nat.toDigits 10 n) = some (n : Int) := by
  obtain ⟨hne, hall, _⟩ := toDigits_spec n
  obtain ⟨c, r, hcr⟩ := List.exists_cons_of_ne_nil hne
  have hc : isDigit c = true := by
    rw [hcr] at hall
    simp only [List.all_cons, Bool.and_eq_true] at hall
    exact hall.1
  have hm : c ≠ '-' := fun e => by rw [e] at hc; revert hc; decide
  have hp : c ≠ '+' := fun e => by rw [e] at hc; revert hc; decide
  unfold Atoi HasPrefix
  have h1 : ("-".toList).isPrefixOf (Nat.toDigits 10 n) = false := by
    rw [hcr]
    show (['-'] : Str).isPrefixOf (c :: r) = false
    simp [List.isPrefixOf, Ne.symm hm]
  have h2 : ("+".toList).isPrefixOf (Nat.toDigits 10 n) = false := by
    rw [hcr]
    show (['+'] : Str).isPrefixOf (c :: r) = false
    simp [List.isPrefixOf, Ne.symm hp]
  rw [h1, h2, parseDigits_toDigits]
  simp only [Bool.false_eq_true, if_false, Option.some_bind, if_pos h]

theorem Itoa_natCast (n : Nat) : Itoa (n : Int) = Nat.toDigits 10 n := by
  unfold Itoa
  simp

theorem int64_of_range (i : Int) (h1 : -(2 ^ 63) ≤ i) (h2 : i < 2 ^ 63) : int64 i = i := by
  unfold int64
  rw [Int.emod_eq_of_lt (by omega) (by omega)]
  omega

/-! ## The pre-release counter -/

theorem HasPrefix_append (a b : Str) : HasPrefix (a ++ b) a = true :=
  (HasPrefix_iff _ _).mpr ⟨b, rfl⟩

theorem TrimPrefix_append (a b : Str) : TrimPrefix (a ++ b) a = b := by
  unfold TrimPrefix
  rw [HasPrefix_append]
  simp

theorem getNextPrereleaseNumber_decimal (suffix : Str) (N : Nat) (hN : N + 1 < 2 ^ 63) :
    getNextPrereleaseNumber (suffix ++ ".".toList ++ Itoa (N : Int)) suffix = (N : Int) + 1 := by
  unfold getNextPrereleaseNumber
  simp only [HasPrefix_append, TrimPrefix_append, if_true, Itoa_natCast,
    Atoi_toDigits N (by omega)]
  exact int64_of_range _ (by omega) (by omega)

/-- C16. For a counter `N` with `N + 1` in the range of `int`,
`getNextPrereleaseNumber(suffix + "." + decimal(N), suffix)` is `N + 1`; for
a pre-release that is not `suffix + "."` followed by a text that `Atoi`
parses, the result is 1. -/
theorem getNextPrereleaseNumber_spec :
    (∀ (suffix : Str) (N : Nat), N + 1 < 2 ^ 63 →
      getNextPrereleaseNumber (suffix ++ ".".toList ++ Itoa (N : Int)) suffix = (N : Int) + 1) ∧
    (∀ prerelease suffix : Str,
      (¬ ∃ (rest : Str) (n : Int), prerelease = suffix ++ ".".toList ++ rest ∧
        Atoi rest = some n) →
      getNextPrereleaseNumber prerelease suffix = 1) := by
  constructor
  · exact getNextPrereleaseNumber_decimal
  · intro prerelease suffix hno
    unfold getNextPrereleaseNumber
    simp only
    by_cases hp : HasPrefix prerelease (suffix ++ ".".toList) = true
    · obtain ⟨rest, hrest⟩ := (HasPrefix_iff _ _).mp hp
      rw [if_pos hp, hrest, TrimPrefix_append]
      cases ha : Atoi rest with
      | none => rfl
      | some n => exact absurd ⟨rest, n, hrest, ha⟩ hno
    · rw [if_neg hp]

theorem getNextPrereleaseNumber_spec_witness :
    getNextPrereleaseNumber ("beta".toList ++ ".".toList ++ Itoa ((2 : Nat) : Int)) "beta".toList
        = ((2 : Nat) : Int) + 1 ∧
    getNextPrereleaseNumber "alpha".toList "alpha".toList = 1 :=
  ⟨getNextPrereleaseNumber_spec.1 "beta".toList 2 (by decide),
   getNextPrereleaseNumber_spec.2 "alpha".toList "alpha".toList (by
     rintro ⟨rest, n, h, _⟩
     have := congrArg List.length h
     simp at this)⟩

/-! ## The suffix resolver: lookup -/

instance longerFirstTotal : IsTotal prefixRule longerFirst :=
  ⟨fun a b => Nat.le_total b.pfx.length a.pfx.length⟩

instance longerFirstTrans : IsTrans prefixRule longerFirst :=
  ⟨fun _ _ _ hab hbc => Nat.le_trans hbc hab⟩

/-- The constructor leaves the prefix rules ordered by non-increasing prefix
length. -/
theorem buildResolver_sorted (lower : Char → Char) (order : GoMap → GoMap)
    (defaults env overrides : GoMap) :
    (buildResolver lower order defaults env overrides).prefixRules.Sorted longerFirst := by
  unfold buildResolver
  exact List.sorted_insertionSort longerFirst _

/-- In a list ordered longest prefix first, the first rule that matches has
the longest prefix among the rules that match. -/
theorem first_match_longest (rules : List prefixRule) (hs : rules.Sorted longerFirst)
    (p : prefixRule → Bool) (rule : prefixRule) (hf : rules.find? p = some rule) :
    ∀ other ∈ rules, p other = true → other.pfx.length ≤ rule.pfx.length := by
  obtain ⟨_, front, back, hsplit, hfront⟩ := List.find?_eq_some.mp hf
  intro other hmem hp
  rw [hsplit] at hmem hs
  rcases List.mem_append.mp hmem with h1 | h2
  · have := hfront other h1
    simp [hp] at this
  · rcases List.mem_cons.mp h2 with rfl | h3
    · exact Nat.le_refl _
    · have hpw := (List.pairwise_append.mp hs).2.1
      exact (List.pairwise_cons.mp hpw).1 other h3

theorem suffixForBranch_cases (lower : Char → Char) (r : branchSuffixResolver)
    (hs : r.prefixRules.Sorted longerFirst) (b : Str) :
    (ToLower lower (TrimSpace b) = [] → suffixForBranch lower r b = []) ∧
    (∀ s, ToLower lower (TrimSpace b) ≠ [] →
      r.exactMap.get? (ToLower lower (TrimSpace b)) = some s → suffixForBranch lower r b = s) ∧
    (ToLower lower (TrimSpace b) ≠ [] →
      r.exactMap.get? (ToLower lower (TrimSpace b)) = none →
      (∃ rule ∈ r.prefixRules, HasPrefix (ToLower lower (TrimSpace b)) rule.pfx = true) →
      ∃ rule ∈ r.prefixRules, HasPrefix (ToLower lower (TrimSpace b)) rule.pfx = true ∧
        suffixForBranch lower r b = rule.suffix ∧
        ∀ other ∈ r.prefixRules, HasPrefix (ToLower lower (TrimSpace b)) other.pfx = true →
          other.pfx.length ≤ rule.pfx.length) ∧
    (ToLower lower (TrimSpace b) ≠ [] →
      r.exactMap.get? (ToLower lower (TrimSpace b)) = none →
      (∀ rule ∈ r.prefixRules, HasPrefix (ToLower lower (TrimSpace b)) rule.pfx = false) →
      suffixForBranch lower r b = []) := by
  unfold suffixForBranch
  simp only
  generalize ToLower lower (TrimSpace b) = n
  refine ⟨fun h => by simp [h], fun s hn hg => by simp [hn, hg], fun hn hg hex => ?_,
    fun hn hg hall => ?_⟩
  · simp only [hn, if_false, hg]
    cases hf : r.prefixRules.find? (fun rule => HasPrefix n rule.pfx) with
    | none =>
      obtain ⟨rule, hmem, hp⟩ := hex
      have := List.find?_eq_none.mp hf rule hmem
      simp [hp] at this
    | some rule =>
      have hp : HasPrefix n rule.pfx = true :=
        List.find?_some (p := fun rule : prefixRule => HasPrefix n rule.pfx) hf
      exact ⟨rule, List.mem_of_find?_eq_some hf, hp, rfl,
        first_match_longest r.prefixRules hs _ rule hf⟩
  · simp only [hn, if_false, hg]
    cases hf : r.prefixRules.find? (fun rule => HasPrefix n rule.pfx) with
    | none => rfl
    | some rule =>
      have h1 := hall rule (List.mem_of_find?_eq_some hf)
      have h2 : HasPrefix n rule.pfx = true :=
        List.find?_some (p := fun rule : prefixRule => HasPrefix n rule.pfx) hf
      rw [h1] at h2
      cases h2

theorem newResolver_cases (lower : Char → Char) (order : GoMap → GoMap)
    (env overrides : GoMap) (b : Str) :
    (ToLower lower (TrimSpace b) = [] →
      suffixForBranch lower (newBranchSuffixResolver lower order env overrides) b = []) ∧
    (∀ s, ToLower lower (TrimSpace b) ≠ [] →
      (newBranchSuffixResolver lower order env overrides).exactMap.get?
        (ToLower lower (TrimSpace b)) = some s →
      suffixForBranch lower (newBranchSuffixResolver lower order env overrides) b = s) ∧
    (ToLower lower (TrimSpace b) ≠ [] →
      (newBranchSuffixResolver lower order env overrides).exactMap.get?
        (ToLower lower (TrimSpace b)) = none →
      (∃ rule ∈ (newBranchSuffixResolver lower order env overrides).prefixRules,
        HasPrefix (ToLower lower (TrimSpace b)) rule.pfx = true) →
      ∃ rule ∈ (newBranchSuffixResolver lower order env overrides).prefixRules,
        HasPrefix (ToLower lower (TrimSpace b)) rule.pfx = true ∧
        suffixForBranch lower (newBranchSuffixResolver lower order env overrides) b
          = rule.suffix ∧
        ∀ other ∈ (newBranchSuffixResolver lower order env overrides).prefixRules,
          HasPrefix (ToLower lower (TrimSpace b)) other.pfx = true →
          other.pfx.length ≤ rule.pfx.length) ∧
    (ToLower lower (TrimSpace b) ≠ [] →
      (newBranchSuffixResolver lower order env overrides).exactMap.get?
        (ToLower lower (TrimSpace b)) = none →
      (∀ rule ∈ (newBranchSuffixResolver lower order env overrides).prefixRules,
        HasPrefix (ToLower lower (TrimSpace b)) rule.pfx = false) →
      suffixForBranch lower (newBranchSuffixResolver lower order env overrides) b = []) :=
  suffixForBranch_cases lower _ (buildResolver_sorted lower order _ env overrides) b


/-- C13. For a resolver built by `newBranchSuffixResolver` and a branch name
`b`, with `n` the trimmed, lower-cased `b`: the suffix is empty when `n` is
empty; it is the exact entry for `n` when there is one, whatever the prefix
rules; otherwise it is the suffix of a rule whose prefix is a prefix of `n`
and is the longest such prefix among the registered rules; and it is empty
when no rule matches. -/
theorem suffixForBranch_precedence (lower : Char → Char) (order : GoMap → GoMap)
    (env overrides : GoMap) (b : Str) :
    (ToLower lower (TrimSpace b) = [] →
      suffixForBranch lower (newBranchSuffixResolver lower order env overrides) b = []) ∧
    (∀ s, ToLower lower (TrimSpace b) ≠ [] →
      (newBranchSuffixResolver lower order env overrides).exactMap.get?
        (ToLower lower (TrimSpace b)) = some s →
      suffixForBranch lower (newBranchSuffixResolver lower order env overrides) b = s) ∧
    (ToLower lower (TrimSpace b) ≠ [] →
      (newBranchSuffixResolver lower order env overrides).exactMap.get?
        (ToLower lower (TrimSpace b)) = none →
      (∃ rule ∈ (newBranchSuffixResolver lower order env overrides).prefixRules,
        HasPrefix (ToLower lower (TrimSpace b)) rule.pfx = true) →
      ∃ rule ∈ (newBranchSuffixResolver lower order env overrides).prefixRules,
        HasPrefix (ToLower lower (TrimSpace b)) rule.pfx = true ∧
        suffixForBranch lower (newBranchSuffixResolver lower order env overrides) b
          = rule.suffix ∧
        ∀ other ∈ (newBranchSuffixResolver lower order env overrides).prefixRules,
          HasPrefix (ToLower lower (TrimSpace b)) other.pfx = true →
          other.pfx.length ≤ rule.pfx.length) ∧
    (ToLower lower (TrimSpace b) ≠ [] →
      (newBranchSuffixResolver lower order env overrides).exactMap.get?
        (ToLower lower (TrimSpace b)) = none →
      (∀ rule ∈ (newBranchSuffixResolver lower order env overrides).prefixRules,
        HasPrefix (ToLower lower (TrimSpace b)) rule.pfx = false) →
      suffixForBranch lower (newBranchSuffixResolver lower order env overrides) b = []) :=
  newResolver_cases lower order env overrides b

theorem suffixForBranch_precedence_witness :
    suffixForBranch Char.toLower
        (newBranchSuffixResolver Char.toLower id []
          [("release/v1/*".toList, "final".toList)]) " Release ".toList = "rc".toList ∧
    ∃ rule ∈ (newBranchSuffixResolver Char.toLower id []
          [("release/v1/*".toList, "final".toList)]).prefixRules,
      HasPrefix (ToLower Char.toLower (TrimSpace "release/v1/x".toList)) rule.pfx = true ∧
      suffixForBranch Char.toLower
        (newBranchSuffixResolver Char.toLower id []
          [("release/v1/*".toList, "final".toList)]) "release/v1/x".toList = rule.suffix ∧
      ∀ other ∈ (newBranchSuffixResolver Char.toLower id []
          [("release/v1/*".toList, "final".toList)]).prefixRules,
        HasPrefix (ToLower Char.toLower (TrimSpace "release/v1/x".toList)) other.pfx = true →
        other.pfx.length ≤ rule.pfx.length :=
  ⟨(suffixForBranch_precedence Char.toLower id []
      [("release/v1/*".toList, "final".toList)] " Release ".toList).2.1 "rc".toList
      (by decide) (by decide),
   (suffixForBranch_precedence Char.toLower id []
      [("release/v1/*".toList, "final".toList)] "release/v1/x".toList).2.2.1
      (by decide) (by decide)
      ⟨⟨"release".toList, "rc".toList⟩, by decide, by decide⟩⟩

/-! ## Go maps and the loops of the constructor -/

theorem lookup_cons_if (k' a b : Str) (es : GoMap) :
    List.lookup k' ((a, b) :: es) = if k' = a then some b else List.lookup k' es := by
  rw [List.lookup_cons]
  by_cases h : k' = a
  · have hb : (k' == a) = true := by simpa using h
    rw [hb, if_pos h]
  · have hb : (k' == a) = false := by simpa using h
    rw [hb, if_neg h]

theorem GoMap.get?_set (m : GoMap) (k v k' : Str) :
    (m.set k v).get? k' = if k' = k then some v else m.get? k' := by
  unfold GoMap.get?
  induction m with
  | nil => simp only [GoMap.set, lookup_cons_if, List.lookup_nil]
  | cons e m ih =>
    obtain ⟨a, b⟩ := e
    simp only [GoMap.set]
    by_cases hak : a = k
    · subst hak
      simp only [if_true, lookup_cons_if]
      by_cases h : k' = a
      · rw [if_pos h, if_pos h]
      · rw [if_neg h, if_neg h, if_neg h]
    · simp only [hak, if_false, lookup_cons_if, ih]
      by_cases h' : k' = a
      · have : ¬ k' = k := fun e => hak (h' ▸ e)
        rw [if_pos h', if_neg this, if_pos h']
      · rw [if_neg h', if_neg h']

theorem addRule_exact_of_not (lower : Char → Char) (r : branchSuffixResolver)
    (entry : Str × Str) (n : Str) (h : isExactFor lower n entry = false) :
    (addRule lower r entry).exactMap.get? n = r.exactMap.get? n := by
  unfold addRule
  unfold isExactFor at h
  simp only
  generalize "/*".toList = w at h ⊢
  generalize ToLower lower (TrimSpace entry.1) = k at h ⊢
  generalize TrimSpace entry.2 = v at h ⊢
  by_cases h1 : k = [] ∨ v = []
  · rw [if_pos h1]
  · rw [if_neg h1]
    by_cases h2 : HasSuffix k w = true
    · rw [if_pos h2]
    · rw [if_neg h2]
      simp only [GoMap.get?_set]
      have hne : ¬ n = k := by
        intro e
        simp only [not_or] at h1
        simp [h1.1, h1.2, h2, e] at h
      rw [if_neg hne]

theorem addRule_exact_of_is (lower : Char → Char) (r : branchSuffixResolver)
    (entry : Str × Str) (n : Str) (h : isExactFor lower n entry = true) :
    (addRule lower r entry).exactMap.get? n = some (TrimSpace entry.2) := by
  unfold addRule
  unfold isExactFor at h
  simp only
  generalize "/*".toList = w at h ⊢
  generalize ToLower lower (TrimSpace entry.1) = k at h ⊢
  generalize TrimSpace entry.2 = v at h ⊢
  simp only [Bool.and_eq_true, bne_iff_ne, ne_eq, Bool.not_eq_true', beq_iff_eq] at h
  obtain ⟨⟨⟨h1, h2⟩, h3⟩, h4⟩ := h
  rw [if_neg (by simp [h1, h2]), if_neg (by simp [h3]), GoMap.get?_set, if_pos h4.symm]

/-- When no visited entry becomes the exact rule for `n`, the loop leaves the
lookup of `n` as it was. -/
theorem foldl_addRule_exact_none (lower : Char → Char) (n : Str) (L : GoMap) :
    ∀ r : branchSuffixResolver, (∀ e ∈ L, isExactFor lower n e = false) →
      (L.foldl (addRule lower) r).exactMap.get? n = r.exactMap.get? n := by
  induction L with
  | nil => intro r _; rfl
  | cons e L ih =>
    intro r h
    rw [List.foldl_cons, ih _ (fun e' he' => h e' (List.mem_cons_of_mem _ he')),
      addRule_exact_of_not lower r e n (h e (List.mem_cons_self _ _))]

/-- When the visited entries that become the exact rule for `n` all carry the
value `v`, and there is one, the loop ends with `v` as the exact rule for
`n`, in whatever order the entries are visited. -/
theorem foldl_addRule_exact_some (lower : Char → Char) (n v : Str) (L : GoMap) :
    ∀ r : branchSuffixResolver,
      (∀ e ∈ L, isExactFor lower n e = true → TrimSpace e.2 = v) →
      ((∃ e ∈ L, isExactFor lower n e = true) ∨ r.exactMap.get? n = some v) →
      (L.foldl (addRule lower) r).exactMap.get? n = some v := by
  induction L with
  | nil =>
    intro r _ h
    rcases h with ⟨e, he, _⟩ | h
    · cases he
    · exact h
  | cons e L ih =>
    intro r hall h
    rw [List.foldl_cons]
    apply ih _ (fun e' he' => hall e' (List.mem_cons_of_mem _ he'))
    cases hg : isExactFor lower n e with
    | true =>
      right
      rw [addRule_exact_of_is lower r e n hg, hall e (List.mem_cons_self _ _) hg]
    | false =>
      rcases h with ⟨e0, he0, hg0⟩ | h
      · rcases List.mem_cons.mp he0 with rfl | he0'
        · rw [hg] at hg0
          cases hg0
        · exact Or.inl ⟨e0, he0', hg0⟩
      · right
        rw [addRule_exact_of_not lower r e n hg]
        exact h

theorem addRule_prefixRules (lower : Char → Char) (r : branchSuffixResolver)
    (entry : Str × Str) :
    (addRule lower r entry).prefixRules =
      r.prefixRules ++ (toPrefixRule lower entry).toList := by
  unfold addRule toPrefixRule
  simp only
  generalize "/*".toList = w
  generalize ToLower lower (TrimSpace entry.1) = k
  generalize TrimSpace entry.2 = v
  by_cases h1 : k = [] ∨ v = []
  · rw [if_pos h1]
    rcases h1 with h1 | h1 <;> simp [h1]
  · rw [if_neg h1]
    simp only [not_or] at h1
    by_cases h2 : HasSuffix k w = true
    · rw [if_pos h2]
      simp [h1.1, h1.2, h2]
    · rw [if_neg h2]
      simp [h2]

theorem foldl_addRule_prefixRules (lower : Char → Char) (L : GoMap) :
    ∀ r : branchSuffixResolver,
      (L.foldl (addRule lower) r).prefixRules =
        r.prefixRules ++ L.filterMap (toPrefixRule lower) := by
  induction L with
  | nil => intro r; simp
  | cons e L ih =>
    intro r
    rw [List.foldl_cons, ih, addRule_prefixRules]
    cases h : toPrefixRule lower e <;> simp [List.filterMap_cons, h]

/-- The prefix rules of the resolver are the rules made from the merged
entries, whatever the order of the loops. -/
theorem mem_prefixRules_iff (lower : Char → Char) (order : GoMap → GoMap)
    (ho : RangeLaw order) (defaults env overrides : GoMap) (rule : prefixRule) :
    rule ∈ (buildResolver lower order defaults env overrides).prefixRules ↔
      ∃ e ∈ mergedMapping lower order defaults env overrides,
        toPrefixRule lower e = some rule := by
  unfold buildResolver
  simp only
  rw [(List.perm_insertionSort longerFirst _).mem_iff, foldl_addRule_prefixRules]
  simp only [List.nil_append, List.mem_filterMap]
  constructor
  · rintro ⟨e, he, h⟩
    exact ⟨e, (ho _).mem_iff.mp he, h⟩
  · rintro ⟨e, he, h⟩
    exact ⟨e, (ho _).mem_iff.mpr he, h⟩

/-- The exact rule for `n` is `v` when some merged entry becomes the exact
rule for `n` and all that do carry `v`, whatever the order of the loops. -/
theorem exactMap_get?_some (lower : Char → Char) (order : GoMap → GoMap)
    (ho : RangeLaw order) (defaults env overrides : GoMap) (n v : Str)
    (hex : ∃ e ∈ mergedMapping lower order defaults env overrides,
      isExactFor lower n e = true)
    (hall : ∀ e ∈ mergedMapping lower order defaults env overrides,
      isExactFor lower n e = true → TrimSpace e.2 = v) :
    (buildResolver lower order defaults env overrides).exactMap.get? n = some v := by
  unfold buildResolver
  simp only
  apply foldl_addRule_exact_some
  · intro e he
    exact hall e ((ho _).mem_iff.mp he)
  · obtain ⟨e, he, hg⟩ := hex
    exact Or.inl ⟨e, (ho _).mem_iff.mpr he, hg⟩

theorem exactMap_get?_none (lower : Char → Char) (order : GoMap → GoMap)
    (ho : RangeLaw order) (defaults env overrides : GoMap) (n : Str)
    (hall : ∀ e ∈ mergedMapping lower order defaults env overrides,
      isExactFor lower n e = false) :
    (buildResolver lower order defaults env overrides).exactMap.get? n = none := by
  unfold buildResolver
  simp only
  rw [foldl_addRule_exact_none lower n _ _ (fun e he => hall e ((ho _).mem_iff.mp he))]
  rfl

/-! ## White space and letter case -/

theorem mem_TrimSpace {s : Str} {c : Char} (h : c ∈ TrimSpace s) : c ∈ s := by
  unfold TrimSpace at h
  have h1 := List.mem_reverse.mp h
  have h2 := (List.dropWhile_sublist isSpace).subset h1
  have h3 := List.mem_reverse.mp h2
  exact (List.dropWhile_sublist isSpace).subset h3

theorem ToLower_ascii {lower : Char → Char} (hl : CaseLaws lower) (s : Str)
    (h : ∀ c ∈ s, c.toNat < 128) : ToLower lower s = ToLower Char.toLower s := by
  unfold ToLower
  apply List.map_congr_left
  intro c hc
  exact hl.ascii c (h c hc)

theorem norm_ascii {lower : Char → Char} (hl : CaseLaws lower) (s : Str)
    (h : isAscii s = true) :
    ToLower lower (TrimSpace s) = ToLower Char.toLower (TrimSpace s) := by
  apply ToLower_ascii hl
  intro c hc
  unfold isAscii at h
  rw [List.all_eq_true] at h
  simpa using h c (mem_TrimSpace hc)

theorem isExactFor_ascii {lower : Char → Char} (hl : CaseLaws lower) (n : Str)
    (e : Str × Str) (h : isAscii e.1 = true) :
    isExactFor lower n e = isExactFor Char.toLower n e := by
  unfold isExactFor
  rw [norm_ascii hl e.1 h]

theorem toPrefixRule_ascii {lower : Char → Char} (hl : CaseLaws lower)
    (e : Str × Str) (h : isAscii e.1 = true) :
    toPrefixRule lower e = toPrefixRule Char.toLower e := by
  unfold toPrefixRule
  rw [norm_ascii hl e.1 h]

theorem dropWhile_append_stop (p : Char → Bool) (xs ys : Str) (y : Char) (hy : p y = false) :
    (xs ++ y :: ys).dropWhile p = xs.dropWhile p ++ y :: ys := by
  induction xs with
  | nil => simp [List.dropWhile, hy]
  | cons x xs ih =>
    by_cases hx : p x = true
    · simp [List.dropWhile, hx, ih]
    · simp [List.dropWhile, hx]

/-- Trimming keeps a leading text that neither begins nor ends with white
space. -/
theorem TrimSpace_append (a rest : Str) (c l : Char) (a' init : Str)
    (h1 : a = c :: a') (hc : isSpace c = false) (h2 : a = init ++ [l])
    (hlast : isSpace l = false) : ∃ rest', TrimSpace (a ++ rest) = a ++ rest' := by
  unfold TrimSpace
  have e1 : (a ++ rest).dropWhile isSpace = a ++ rest := by
    rw [h1]
    simp [List.dropWhile, hc]
  rw [e1]
  have e2 : (a ++ rest).reverse = rest.reverse ++ l :: init.reverse := by
    rw [h2]
    simp
  rw [e2, dropWhile_append_stop isSpace _ _ l hlast]
  refine ⟨(rest.reverse.dropWhile isSpace).reverse, ?_⟩
  rw [h2]
  simp

theorem ToLower_append (lower : Char → Char) (a b : Str) :
    ToLower lower (a ++ b) = ToLower lower a ++ ToLower lower b := by
  simp [ToLower]

/-! ## The default mapping -/

theorem mergedMapping_defaults (lower : Char → Char) (order : GoMap → GoMap)
    (ho : RangeLaw order) (defaults : GoMap) :
    mergedMapping lower order defaults [] [] = defaults := by
  have h : order [] = [] := (ho []).eq_nil
  unfold mergedMapping
  simp [h]

theorem defaults_ascii : ∀ e ∈ defaultBranchSuffixMapping, isAscii e.1 = true := by
  decide

/-- With the default mapping alone, a branch name that normalises to a key
`n` of an exact default entry resolves to the value of that entry. -/
theorem default_exact_rule (lower : Char → Char) (order : GoMap → GoMap)
    (hl : CaseLaws lower) (ho : RangeLaw order) (b n v : Str)
    (hb : isAscii b = true) (hn : ToLower Char.toLower (TrimSpace b) = n) (hne : n ≠ [])
    (hex : ∃ e ∈ defaultBranchSuffixMapping, isExactFor Char.toLower n e = true)
    (hall : ∀ e ∈ defaultBranchSuffixMapping,
      isExactFor Char.toLower n e = true → TrimSpace e.2 = v) :
    suffixForBranch lower (newBranchSuffixResolver lower order [] []) b = v := by
  have hnorm : ToLower lower (TrimSpace b) = n := by rw [norm_ascii hl b hb, hn]
  have hget : (newBranchSuffixResolver lower order [] []).exactMap.get? n = some v := by
    unfold newBranchSuffixResolver
    apply exactMap_get?_some lower order ho
    · rw [mergedMapping_defaults lower order ho]
      obtain ⟨e, he, hg⟩ := hex
      exact ⟨e, he, by rw [isExactFor_ascii hl n e (defaults_ascii e he)]; exact hg⟩
    · rw [mergedMapping_defaults lower order ho]
      intro e he hg
      rw [isExactFor_ascii hl n e (defaults_ascii e he)] at hg
      exact hall e he hg
  have h := (newResolver_cases lower order [] [] b).2.1 v
  rw [hnorm] at h
  exact h hne hget

theorem isExactFor_key {lower : Char → Char} {n : Str} {e : Str × Str}
    (h : isExactFor lower n e = true) : ToLower lower (TrimSpace e.1) = n := by
  unfold isExactFor at h
  simp only [Bool.and_eq_true, beq_iff_eq] at h
  exact h.2

theorem isExactFor_self {lower : Char → Char} {n : Str} {e : Str × Str}
    (h : isExactFor lower n e = true) :
    isExactFor lower (ToLower lower (TrimSpace e.1)) e = true := by
  have hk := isExactFor_key h
  rw [hk]
  exact h

theorem HasPrefix_comparable (p rest q : Str) (h : HasPrefix (p ++ rest) q = true) :
    HasPrefix p q = true ∨ HasPrefix q p = true := by
  unfold HasPrefix at h ⊢
  rw [List.isPrefixOf_iff_prefix] at h
  rw [List.isPrefixOf_iff_prefix, List.isPrefixOf_iff_prefix]
  exact List.prefix_or_prefix_of_prefix h (List.prefix_append p rest)

theorem HasPrefix_of_prefix (p rest q : Str) (h : HasPrefix p q = true) :
    HasPrefix (p ++ rest) q = true := by
  unfold HasPrefix at h ⊢
  rw [List.isPrefixOf_iff_prefix] at h ⊢
  exact h.trans (List.prefix_append p rest)

/-- With the default mapping alone, a branch name that begins with `p`
resolves to `v` when no exact default key begins with `p`, some default
prefix rule has a prefix of `p` as its prefix, and every default prefix rule
whose prefix is comparable with `p` carries `v`. -/
theorem default_prefix_rule (lower : Char → Char) (order : GoMap → GoMap)
    (hl : CaseLaws lower) (ho : RangeLaw order) (b p v : Str)
    (hb : HasPrefix b p = true)
    (c l : Char) (p' init : Str) (hp1 : p = c :: p') (hc : isSpace c = false)
    (hp2 : p = init ++ [l]) (hlast : isSpace l = false)
    (hpa : isAscii p = true) (hpl : ToLower Char.toLower p = p)
    (hexact : ∀ e ∈ defaultBranchSuffixMapping,
      isExactFor Char.toLower (ToLower Char.toLower (TrimSpace e.1)) e = true →
      HasPrefix (ToLower Char.toLower (TrimSpace e.1)) p = false)
    (hsome : ∃ e ∈ defaultBranchSuffixMapping, ∃ rule,
      toPrefixRule Char.toLower e = some rule ∧ HasPrefix p rule.pfx = true)
    (hall : ∀ e ∈ defaultBranchSuffixMapping, ∀ rule,
      toPrefixRule Char.toLower e = some rule →
      (HasPrefix p rule.pfx = true ∨ HasPrefix rule.pfx p = true) → rule.suffix = v) :
    suffixForBranch lower (newBranchSuffixResolver lower order [] []) b = v := by
  obtain ⟨rest, hrest⟩ := (HasPrefix_iff _ _).mp hb
  obtain ⟨rest', htrim⟩ := TrimSpace_append p rest c l p' init hp1 hc hp2 hlast
  have hlp : ToLower lower p = p := by
    rw [ToLower_ascii hl p (by
      intro x hx
      unfold isAscii at hpa
      rw [List.all_eq_true] at hpa
      simpa using hpa x hx), hpl]
  have hnorm : ToLower lower (TrimSpace b) = p ++ ToLower lower rest' := by
    rw [hrest, htrim, ToLower_append, hlp]
  have hne : ToLower lower (TrimSpace b) ≠ [] := by
    rw [hnorm, hp1]
    simp
  have hmem : ∀ rule, rule ∈ (newBranchSuffixResolver lower order [] []).prefixRules ↔
      ∃ e ∈ defaultBranchSuffixMapping, toPrefixRule Char.toLower e = some rule := by
    intro rule
    unfold newBranchSuffixResolver
    rw [mem_prefixRules_iff lower order ho, mergedMapping_defaults lower order ho]
    constructor
    · rintro ⟨e, he, h⟩
      exact ⟨e, he, by rw [← toPrefixRule_ascii hl e (defaults_ascii e he)]; exact h⟩
    · rintro ⟨e, he, h⟩
      exact ⟨e, he, by rw [toPrefixRule_ascii hl e (defaults_ascii e he)]; exact h⟩
  have hget : (newBranchSuffixResolver lower order [] []).exactMap.get?
      (ToLower lower (TrimSpace b)) = none := by
    unfold newBranchSuffixResolver
    apply exactMap_get?_none lower order ho
    rw [mergedMapping_defaults lower order ho]
    intro e he
    cases hg : isExactFor lower (ToLower lower (TrimSpace b)) e with
    | false => rfl
    | true =>
      exfalso
      rw [isExactFor_ascii hl _ e (defaults_ascii e he)] at hg
      have hk := isExactFor_key hg
      have h1 := hexact e he (isExactFor_self hg)
      rw [hk, hnorm, HasPrefix_append] at h1
      cases h1
  obtain ⟨rule, hin, hmatch, hres, _⟩ :=
    (newResolver_cases lower order [] [] b).2.2.1 hne hget (by
      obtain ⟨e, he, rule, hr, hpr⟩ := hsome
      refine ⟨rule, (hmem rule).mpr ⟨e, he, hr⟩, ?_⟩
      rw [hnorm]
      exact HasPrefix_of_prefix p _ rule.pfx hpr)
  obtain ⟨e, he, hr⟩ := (hmem rule).mp hin
  rw [hres]
  rw [hnorm] at hmatch
  exact hall e he rule hr (HasPrefix_comparable p _ rule.pfx hmatch)

/-- C14. With no environment overrides and no explicit overrides, whatever
the order of the loops: the ten default names resolve to their default
suffix, and every branch name that begins with `release/`, `feature/` or
`hotfix/` resolves to `rc`, `alpha` or `beta`. -/
theorem default_mapping_reproduced (lower : Char → Char) (order : GoMap → GoMap)
    (hl : CaseLaws lower) (ho : RangeLaw order) :
    (suffixForBranch lower (newBranchSuffixResolver lower order [] []) "beta".toList
        = "beta".toList ∧
      suffixForBranch lower (newBranchSuffixResolver lower order [] []) "develop".toList
        = "beta".toList ∧
      suffixForBranch lower (newBranchSuffixResolver lower order [] []) "dev".toList
        = "beta".toList ∧
      suffixForBranch lower (newBranchSuffixResolver lower order [] []) "staging".toList
        = "beta".toList ∧
      suffixForBranch lower (newBranchSuffixResolver lower order [] []) "alpha".toList
        = "alpha".toList ∧
      suffixForBranch lower (newBranchSuffixResolver lower order [] []) "experimental".toList
        = "alpha".toList ∧
      suffixForBranch lower (newBranchSuffixResolver lower order [] []) "wip".toList
        = "alpha".toList ∧
      suffixForBranch lower (newBranchSuffixResolver lower order [] []) "rc".toList
        = "rc".toList ∧
      suffixForBranch lower (newBranchSuffixResolver lower order [] []) "release".toList
        = "rc".toList ∧
      suffixForBranch lower (newBranchSuffixResolver lower order [] []) "hotfix".toList
        = "hotfix".toList) ∧
    (∀ b : Str, HasPrefix b "release/".toList = true →
      suffixForBranch lower (newBranchSuffixResolver lower order [] []) b = "rc".toList) ∧
    (∀ b : Str, HasPrefix b "feature/".toList = true →
      suffixForBranch lower (newBranchSuffixResolver lower order [] []) b = "alpha".toList) ∧
    (∀ b : Str, HasPrefix b "hotfix/".toList = true →
      suffixForBranch lower (newBranchSuffixResolver lower order [] []) b = "beta".toList) := by
  refine ⟨⟨?_, ?_, ?_, ?_, ?_, ?_, ?_, ?_, ?_, ?_⟩, ?_, ?_, ?_⟩
  · exact default_exact_rule lower order hl ho _ "beta".toList _ (by decide) (by decide)
      (by decide) (by decide) (by decide)
  · exact default_exact_rule lower order hl ho _ "develop".toList _ (by decide) (by decide)
      (by decide) (by decide) (by decide)
  · exact default_exact_rule lower order hl ho _ "dev".toList _ (by decide) (by decide)
      (by decide) (by decide) (by decide)
  · exact default_exact_rule lower order hl ho _ "staging".toList _ (by decide) (by decide)
      (by decide) (by decide) (by decide)
  · exact default_exact_rule lower order hl ho _ "alpha".toList _ (by decide) (by decide)
      (by decide) (by decide) (by decide)
  · exact default_exact_rule lower order hl ho _ "experimental".toList _ (by decide)
      (by decide) (by decide) (by decide) (by decide)
  · exact default_exact_rule lower order hl ho _ "wip".toList _ (by decide) (by decide)
      (by decide) (by decide) (by decide)
  · exact default_exact_rule lower order hl ho _ "rc".toList _ (by decide) (by decide)
      (by decide) (by decide) (by decide)
  · exact default_exact_rule lower order hl ho _ "release".toList _ (by decide) (by decide)
      (by decide) (by decide) (by decide)
  · exact default_exact_rule lower order hl ho _ "hotfix".toList _ (by decide) (by decide)
      (by decide) (by decide) (by decide)
  · intro b hb
    exact default_prefix_rule lower order hl ho b "release/".toList _ hb
      'r' '/' "elease/".toList "release".toList rfl (by decide) rfl (by decide)
      (by decide) (by decide) (by decide) (by decide) (by decide)
  · intro b hb
    exact default_prefix_rule lower order hl ho b "feature/".toList _ hb
      'f' '/' "eature/".toList "feature".toList rfl (by decide) rfl (by decide)
      (by decide) (by decide) (by decide) (by decide) (by decide)
  · intro b hb
    exact default_prefix_rule lower order hl ho b "hotfix/".toList _ hb
      'h' '/' "otfix/".toList "hotfix".toList rfl (by decide) rfl (by decide)
      (by decide) (by decide) (by decide) (by decide) (by decide)

/-- The ASCII lower-casing satisfies the laws asked of `unicode.ToLower`. -/
theorem caseLaws_toLower : CaseLaws Char.toLower := by
  have key : ∀ c : Char, Char.toLower (Char.toLower c) = Char.toLower c ∧
      isSpace (Char.toLower c) = isSpace c := by
    intro c
    by_cases h : c.toNat ≥ 65 ∧ c.toNat ≤ 90
    · have hc : c = Char.ofNat c.toNat := (Char.ofNat_toNat c).symm
      obtain ⟨n, hn⟩ : ∃ n, c.toNat = n := ⟨_, rfl⟩
      rw [hn] at h hc
      obtain ⟨h1, h2⟩ := h
      rw [hc]
      interval_cases n <;> decide
    · have e : Char.toLower c = c := by
        unfold Char.toLower
        simp only
        rw [if_neg h]
      rw [e]
      exact ⟨e, rfl⟩
  exact ⟨fun _ _ => rfl, fun c => (key c).1, fun c => (key c).2⟩

theorem rangeLaw_id : RangeLaw id := fun m => List.Perm.refl m

theorem default_mapping_reproduced_witness :
    suffixForBranch Char.toLower (newBranchSuffixResolver Char.toLower id [] [])
        "develop".toList = "beta".toList ∧
    suffixForBranch Char.toLower (newBranchSuffixResolver Char.toLower id [] [])
        "release/1.0".toList = "rc".toList :=
  ⟨(default_mapping_reproduced Char.toLower id caseLaws_toLower rangeLaw_id).1.2.1,
   (default_mapping_reproduced Char.toLower id caseLaws_toLower rangeLaw_id).2.1
      "release/1.0".toList (by decide)⟩

/-! ## The override flag -/

/-- C19, the code at `main:beta:1`. The entry has three colon-separated
parts, so it is not in the two-part form; `SplitN` with the limit 2 cuts it
at the first colon only, and `parseBranchSuffixPairs` returns no error and
the mapping of `main` to `beta:1`. -/
theorem parseBranchSuffixPairs_extra_colon :
    (Split (TrimSpace "main:beta:1".toList) ":".toList).length = 3 ∧
    parseBranchSuffixPairs Char.toLower ["main:beta:1".toList]
      = Except.ok (some [("main".toList, "beta:1".toList)]) :=
  ⟨by decide, by rfl⟩

/-- The override `develop ↦ " "`, whose value is empty after trimming, in
every order of the `range` loops. With the entry the resolver has no rule for
`develop`; with the entry removed it resolves `develop` to `beta`. -/
theorem empty_value_masks_any_order (order : GoMap → GoMap) (ho : RangeLaw order) :
    suffixForBranch Char.toLower
        (newBranchSuffixResolver Char.toLower order [] [("develop".toList, " ".toList)])
        "develop".toList = [] ∧
    suffixForBranch Char.toLower (newBranchSuffixResolver Char.toLower order [] [])
        "develop".toList = "beta".toList := by
  have h0 : order [] = [] := (ho []).eq_nil
  have h1 : order [("develop".toList, " ".toList)] = [("develop".toList, " ".toList)] :=
    List.perm_singleton.mp (ho _)
  have hM : mergedMapping Char.toLower order defaultBranchSuffixMapping []
      [("develop".toList, " ".toList)]
      = defaultBranchSuffixMapping.set "develop".toList [] := by
    unfold mergedMapping
    simp only [h0, h1, List.foldl]
    rfl
  have hn : ToLower Char.toLower (TrimSpace "develop".toList) = "develop".toList := by decide
  constructor
  · have h := (newResolver_cases Char.toLower order [] [("develop".toList, " ".toList)]
      "develop".toList).2.2.2
    rw [hn] at h
    apply h (by decide)
    · unfold newBranchSuffixResolver
      apply exactMap_get?_none Char.toLower order ho
      rw [hM]
      decide
    · intro rule hr
      unfold newBranchSuffixResolver at hr
      rw [mem_prefixRules_iff Char.toLower order ho, hM] at hr
      obtain ⟨e, he, hrule⟩ := hr
      have hall : ∀ e ∈ defaultBranchSuffixMapping.set "develop".toList [],
          (toPrefixRule Char.toLower e).all
            (fun r => !HasPrefix "develop".toList r.pfx) = true := by decide
      have h2 := hall e he
      rw [hrule] at h2
      simpa using h2
  · exact default_exact_rule Char.toLower order caseLaws_toLower ho "develop".toList
      "develop".toList "beta".toList (by decide) (by decide) (by decide) (by decide)
      (by decide)

/-- C20, as stated, fails. The override `develop ↦ " "` has a value that is
empty after trimming. With the entry the resolver has no rule for `develop`;
with the entry removed it resolves `develop` to `beta`. The entry is not
discarded: it overwrites the default entry in the merged map, and only then
is the merged entry skipped. -/
theorem empty_value_override_masks_default :
    TrimSpace " ".toList = [] ∧
    suffixForBranch Char.toLower
        (newBranchSuffixResolver Char.toLower id [] [("develop".toList, " ".toList)])
        "develop".toList = [] ∧
    suffixForBranch Char.toLower
        (newBranchSuffixResolver Char.toLower id []
          ([("develop".toList, " ".toList)].erase ("develop".toList, " ".toList)))
        "develop".toList = "beta".toList :=
  ⟨by decide, by decide, by decide⟩

/-! ## The branch suffix -/

theorem SetPrerelease_valid (validate : Str → Bool) (v : Version) (pre : Str)
    (h : validate pre = true) :
    v.SetPrerelease validate pre = some (Version.reoriginal v { v with pre := pre }) := by
  unfold Version.SetPrerelease
  rw [if_neg]
  simp [h]

theorem returnsWithPre_of_set (v : Version) (pre : Str) :
    ReturnsWithPre (Except.ok (Version.reoriginal v { v with pre := pre })) v pre :=
  ⟨_, rfl, rfl, rfl, rfl, rfl⟩

/-- C17, as stated, fails. With the override `main ↦ my_suffix` on branch
`main` and no prior tag, the suffix is resolved and not empty, but
`my_suffix.1` is no pre-release and the call returns an error. On branch
`develop` with the prior tag `v1.3.0-beta.9223372036854775808` of the same
core, the counter does not fit in `int`, and the call returns `beta.1`. -/
theorem applyBranchSuffix_error_and_reset :
    (suffixForBranch Char.toLower
        (newBranchSuffixResolver Char.toLower id [] [("main".toList, "my_suffix".toList)])
        "main".toList = "my_suffix".toList ∧
      GetLatestTagWithSuffix (Except.ok ["".toList]) "my_suffix".toList = Except.ok [] ∧
      applyBranchSuffix Char.toLower semverStrict
        ⟨id, [], "main".toList, Except.ok ["".toList]⟩
        ⟨1, 3, 0, [], [], "1.3.0".toList⟩ [] [("main".toList, "my_suffix".toList)]
        = Except.error (Failure.setPrerelease "my_suffix.1".toList)) ∧
    (GetLatestTagWithSuffix (Except.ok ["v1.3.0-beta.9223372036854775808".toList])
        "beta".toList = Except.ok "v1.3.0-beta.9223372036854775808".toList ∧
      versionFromTag parseVersion "v1.3.0-beta.9223372036854775808".toList "v".toList
        = some ⟨1, 3, 0, "beta.9223372036854775808".toList, [],
            "1.3.0-beta.9223372036854775808".toList⟩ ∧
      applyBranchSuffix Char.toLower semverStrict
        ⟨id, [], "develop".toList, Except.ok ["v1.3.0-beta.9223372036854775808".toList]⟩
        ⟨1, 3, 0, [], [], "1.3.0".toList⟩ "v".toList []
        = Except.ok ⟨1, 3, 0, "beta.1".toList, [], "1.3.0-beta.1".toList⟩) :=
  ⟨⟨by decide, by rfl, by rfl⟩, ⟨by rfl, by decide, by rfl⟩⟩

/-- C17, amended. With `s` the suffix resolved for the current branch:
an empty `s` returns the base version unchanged; otherwise, provided the
library accepts the computed pre-release, the call returns the base
version's major, minor and patch with the pre-release `s.1` when there is no
prior `s`-suffixed tag, `s.1` when the prior tag parses to another major,
minor or patch, and `s.(N+1)` when the prior tag parses to the same major,
minor and patch with the pre-release `s.N` and `N + 1` fits in `int`. -/
theorem applyBranchSuffix_numbering (lower : Char → Char) (lib : Semver) (w : World)
    (version : Version) (pfx : Str) (overrides : GoMap) (s : Str)
    (hs : suffixForBranch lower (newBranchSuffixResolver lower w.order w.env overrides)
      w.CurrentBranch = s) :
    (s = [] → applyBranchSuffix lower lib w version pfx overrides = Except.ok version) ∧
    (s ≠ [] → GetLatestTagWithSuffix w.allTags s = Except.ok [] →
      lib.validatePrerelease (s ++ ".1".toList) = true →
      ReturnsWithPre (applyBranchSuffix lower lib w version pfx overrides) version
        (s ++ ".1".toList)) ∧
    (∀ (tag : Str) (ev : Version), s ≠ [] →
      GetLatestTagWithSuffix w.allTags s = Except.ok tag → tag ≠ [] →
      versionFromTag lib.NewVersion tag pfx = some ev →
      ¬ (ev.major = version.major ∧ ev.minor = version.minor ∧ ev.patch = version.patch) →
      lib.validatePrerelease (s ++ ".1".toList) = true →
      ReturnsWithPre (applyBranchSuffix lower lib w version pfx overrides) version
        (s ++ ".1".toList)) ∧
    (∀ (tag : Str) (ev : Version) (N : Nat), s ≠ [] →
      GetLatestTagWithSuffix w.allTags s = Except.ok tag → tag ≠ [] →
      versionFromTag lib.NewVersion tag pfx = some ev →
      (ev.major = version.major ∧ ev.minor = version.minor ∧ ev.patch = version.patch) →
      ev.pre = s ++ ".".toList ++ Itoa (N : Int) → N + 1 < 2 ^ 63 →
      lib.validatePrerelease (s ++ ".".toList ++ Itoa ((N : Int) + 1)) = true →
      ReturnsWithPre (applyBranchSuffix lower lib w version pfx overrides) version
        (s ++ ".".toList ++ Itoa ((N : Int) + 1))) := by
  refine ⟨fun h0 => ?_, fun hne hget hv => ?_, fun tag ev hne hget htag hparse hcore hv => ?_,
    fun tag ev N hne hget htag hparse hcore hpre hN hv => ?_⟩
  · unfold applyBranchSuffix
    simp only [hs, h0, if_true]
  · unfold applyBranchSuffix
    simp only [hs, hne, if_false, hget, if_true, SetPrerelease_valid _ _ _ hv]
    exact returnsWithPre_of_set version _
  · unfold applyBranchSuffix
    simp only [hs, hne, if_false, hget, htag, hparse, hcore, SetPrerelease_valid _ _ _ hv]
    exact returnsWithPre_of_set version _
  · have hpne : ev.pre ≠ [] := by
      rw [hpre]
      show s ++ ['.'] ++ Itoa (N : Int) ≠ []
      simp
    have hnext : getNextPrereleaseNumber ev.pre s = (N : Int) + 1 := by
      rw [hpre]
      exact getNextPrereleaseNumber_decimal s N hN
    unfold applyBranchSuffix
    simp only [hs, hne, if_false, hget, htag, hparse, hcore, and_self, if_true, hpne, hnext,
      SetPrerelease_valid _ _ _ hv]
    exact returnsWithPre_of_set version _

theorem applyBranchSuffix_numbering_witness :
    ReturnsWithPre
      (applyBranchSuffix Char.toLower semverStrict
        ⟨id, [], "develop".toList, Except.ok ["v1.3.0-beta.2".toList, "v1.2.0".toList]⟩
        ⟨1, 3, 0, [], [], "1.3.0".toList⟩ "v".toList [])
      ⟨1, 3, 0, [], [], "1.3.0".toList⟩
      ("beta".toList ++ ".".toList ++ Itoa (((2 : Nat) : Int) + 1)) :=
  (applyBranchSuffix_numbering Char.toLower semverStrict
      ⟨id, [], "develop".toList, Except.ok ["v1.3.0-beta.2".toList, "v1.2.0".toList]⟩
      ⟨1, 3, 0, [], [], "1.3.0".toList⟩ "v".toList [] "beta".toList (by decide)).2.2.2
    "v1.3.0-beta.2".toList ⟨1, 3, 0, "beta.2".toList, [], "1.3.0-beta.2".toList⟩ 2
    (by decide) (by rfl) (by decide) (by decide) (by decide) (by decide) (by decide)
    (by decide)

/-- C18, as stated, fails. At the prior tag `v1.3.0-beta2`, `hasSuffix`
accepts the tag for the suffix `beta` (the suffix followed by a digit), its
core is the base version's, the counter falls back to 1 because the
pre-release is not `beta.` and a number, and the call returns `1.3.0-beta.1`,
which stands below `1.3.0-beta2` in semantic-versioning precedence. -/
theorem applyBranchSuffix_below_prior :
    hasSuffix "v1.3.0-beta2".toList "beta".toList = true ∧
    versionFromTag parseVersion "v1.3.0-beta2".toList "v".toList
      = some ⟨1, 3, 0, "beta2".toList, [], "1.3.0-beta2".toList⟩ ∧
    applyBranchSuffix Char.toLower semverStrict
      ⟨id, [], "develop".toList, Except.ok ["v1.3.0-beta2".toList]⟩
      ⟨1, 3, 0, [], [], "1.3.0".toList⟩ "v".toList []
      = Except.ok ⟨1, 3, 0, "beta.1".toList, [], "1.3.0-beta.1".toList⟩ ∧
    Version.Compare ⟨1, 3, 0, "beta.1".toList, [], "1.3.0-beta.1".toList⟩
      ⟨1, 3, 0, "beta2".toList, [], "1.3.0-beta2".toList⟩ = -1 :=
  ⟨by decide, by decide, by rfl, by decide⟩

/-! ## Normalisation of keys -/

theorem dropWhile_head (p : Char → Bool) :
    ∀ (l : Str) (a : Char) (l' : Str), l.dropWhile p = a :: l' → p a = false := by
  intro l
  induction l with
  | nil => intro a l' h; simp at h
  | cons x xs ih =>
    intro a l' h
    by_cases hx : p x = true
    · rw [List.dropWhile_cons_of_pos hx] at h
      exact ih a l' h
    · rw [List.dropWhile_cons_of_neg hx] at h
      cases h
      simpa using hx

theorem dropWhile_of_head (p : Char → Bool) (a : Char) (l : Str) (h : p a = false) :
    (a :: l).dropWhile p = a :: l := by
  rw [List.dropWhile_cons_of_neg (by simp [h])]

/-- Trimming a trimmed text changes nothing. -/
theorem TrimSpace_idem (s : Str) : TrimSpace (TrimSpace s) = TrimSpace s := by
  cases ht : TrimSpace s with
  | nil => rfl
  | cons b t' =>
    unfold TrimSpace at ht
    -- `w` is the reversed result, `u` the text without its leading white space
    generalize hu : s.dropWhile isSpace = u at ht
    generalize hw : u.reverse.dropWhile isSpace = w at ht
    have hwt : w = (b :: t').reverse := by rw [← ht, List.reverse_reverse]
    obtain ⟨a, w', hw'⟩ : ∃ a w', w = a :: w' := by
      cases w with
      | nil => simp at ht
      | cons a w' => exact ⟨a, w', rfl⟩
    have ha : isSpace a = false := dropWhile_head isSpace _ a w' (hw.trans hw')
    obtain ⟨x, hx⟩ := List.dropWhile_suffix isSpace (l := u.reverse)
    rw [hw] at hx
    have hu2 : u = (b :: t') ++ x.reverse := by
      have := congrArg List.reverse hx
      rw [List.reverse_reverse, List.reverse_append, ht] at this
      exact this.symm
    have hb : isSpace b = false := by
      apply dropWhile_head isSpace s b (t' ++ x.reverse)
      rw [hu, hu2]
      rfl
    unfold TrimSpace
    rw [dropWhile_of_head isSpace b t' hb, ← hwt, hw', dropWhile_of_head isSpace a w' ha,
      ← hw', hwt, List.reverse_reverse]

theorem dropWhile_isSpace_map {lower : Char → Char} (hl : CaseLaws lower) (l : Str) :
    (l.map lower).dropWhile isSpace = (l.dropWhile isSpace).map lower := by
  induction l with
  | nil => rfl
  | cons x xs ih =>
    by_cases hx : isSpace x = true
    · have hx' : isSpace (lower x) = true := by rw [hl.space]; exact hx
      rw [List.map_cons, List.dropWhile_cons_of_pos hx', List.dropWhile_cons_of_pos hx, ih]
    · have hx' : ¬ isSpace (lower x) = true := by rw [hl.space]; exact hx
      rw [List.map_cons, List.dropWhile_cons_of_neg hx', List.dropWhile_cons_of_neg hx,
        List.map_cons]

theorem TrimSpace_ToLower {lower : Char → Char} (hl : CaseLaws lower) (s : Str) :
    TrimSpace (ToLower lower s) = ToLower lower (TrimSpace s) := by
  unfold TrimSpace ToLower
  rw [dropWhile_isSpace_map hl, ← List.map_reverse, dropWhile_isSpace_map hl,
    ← List.map_reverse]

theorem ToLower_idem {lower : Char → Char} (hl : CaseLaws lower) (s : Str) :
    ToLower lower (ToLower lower s) = ToLower lower s := by
  unfold ToLower
  rw [List.map_map]
  apply List.map_congr_left
  intro c _
  exact hl.idem c

/-- A normalised key is left alone by a second normalisation. -/
theorem norm_idem {lower : Char → Char} (hl : CaseLaws lower) (s : Str) :
    ToLower lower (TrimSpace (ToLower lower (TrimSpace s))) = ToLower lower (TrimSpace s) := by
  rw [TrimSpace_ToLower hl, TrimSpace_idem, ToLower_idem hl]

/-! ## Go maps: keys stay distinct -/

theorem GoMap.mem_set (m : GoMap) (k v : Str) (e : Str × Str) (h : e ∈ m.set k v) :
    e = (k, v) ∨ e ∈ m := by
  induction m with
  | nil =>
    simp only [GoMap.set, List.mem_singleton] at h
    exact Or.inl h
  | cons x m ih =>
    simp only [GoMap.set] at h
    by_cases hx : x.1 = k
    · rw [if_pos hx] at h
      rcases List.mem_cons.mp h with h | h
      · exact Or.inl h
      · exact Or.inr (List.mem_cons_of_mem _ h)
    · rw [if_neg hx] at h
      rcases List.mem_cons.mp h with h | h
      · exact Or.inr (h ▸ List.mem_cons_self _ _)
      · rcases ih h with h | h
        · exact Or.inl h
        · exact Or.inr (List.mem_cons_of_mem _ h)

theorem GoMap.key_mem_set (m : GoMap) (k v a : Str) (h : a ∈ (m.set k v).map Prod.fst) :
    a = k ∨ a ∈ m.map Prod.fst := by
  obtain ⟨e, he, rfl⟩ := List.mem_map.mp h
  rcases GoMap.mem_set m k v e he with h | h
  · exact Or.inl (by rw [h])
  · exact Or.inr (List.mem_map.mpr ⟨e, h, rfl⟩)

theorem GoMap.nodup_set (m : GoMap) (k v : Str) (h : (m.map Prod.fst).Nodup) :
    ((m.set k v).map Prod.fst).Nodup := by
  induction m with
  | nil => simp [GoMap.set]
  | cons x m ih =>
    simp only [List.map_cons, List.nodup_cons] at h
    simp only [GoMap.set]
    by_cases hx : x.1 = k
    · rw [if_pos hx]
      simp only [List.map_cons, List.nodup_cons]
      exact ⟨hx ▸ h.1, h.2⟩
    · rw [if_neg hx]
      simp only [List.map_cons, List.nodup_cons]
      refine ⟨fun hin => ?_, ih h.2⟩
      rcases GoMap.key_mem_set m k v x.1 hin with h1 | h1
      · exact hx h1
      · exact h.1 h1

theorem GoMap.get?_of_mem (m : GoMap) (h : (m.map Prod.fst).Nodup) (a b : Str)
    (hm : (a, b) ∈ m) : m.get? a = some b := by
  unfold GoMap.get?
  induction m with
  | nil => cases hm
  | cons x m ih =>
    obtain ⟨xa, xb⟩ := x
    simp only [List.map_cons, List.nodup_cons] at h
    rw [lookup_cons_if]
    rcases List.mem_cons.mp hm with hm | hm
    · cases hm
      rw [if_pos rfl]
    · have hne : ¬ a = xa := fun e => h.1 (e ▸ List.mem_map.mpr ⟨(a, b), hm, rfl⟩)
      rw [if_neg hne]
      exact ih h.2 hm

/-! ## The merged mapping -/

theorem foldl_set_inv (P : Str → Prop) (L : GoMap) :
    ∀ M : GoMap, (M.map Prod.fst).Nodup → (∀ e ∈ M, P e.1) → (∀ e ∈ L, P e.1) →
      ((L.foldl (fun m entry => m.set entry.1 entry.2) M).map Prod.fst).Nodup ∧
        ∀ e ∈ L.foldl (fun m entry => m.set entry.1 entry.2) M, P e.1 := by
  induction L with
  | nil => intro M h1 h2 _; exact ⟨h1, h2⟩
  | cons x L ih =>
    intro M h1 h2 h3
    rw [List.foldl_cons]
    apply ih _ (GoMap.nodup_set M x.1 x.2 h1)
    · intro e he
      rcases GoMap.mem_set M x.1 x.2 e he with h | h
      · rw [h]
        exact h3 x (List.mem_cons_self _ _)
      · exact h2 e h
    · exact fun e he => h3 e (List.mem_cons_of_mem _ he)

theorem mergeOverride_inv (lower : Char → Char) (P : Str → Prop)
    (hP : ∀ k : Str, P (ToLower lower (TrimSpace k))) (L : GoMap) :
    ∀ M : GoMap, (M.map Prod.fst).Nodup → (∀ e ∈ M, P e.1) →
      ((L.foldl (mergeOverride lower) M).map Prod.fst).Nodup ∧
        ∀ e ∈ L.foldl (mergeOverride lower) M, P e.1 := by
  induction L with
  | nil => intro M h1 h2; exact ⟨h1, h2⟩
  | cons x L ih =>
    intro M h1 h2
    rw [List.foldl_cons]
    unfold mergeOverride
    by_cases hx : TrimSpace x.1 = []
    · rw [if_pos hx]
      exact ih M h1 h2
    · rw [if_neg hx]
      apply ih _ (GoMap.nodup_set M _ _ h1)
      intro e he
      rcases GoMap.mem_set M _ _ e he with h | h
      · rw [h]
        exact hP x.1
      · exact h2 e h

theorem foldl_mergeOverride_other (lower : Char → Char) (key : Str) (L : GoMap) :
    ∀ M : GoMap, (∀ e ∈ L, ToLower lower (TrimSpace e.1) ≠ key) →
      (L.foldl (mergeOverride lower) M).get? key = M.get? key := by
  induction L with
  | nil => intro M _; rfl
  | cons x L ih =>
    intro M h
    rw [List.foldl_cons, ih _ (fun e he => h e (List.mem_cons_of_mem _ he))]
    unfold mergeOverride
    by_cases hx : TrimSpace x.1 = []
    · rw [if_pos hx]
    · rw [if_neg hx, GoMap.get?_set, if_neg]
      exact fun e => h x (List.mem_cons_self _ _) e.symm

/-- An override whose normalised key no other override shares is in the
merged mapping after the loop, whatever stood there before. -/
theorem foldl_mergeOverride_get? (lower : Char → Char) (k v : Str)
    (hk : TrimSpace k ≠ []) (L : GoMap) :
    ∀ M : GoMap, (k, v) ∈ L →
      (L.map (fun e => ToLower lower (TrimSpace e.1))).Nodup →
      (L.foldl (mergeOverride lower) M).get? (ToLower lower (TrimSpace k))
        = some (TrimSpace v) := by
  induction L with
  | nil => intro M h _; cases h
  | cons x L ih =>
    intro M hmem hnd
    simp only [List.map_cons, List.nodup_cons] at hnd
    rw [List.foldl_cons]
    rcases List.mem_cons.mp hmem with hx | hx
    · subst hx
      rw [foldl_mergeOverride_other]
      · unfold mergeOverride
        rw [if_neg hk, GoMap.get?_set, if_pos rfl]
      · intro e he heq
        exact hnd.1 (List.mem_map.mpr ⟨e, he, heq⟩)
    · exact ih _ hx hnd.2

theorem GoMap.mem_of_get? (m : GoMap) (a b : Str) (h : m.get? a = some b) : (a, b) ∈ m := by
  unfold GoMap.get? at h
  induction m with
  | nil => cases h
  | cons x m ih =>
    obtain ⟨xa, xb⟩ := x
    rw [lookup_cons_if] at h
    by_cases hx : a = xa
    · rw [if_pos hx] at h
      cases h
      rw [hx]
      exact List.mem_cons_self _ _
    · rw [if_neg hx] at h
      exact List.mem_cons_of_mem _ (ih h)

/-- The merged mapping has no key twice, and its keys are normalised when
those of the first two layers are. -/
theorem mergedMapping_inv {lower : Char → Char} (hl : CaseLaws lower)
    (order : GoMap → GoMap) (ho : RangeLaw order) (defaults env overrides : GoMap)
    (hDk : (defaults.map Prod.fst).Nodup)
    (hD : ∀ e ∈ defaults, ToLower lower (TrimSpace e.1) = e.1)
    (hE : ∀ e ∈ env, ToLower lower (TrimSpace e.1) = e.1) :
    ((mergedMapping lower order defaults env overrides).map Prod.fst).Nodup ∧
      ∀ e ∈ mergedMapping lower order defaults env overrides,
        ToLower lower (TrimSpace e.1) = e.1 := by
  unfold mergedMapping
  simp only
  have h1 := foldl_set_inv (fun a => ToLower lower (TrimSpace a) = a) (order env) defaults
    hDk hD (fun e he => hE e ((ho env).mem_iff.mp he))
  exact mergeOverride_inv lower (fun a => ToLower lower (TrimSpace a) = a)
    (fun a => norm_idem hl a) (order overrides) _ h1.1 h1.2

/-- With normalised keys in the first two layers, an explicit override
`k ↦ v` decides the exact rule of the normalised `k`. -/
theorem override_exact_rule {lower : Char → Char} (hl : CaseLaws lower)
    (order : GoMap → GoMap) (ho : RangeLaw order) (defaults env overrides : GoMap)
    (hDk : (defaults.map Prod.fst).Nodup)
    (hD : ∀ e ∈ defaults, ToLower lower (TrimSpace e.1) = e.1)
    (hE : ∀ e ∈ env, ToLower lower (TrimSpace e.1) = e.1)
    (hO : (overrides.map (fun e => ToLower lower (TrimSpace e.1))).Nodup)
    (k v : Str) (hmem : (k, v) ∈ overrides) (hk : TrimSpace k ≠ [])
    (hpat : HasSuffix (ToLower lower (TrimSpace k)) "/*".toList = false)
    (hv : TrimSpace v ≠ []) :
    (buildResolver lower order defaults env overrides).exactMap.get?
      (ToLower lower (TrimSpace k)) = some (TrimSpace v) := by
  obtain ⟨hnd, hnorm⟩ := mergedMapping_inv hl order ho defaults env overrides hDk hD hE
  have hget : (mergedMapping lower order defaults env overrides).get?
      (ToLower lower (TrimSpace k)) = some (TrimSpace v) := by
    unfold mergedMapping
    simp only
    apply foldl_mergeOverride_get? lower k v hk
    · exact (ho overrides).mem_iff.mpr hmem
    · exact (((ho overrides).map _).nodup_iff).mpr hO
  have hkn : ToLower lower (TrimSpace k) ≠ [] := by
    unfold ToLower
    intro h
    exact hk (List.map_eq_nil_iff.mp h)
  apply exactMap_get?_some lower order ho
  · refine ⟨_, GoMap.mem_of_get? _ _ _ hget, ?_⟩
    unfold isExactFor
    simp only [norm_idem hl, TrimSpace_idem, hpat, Bool.and_eq_true, bne_iff_ne, ne_eq,
      Bool.not_false, beq_self_eq_true, and_true]
    exact ⟨hkn, hv⟩
  · intro e he hex
    have hkey := isExactFor_key hex
    rw [hnorm e he] at hkey
    have h2 := GoMap.get?_of_mem _ hnd e.1 e.2 he
    rw [hkey, hget] at h2
    rw [← Option.some.inj h2, TrimSpace_idem]

/-- C15, the code at the environment variable named `SVU_BRANCH_DEV `, with
a blank at its end and the value `gamma_SUFFIX`, and the explicit override
`dev ↦ rc`. The loop over the variables lower-cases the name and does not
trim it, and the merge stores the key `dev ` as it is; the explicit override
is stored under `dev`. Both entries normalise to `dev` when the rules are
built, and the one visited last wins: with the entries visited in the order
in which they were added the resolver returns `gamma_SUFFIX` for the branch
`dev`, not `rc`; visited in the opposite order it returns `rc`. -/
theorem later_layer_untrimmed_env_key :
    loadBranchSuffixEnvOverrides Char.toLower [] ["SVU_BRANCH_DEV =gamma_SUFFIX".toList]
      = [("dev ".toList, "gamma_SUFFIX".toList)] ∧
    TrimSpace "dev".toList ≠ [] ∧
    HasSuffix (ToLower Char.toLower (TrimSpace "dev".toList)) "/*".toList = false ∧
    TrimSpace "rc".toList = "rc".toList ∧
    suffixForBranch Char.toLower
        (newBranchSuffixResolver Char.toLower id
          (loadBranchSuffixEnvOverrides Char.toLower []
            ["SVU_BRANCH_DEV =gamma_SUFFIX".toList])
          [("dev".toList, "rc".toList)])
        "dev".toList = "gamma_SUFFIX".toList ∧
    suffixForBranch Char.toLower
        (newBranchSuffixResolver Char.toLower List.reverse
          (loadBranchSuffixEnvOverrides Char.toLower []
            ["SVU_BRANCH_DEV =gamma_SUFFIX".toList])
          [("dev".toList, "rc".toList)])
        "dev".toList = "rc".toList :=
  ⟨by decide, by decide, by decide, by decide, by decide, by decide⟩

/-- Where the later layer does win: when the keys of the default mapping and
of the environment layer are already normalised (lower-case, trimmed), the
default mapping has no key twice and the keys of the explicit overrides are
distinct after normalisation, an explicit override of a key `k` (not empty
after trimming, no `/*` at its end) with a value `v` that is not empty after
trimming makes the resolver return the trimmed `v` for the branch `k`,
whatever the order of the `range` loops. `newBranchSuffixResolver` is
`buildResolver` at the built-in default mapping. -/
theorem later_layers_win (lower : Char → Char) (order : GoMap → GoMap)
    (hl : CaseLaws lower) (ho : RangeLaw order) (defaults env overrides : GoMap)
    (hDk : (defaults.map Prod.fst).Nodup)
    (hD : ∀ e ∈ defaults, ToLower lower (TrimSpace e.1) = e.1)
    (hE : ∀ e ∈ env, ToLower lower (TrimSpace e.1) = e.1)
    (hO : (overrides.map (fun e => ToLower lower (TrimSpace e.1))).Nodup)
    (k v : Str) (hmem : (k, v) ∈ overrides) (hk : TrimSpace k ≠ [])
    (hpat : HasSuffix (ToLower lower (TrimSpace k)) "/*".toList = false)
    (hv : TrimSpace v ≠ []) :
    suffixForBranch lower (buildResolver lower order defaults env overrides) k
      = TrimSpace v := by
  have hkn : ToLower lower (TrimSpace k) ≠ [] := by
    unfold ToLower
    intro h
    exact hk (List.map_eq_nil_iff.mp h)
  exact (suffixForBranch_cases lower _ (buildResolver_sorted lower order defaults env overrides)
    k).2.1 _ hkn
    (override_exact_rule hl order ho defaults env overrides hDk hD hE hO k v hmem hk hpat hv)

/-- The built-in defaults, the environment layer `dev ↦ gamma` and the
override `Dev  ↦  rc ` with blanks around key and value: the branch `Dev `
resolves to `rc`. -/
theorem later_layers_win_witness :
    suffixForBranch Char.toLower
        (newBranchSuffixResolver Char.toLower id [("dev".toList, "gamma".toList)]
          [("Dev ".toList, " rc ".toList)])
        "Dev ".toList = "rc".toList :=
  later_layers_win Char.toLower id caseLaws_toLower rangeLaw_id defaultBranchSuffixMapping
    [("dev".toList, "gamma".toList)] [("Dev ".toList, " rc ".toList)]
    (by decide) (by decide) (by decide) (by decide) "Dev ".toList " rc ".toList
    (by decide) (by decide) (by decide) (by decide)

/-! ## The sign of the counter -/

/-- What `Atoi` returns lies in the range of `int`. -/
theorem Atoi_range (s : Str) (n : Int) (h : Atoi s = some n) :
    -(2 ^ 63) ≤ n ∧ n < 2 ^ 63 := by
  unfold Atoi at h
  have neg : ∀ r : Option Nat,
      (r.bind fun k => if k ≤ 2 ^ 63 then some (-(k : Int)) else none) = some n →
        -(2 ^ 63) ≤ n ∧ n < 2 ^ 63 := by
    intro r hr
    cases r with
    | none => cases hr
    | some k =>
      rw [Option.some_bind] at hr
      by_cases hk : k ≤ 2 ^ 63
      · rw [if_pos hk] at hr
        have e := Option.some.inj hr
        omega
      · rw [if_neg hk] at hr
        cases hr
  have pos : ∀ r : Option Nat,
      (r.bind fun k => if k < 2 ^ 63 then some (k : Int) else none) = some n →
        -(2 ^ 63) ≤ n ∧ n < 2 ^ 63 := by
    intro r hr
    cases r with
    | none => cases hr
    | some k =>
      rw [Option.some_bind] at hr
      by_cases hk : k < 2 ^ 63
      · rw [if_pos hk] at hr
        have e := Option.some.inj hr
        omega
      · rw [if_neg hk] at hr
        cases hr
  by_cases h1 : HasPrefix s "-".toList = true
  · rw [if_pos h1] at h
    exact neg _ h
  · rw [if_neg h1] at h
    by_cases h2 : HasPrefix s "+".toList = true
    · rw [if_pos h2] at h
      exact pos _ h
    · rw [if_neg h2] at h
      exact pos _ h

theorem int64_succ_max : int64 ((2 ^ 63 - 1 : Int) + 1) = -(2 ^ 63) := by
  decide

/-- C22, as stated, fails. `Atoi` reads a sign: for the pre-release `beta.-5`
and the suffix `beta` the function returns -4, and for `beta.-1` it returns
0. The prior tag `v1.3.0-beta.-5` is accepted by `hasSuffix`, is a semantic
version, and on branch `develop` the call returns `1.3.0-beta.-4`. For the
largest `int` as the counter the sum wraps around to the smallest `int`. -/
theorem getNextPrereleaseNumber_below_one :
    getNextPrereleaseNumber "beta.-5".toList "beta".toList = -4 ∧
    getNextPrereleaseNumber "beta.-1".toList "beta".toList = 0 ∧
    getNextPrereleaseNumber "beta.9223372036854775807".toList "beta".toList
      = -9223372036854775808 ∧
    hasSuffix "v1.3.0-beta.-5".toList "beta".toList = true ∧
    versionFromTag parseVersion "v1.3.0-beta.-5".toList "v".toList
      = some ⟨1, 3, 0, "beta.-5".toList, [], "1.3.0-beta.-5".toList⟩ ∧
    applyBranchSuffix Char.toLower semverStrict
      ⟨id, [], "develop".toList, Except.ok ["v1.3.0-beta.-5".toList]⟩
      ⟨1, 3, 0, [], [], "1.3.0".toList⟩ "v".toList []
      = Except.ok ⟨1, 3, 0, "beta.-4".toList, [], "1.3.0-beta.-4".toList⟩ :=
  ⟨by decide, by decide, by decide, by decide, by decide, by rfl⟩

/-- C22, amended. For every pre-release and every suffix,
`getNextPrereleaseNumber` returns an integer that is at least 1, except
when the pre-release is the suffix, a dot and a text that `Atoi` reads as a
negative number or as the largest `int`; in exactly those cases the result
is below 1. -/
theorem getNextPrereleaseNumber_ge_one_iff (prerelease suffix : Str) :
    1 ≤ getNextPrereleaseNumber prerelease suffix ↔
      ¬ (HasPrefix prerelease (suffix ++ ".".toList) = true ∧
        ∃ number : Int,
          Atoi (TrimPrefix prerelease (suffix ++ ".".toList)) = some number ∧
            (number < 0 ∨ number = 2 ^ 63 - 1)) := by
  unfold getNextPrereleaseNumber
  simp only
  by_cases hp : HasPrefix prerelease (suffix ++ ".".toList) = true
  · rw [if_pos hp]
    cases ha : Atoi (TrimPrefix prerelease (suffix ++ ".".toList)) with
    | none =>
      constructor
      · rintro _ ⟨_, m, hm, _⟩
        cases hm
      · intro _
        decide
    | some number =>
      obtain ⟨hlo, hhi⟩ := Atoi_range _ _ ha
      show 1 ≤ int64 (number + 1) ↔ _
      by_cases hmax : number = 2 ^ 63 - 1
      · subst hmax
        rw [int64_succ_max]
        constructor
        · intro h
          omega
        · intro h
          exact absurd ⟨hp, _, rfl, Or.inr rfl⟩ h
      · have hr : int64 (number + 1) = number + 1 :=
          int64_of_range _ (by omega) (by omega)
        rw [hr]
        constructor
        · rintro h ⟨_, m, hm, hcase⟩
          have e : number = m := Option.some.inj hm
          omega
        · intro h
          by_contra hlt
          exact h ⟨hp, number, rfl, Or.inl (by omega)⟩
  · rw [if_neg hp]
    constructor
    · rintro _ ⟨h, _⟩
      exact hp h
    · intro _
      decide

/-! ## Branches without a rule -/

/-- An exact rule in the resolver comes from a visited entry or was there
before the loop. -/
theorem foldl_addRule_exact_origin (lower : Char → Char) (n s : Str) (L : GoMap) :
    ∀ r : branchSuffixResolver, (L.foldl (addRule lower) r).exactMap.get? n = some s →
      (∃ e ∈ L, isExactFor lower n e = true ∧ TrimSpace e.2 = s) ∨
        r.exactMap.get? n = some s := by
  induction L with
  | nil => intro r h; exact Or.inr h
  | cons e L ih =>
    intro r h
    rw [List.foldl_cons] at h
    rcases ih _ h with ⟨e', he', hx⟩ | h'
    · exact Or.inl ⟨e', List.mem_cons_of_mem _ he', hx⟩
    · cases hg : isExactFor lower n e with
      | true =>
        rw [addRule_exact_of_is lower r e n hg] at h'
        exact Or.inl ⟨e, List.mem_cons_self _ _, hg, Option.some.inj h'⟩
      | false =>
        rw [addRule_exact_of_not lower r e n hg] at h'
        exact Or.inr h'

theorem foldl_addRule_exact_ne_none (lower : Char → Char) (n : Str) (L : GoMap) :
    ∀ r : branchSuffixResolver,
      ((∃ e ∈ L, isExactFor lower n e = true) ∨ r.exactMap.get? n ≠ none) →
      (L.foldl (addRule lower) r).exactMap.get? n ≠ none := by
  induction L with
  | nil =>
    intro r h
    rcases h with ⟨e, he, _⟩ | h
    · cases he
    · exact h
  | cons e L ih =>
    intro r h
    rw [List.foldl_cons]
    apply ih
    cases hg : isExactFor lower n e with
    | true =>
      right
      rw [addRule_exact_of_is lower r e n hg]
      exact fun h0 => Option.noConfusion h0
    | false =>
      rcases h with ⟨e', he', hx⟩ | h
      · rcases List.mem_cons.mp he' with rfl | he''
        · rw [hg] at hx
          cases hx
        · exact Or.inl ⟨e', he'', hx⟩
      · right
        rw [addRule_exact_of_not lower r e n hg]
        exact h

theorem isExactFor_value {lower : Char → Char} {n : Str} {e : Str × Str}
    (h : isExactFor lower n e = true) : TrimSpace e.2 ≠ [] := by
  unfold isExactFor at h
  simp only [Bool.and_eq_true, bne_iff_ne, ne_eq] at h
  exact h.1.1.2

theorem toPrefixRule_suffix {lower : Char → Char} {e : Str × Str} {rule : prefixRule}
    (h : toPrefixRule lower e = some rule) : rule.suffix ≠ [] := by
  unfold toPrefixRule at h
  generalize "/*".toList = w at h
  by_cases hc : (ToLower lower (TrimSpace e.1) != [] && TrimSpace e.2 != [] &&
      HasSuffix (ToLower lower (TrimSpace e.1)) w) = true
  · rw [if_pos hc] at h
    simp only [Bool.and_eq_true, bne_iff_ne, ne_eq] at hc
    rw [← Option.some.inj h]
    exact hc.1.2
  · rw [if_neg hc] at h
    cases h

/-- The exact rule for `n` is missing exactly when no merged entry becomes
the exact rule for `n`. -/
theorem exactMap_get?_eq_none_iff (lower : Char → Char) (order : GoMap → GoMap)
    (ho : RangeLaw order) (defaults env overrides : GoMap) (n : Str) :
    (buildResolver lower order defaults env overrides).exactMap.get? n = none ↔
      ∀ e ∈ mergedMapping lower order defaults env overrides,
        isExactFor lower n e = false := by
  constructor
  · intro h e he
    cases hg : isExactFor lower n e with
    | false => rfl
    | true =>
      exfalso
      unfold buildResolver at h
      simp only at h
      exact foldl_addRule_exact_ne_none lower n _ _
        (Or.inl ⟨e, (ho _).mem_iff.mpr he, hg⟩) h
  · exact exactMap_get?_none lower order ho defaults env overrides n

/-- An exact rule of the resolver never carries the empty suffix. -/
theorem exactMap_value_ne (lower : Char → Char) (order : GoMap → GoMap)
    (defaults env overrides : GoMap) (n s : Str)
    (h : (buildResolver lower order defaults env overrides).exactMap.get? n = some s) :
    s ≠ [] := by
  unfold buildResolver at h
  simp only at h
  rcases foldl_addRule_exact_origin lower n s _ _ h with ⟨e, _, hx, hs⟩ | h0
  · rw [← hs]
    exact isExactFor_value hx
  · cases h0

/-- The resolver returns the empty suffix exactly when the normalised branch
name is empty or no merged entry gives it an exact rule or a prefix rule. -/
theorem suffixForBranch_empty_iff (lower : Char → Char) (order : GoMap → GoMap)
    (ho : RangeLaw order) (defaults env overrides : GoMap) (b : Str) :
    suffixForBranch lower (buildResolver lower order defaults env overrides) b = [] ↔
      ToLower lower (TrimSpace b) = [] ∨
        ((∀ e ∈ mergedMapping lower order defaults env overrides,
            isExactFor lower (ToLower lower (TrimSpace b)) e = false) ∧
          ∀ e ∈ mergedMapping lower order defaults env overrides, ∀ rule,
            toPrefixRule lower e = some rule →
              HasPrefix (ToLower lower (TrimSpace b)) rule.pfx = false) := by
  obtain ⟨c1, c2, c3, c4⟩ := suffixForBranch_cases lower _
    (buildResolver_sorted lower order defaults env overrides) b
  generalize ToLower lower (TrimSpace b) = n at c1 c2 c3 c4 ⊢
  by_cases hn : n = []
  · exact ⟨fun _ => Or.inl hn, fun _ => c1 hn⟩
  · cases hg : (buildResolver lower order defaults env overrides).exactMap.get? n with
    | some s =>
      have hs := exactMap_value_ne lower order defaults env overrides n s hg
      constructor
      · intro h
        rw [c2 s hn hg] at h
        exact absurd h hs
      · rintro (h | ⟨h, _⟩)
        · exact absurd h hn
        · have := (exactMap_get?_eq_none_iff lower order ho defaults env overrides n).mpr h
          rw [hg] at this
          cases this
    | none =>
      have hex := (exactMap_get?_eq_none_iff lower order ho defaults env overrides n).mp hg
      by_cases hm : ∃ rule ∈ (buildResolver lower order defaults env overrides).prefixRules,
          HasPrefix n rule.pfx = true
      · obtain ⟨rule, hin, hp, hres, _⟩ := c3 hn hg hm
        obtain ⟨e, he, hr⟩ :=
          (mem_prefixRules_iff lower order ho defaults env overrides rule).mp hin
        constructor
        · intro h
          rw [hres] at h
          exact absurd h (toPrefixRule_suffix hr)
        · rintro (h | ⟨_, h⟩)
          · exact absurd h hn
          · have := h e he rule hr
            rw [hp] at this
            cases this
      · constructor
        · intro _
          refine Or.inr ⟨hex, fun e he rule hr => ?_⟩
          cases hp : HasPrefix n rule.pfx with
          | false => rfl
          | true =>
            exact absurd ⟨rule,
              (mem_prefixRules_iff lower order ho defaults env overrides rule).mpr
                ⟨e, he, hr⟩, hp⟩ hm
        · intro _
          apply c4 hn hg
          intro rule hin
          cases hp : HasPrefix n rule.pfx with
          | false => rfl
          | true => exact absurd ⟨rule, hin, hp⟩ hm

/-- With the default mapping alone, a normalised branch name has an exact
rule exactly when it is one of the ten exact default names. -/
theorem default_exact_iff {lower : Char → Char} (hl : CaseLaws lower) (n : Str) :
    (∀ e ∈ defaultBranchSuffixMapping, isExactFor lower n e = false) ↔
      n ∉ exactDefaultNames := by
  have h1 : ∀ m ∈ exactDefaultNames, ∃ e ∈ defaultBranchSuffixMapping,
      isExactFor Char.toLower m e = true := by decide
  have h2 : ∀ e ∈ defaultBranchSuffixMapping,
      isExactFor Char.toLower (ToLower Char.toLower (TrimSpace e.1)) e = true →
        ToLower Char.toLower (TrimSpace e.1) ∈ exactDefaultNames := by decide
  constructor
  · intro h hin
    obtain ⟨e, he, hx⟩ := h1 n hin
    have := h e he
    rw [isExactFor_ascii hl n e (defaults_ascii e he), hx] at this
    cases this
  · intro h e he
    cases hg : isExactFor lower n e with
    | false => rfl
    | true =>
      rw [isExactFor_ascii hl n e (defaults_ascii e he)] at hg
      have hk := isExactFor_key hg
      have := h2 e he (isExactFor_self hg)
      rw [hk] at this
      exact absurd this h

/-- With the default mapping alone, the prefixes of the prefix rules are the
three wildcard keys without their `/*`. -/
theorem default_stems_iff {lower : Char → Char} (hl : CaseLaws lower) (n : Str) :
    (∀ e ∈ defaultBranchSuffixMapping, ∀ rule, toPrefixRule lower e = some rule →
        HasPrefix n rule.pfx = false) ↔
      ∀ p ∈ wildcardStems, HasPrefix n p = false := by
  have h1 : ∀ p ∈ wildcardStems, ∃ e ∈ defaultBranchSuffixMapping,
      (toPrefixRule Char.toLower e).any (fun rule => rule.pfx == p) = true := by decide
  have h2 : ∀ e ∈ defaultBranchSuffixMapping,
      (toPrefixRule Char.toLower e).all (fun rule => decide (rule.pfx ∈ wildcardStems))
        = true := by decide
  constructor
  · intro h p hp
    obtain ⟨e, he, hany⟩ := h1 p hp
    cases hr : toPrefixRule Char.toLower e with
    | none =>
      rw [hr] at hany
      cases hany
    | some rule =>
      rw [hr] at hany
      have hpe : rule.pfx = p := by simpa using hany
      have := h e he rule (by rw [toPrefixRule_ascii hl e (defaults_ascii e he)]; exact hr)
      rw [hpe] at this
      exact this
  · intro h e he rule hr
    rw [toPrefixRule_ascii hl e (defaults_ascii e he)] at hr
    have := h2 e he
    rw [hr] at this
    exact h rule.pfx (by simpa using this)

/-- With the default mapping alone, the branches without a suffix are those
whose normalised name is none of the ten exact names and begins with none of
`release`, `feature`, `hotfix`. -/
theorem default_suffix_empty_iff (lower : Char → Char) (order : GoMap → GoMap)
    (hl : CaseLaws lower) (ho : RangeLaw order) (b : Str) :
    suffixForBranch lower (newBranchSuffixResolver lower order [] []) b = [] ↔
      ToLower lower (TrimSpace b) ∉ exactDefaultNames ∧
        ∀ p ∈ wildcardStems, HasPrefix (ToLower lower (TrimSpace b)) p = false := by
  unfold newBranchSuffixResolver
  rw [suffixForBranch_empty_iff lower order ho, mergedMapping_defaults lower order ho,
    default_exact_iff hl, default_stems_iff hl]
  constructor
  · rintro (h | h)
    · rw [h]
      exact ⟨by decide, by decide⟩
    · exact h
  · exact fun h => Or.inr h

/-- C21, as stated, fails. The prefix rule of the key `release/*` has the
prefix `release`, without the slash. The branches `releases`, `feature` and
`hotfixes` are none of the ten exact default names and begin with none of
`release/`, `feature/`, `hotfix/`, and they resolve to `rc`, `alpha` and
`beta`. -/
theorem default_rule_outside_folder :
    (newBranchSuffixResolver Char.toLower id [] []).prefixRules
      = [⟨"release".toList, "rc".toList⟩, ⟨"feature".toList, "alpha".toList⟩,
          ⟨"hotfix".toList, "beta".toList⟩] ∧
    (ToLower Char.toLower (TrimSpace "releases".toList) ∉ exactDefaultNames ∧
      (∀ p ∈ wildcardFolders,
        HasPrefix (ToLower Char.toLower (TrimSpace "releases".toList)) p = false) ∧
      suffixForBranch Char.toLower (newBranchSuffixResolver Char.toLower id [] [])
        "releases".toList = "rc".toList) ∧
    (ToLower Char.toLower (TrimSpace "feature".toList) ∉ exactDefaultNames ∧
      (∀ p ∈ wildcardFolders,
        HasPrefix (ToLower Char.toLower (TrimSpace "feature".toList)) p = false) ∧
      suffixForBranch Char.toLower (newBranchSuffixResolver Char.toLower id [] [])
        "feature".toList = "alpha".toList) ∧
    (ToLower Char.toLower (TrimSpace "hotfixes".toList) ∉ exactDefaultNames ∧
      (∀ p ∈ wildcardFolders,
        HasPrefix (ToLower Char.toLower (TrimSpace "hotfixes".toList)) p = false) ∧
      suffixForBranch Char.toLower (newBranchSuffixResolver Char.toLower id [] [])
        "hotfixes".toList = "beta".toList) :=
  ⟨by decide, ⟨by decide, by decide, by decide⟩, ⟨by decide, by decide, by decide⟩,
    ⟨by decide, by decide, by decide⟩⟩

/-- C21, amended. A prefix rule registered under the key `p/*` applies to
every branch whose name begins with `p`: with the default mapping and no
overrides, whatever the order of the loops, every branch name that after
lower-casing and trimming is none of the ten exact default names and begins
with none of `release`, `feature`, `hotfix` resolves to the empty suffix. -/
theorem default_no_rule_empty (lower : Char → Char) (order : GoMap → GoMap)
    (hl : CaseLaws lower) (ho : RangeLaw order) (b : Str)
    (hexact : ToLower lower (TrimSpace b) ∉ exactDefaultNames)
    (hstem : ∀ p ∈ wildcardStems, HasPrefix (ToLower lower (TrimSpace b)) p = false) :
    suffixForBranch lower (newBranchSuffixResolver lower order [] []) b = [] :=
  (default_suffix_empty_iff lower order hl ho b).mpr ⟨hexact, hstem⟩

/-- C21 at the branch ` Main`: it resolves to the empty suffix. -/
theorem default_no_rule_empty_witness :
    suffixForBranch Char.toLower (newBranchSuffixResolver Char.toLower id [] [])
      " Main".toList = [] :=
  default_no_rule_empty Char.toLower id caseLaws_toLower rangeLaw_id " Main".toList
    (by decide) (by decide)

/-! ## Override entries that leave no trace -/

theorem stableOrder_id : StableOrder id := fun _ _ => rfl

/-- A loop is not changed by leaving out an entry whose round does nothing. -/
theorem foldl_erase_noop {β : Type} (f : β → Str × Str → β) (x : Str × Str)
    (hx : ∀ r, f r x = r) : ∀ (L : GoMap) (r : β), (L.erase x).foldl f r = L.foldl f r := by
  intro L
  induction L with
  | nil => intro r; rfl
  | cons y L ih =>
    intro r
    by_cases h : y = x
    · subst h
      rw [List.erase_cons_head, List.foldl_cons, hx]
    · rw [List.erase_cons_tail (by simpa using h), List.foldl_cons, List.foldl_cons, ih]

theorem GoMap.set_erase_comm (m : GoMap) (k v : Str) (x : Str × Str) (h : x.1 ≠ k) :
    (m.set k v).erase x = GoMap.set (m.erase x) k v := by
  have hkv : ¬ (k, v) = x := fun e => h (by rw [← e])
  induction m with
  | nil =>
    simp only [GoMap.set, List.erase_nil]
    rw [List.erase_cons_tail (by simpa using hkv), List.erase_nil]
  | cons z m ih =>
    by_cases hz : z.1 = k
    · have hzx : ¬ z = x := fun e => h (by rw [← e]; exact hz)
      simp only [GoMap.set]
      rw [if_pos hz, List.erase_cons_tail (by simpa using hkv),
        List.erase_cons_tail (by simpa using hzx)]
      simp only [GoMap.set]
      rw [if_pos hz]
    · simp only [GoMap.set]
      rw [if_neg hz]
      by_cases hzx : z = x
      · subst hzx
        rw [List.erase_cons_head, List.erase_cons_head]
      · rw [List.erase_cons_tail (by simpa using hzx),
          List.erase_cons_tail (by simpa using hzx), ih]
        simp only [GoMap.set]
        rw [if_neg hz]

theorem GoMap.set_new_erase (m : GoMap) (k v : Str) (h : k ∉ m.map Prod.fst) :
    (m.set k v).erase (k, v) = m := by
  induction m with
  | nil =>
    simp only [GoMap.set]
    rw [List.erase_cons_head]
  | cons z m ih =>
    simp only [List.map_cons, List.mem_cons, not_or] at h
    have hz : ¬ z.1 = k := fun e => h.1 e.symm
    have hzx : ¬ z = (k, v) := fun e => hz (by rw [e])
    simp only [GoMap.set]
    rw [if_neg hz, List.erase_cons_tail (by simpa using hzx), ih h.2]

theorem mergeOverride_key (lower : Char → Char) (m : GoMap) (y : Str × Str) (a : Str)
    (h : a ∈ (mergeOverride lower m y).map Prod.fst) :
    a ∈ m.map Prod.fst ∨ a = ToLower lower (TrimSpace y.1) := by
  unfold mergeOverride at h
  by_cases hy : TrimSpace y.1 = []
  · rw [if_pos hy] at h
    exact Or.inl h
  · rw [if_neg hy] at h
    rcases GoMap.key_mem_set m _ _ a h with h1 | h1
    · exact Or.inr h1
    · exact Or.inl h1

theorem foldl_set_key (L : GoMap) :
    ∀ (m : GoMap) (a : Str),
      a ∈ (L.foldl (fun m entry => m.set entry.1 entry.2) m).map Prod.fst →
        a ∈ m.map Prod.fst ∨ a ∈ L.map Prod.fst := by
  induction L with
  | nil => intro m a h; exact Or.inl h
  | cons y L ih =>
    intro m a h
    rw [List.foldl_cons] at h
    rcases ih _ a h with h1 | h1
    · rcases GoMap.key_mem_set m _ _ a h1 with h2 | h2
      · exact Or.inr (by rw [h2]; exact List.mem_map.mpr ⟨y, List.mem_cons_self _ _, rfl⟩)
      · exact Or.inl h2
    · exact Or.inr (by
        rw [List.map_cons]
        exact List.mem_cons_of_mem _ h1)

/-- Two maps that differ by one entry `x` still differ by it alone after the
same overrides were merged into both, when none of them has the key of `x`. -/
theorem foldl_mergeOverride_erase_inv (lower : Char → Char) (x : Str × Str) (L : GoMap) :
    ∀ M M' : GoMap, M'.erase x = M →
      (∀ y ∈ L, ToLower lower (TrimSpace y.1) ≠ x.1) →
      (L.foldl (mergeOverride lower) M').erase x = L.foldl (mergeOverride lower) M := by
  induction L with
  | nil => intro M M' h _; exact h
  | cons y L ih =>
    intro M M' h hL
    rw [List.foldl_cons, List.foldl_cons]
    apply ih _ _ _ (fun z hz => hL z (List.mem_cons_of_mem _ hz))
    unfold mergeOverride
    by_cases hy : TrimSpace y.1 = []
    · rw [if_pos hy, if_pos hy]
      exact h
    · rw [if_neg hy, if_neg hy,
        GoMap.set_erase_comm M' _ _ x (fun e => hL y (List.mem_cons_self _ _) e.symm), h]

/-- An override with a value that is empty after trimming, under a key that
the map does not have and no other override has, leaves one entry with the
empty value in the merged map and changes nothing else. -/
theorem foldl_mergeOverride_empty_value (lower : Char → Char) (e : Str × Str)
    (hk : TrimSpace e.1 ≠ []) (hv : TrimSpace e.2 = []) (L : GoMap) :
    ∀ M : GoMap, ToLower lower (TrimSpace e.1) ∉ M.map Prod.fst →
      (∀ y ∈ L.erase e, ToLower lower (TrimSpace y.1) ≠ ToLower lower (TrimSpace e.1)) →
      (L.foldl (mergeOverride lower) M).erase (ToLower lower (TrimSpace e.1), [])
        = (L.erase e).foldl (mergeOverride lower) M := by
  induction L with
  | nil =>
    intro M hM _
    rw [List.erase_nil, List.foldl_nil]
    apply List.erase_of_not_mem
    exact fun hin => hM (List.mem_map.mpr ⟨_, hin, rfl⟩)
  | cons y L ih =>
    intro M hM hL
    by_cases hy : y = e
    · subst hy
      rw [List.erase_cons_head] at hL ⊢
      rw [List.foldl_cons]
      apply foldl_mergeOverride_erase_inv lower _ L M _ _ hL
      unfold mergeOverride
      rw [if_neg hk, hv]
      exact GoMap.set_new_erase M _ _ hM
    · rw [List.erase_cons_tail (by simpa using hy)] at hL ⊢
      rw [List.foldl_cons, List.foldl_cons]
      apply ih
      · intro hin
        rcases mergeOverride_key lower M y _ hin with h1 | h1
        · exact hM h1
        · exact hL y (List.mem_cons_self _ _) h1.symm
      · exact fun z hz => hL z (List.mem_cons_of_mem _ hz)

theorem mergeOverride_empty_key (lower : Char → Char) (e : Str × Str)
    (hk : TrimSpace e.1 = []) (M : GoMap) : mergeOverride lower M e = M := by
  unfold mergeOverride
  rw [if_pos hk]

theorem addRule_empty_value (lower : Char → Char) (x : Str × Str) (hv : TrimSpace x.2 = [])
    (r : branchSuffixResolver) : addRule lower r x = r := by
  unfold addRule
  simp only
  rw [if_pos (Or.inr hv)]

/-- The resolver is the same with and without an override entry whose key
is empty after trimming, or whose value is empty after trimming while no
earlier layer and no other override has its normalised key. -/
theorem buildResolver_erase (lower : Char → Char) (order : GoMap → GoMap)
    (ho : RangeLaw order) (hst : StableOrder order) (defaults env overrides : GoMap)
    (e : Str × Str)
    (h : TrimSpace e.1 = [] ∨
      (TrimSpace e.2 = [] ∧
        ToLower lower (TrimSpace e.1) ∉ defaults.map Prod.fst ∧
        ToLower lower (TrimSpace e.1) ∉ env.map Prod.fst ∧
        ∀ y ∈ overrides.erase e,
          ToLower lower (TrimSpace y.1) ≠ ToLower lower (TrimSpace e.1))) :
    buildResolver lower order defaults env (overrides.erase e)
      = buildResolver lower order defaults env overrides := by
  by_cases hk : TrimSpace e.1 = []
  · have hM : mergedMapping lower order defaults env (overrides.erase e)
        = mergedMapping lower order defaults env overrides := by
      unfold mergedMapping
      simp only
      rw [hst overrides e,
        foldl_erase_noop (mergeOverride lower) e (mergeOverride_empty_key lower e hk)]
    unfold buildResolver
    rw [hM]
  · rcases h with h | ⟨hv, hD, hE, hO⟩
    · exact absurd h hk
    · have hM : (mergedMapping lower order defaults env overrides).erase
          (ToLower lower (TrimSpace e.1), [])
          = mergedMapping lower order defaults env (overrides.erase e) := by
        unfold mergedMapping
        simp only
        rw [hst overrides e]
        apply foldl_mergeOverride_empty_value lower e hk hv
        · intro hin
          rcases foldl_set_key _ _ _ hin with h1 | h1
          · exact hD h1
          · exact hE (((ho env).map Prod.fst).mem_iff.mp h1)
        · intro y hy
          rw [← hst overrides e] at hy
          exact hO y ((ho _).mem_iff.mp hy)
      unfold buildResolver
      simp only
      rw [← hM, hst,
        foldl_erase_noop (addRule lower) (ToLower lower (TrimSpace e.1), [])
          (addRule_empty_value lower _ rfl)]

/-- C20, amended. An explicit override entry is discarded when its key is
empty after trimming, or when its value is empty after trimming and its
normalised key is no key of the default mapping, of the environment layer or,
after normalisation, of another override: for every default mapping,
environment and override map, with the entries of a map visited in an order
that taking an entry out does not change, the resolver built with such an
entry present resolves every branch name to the same suffix as the resolver
built with that entry removed. -/
theorem empty_override_discarded (lower : Char → Char) (order : GoMap → GoMap)
    (ho : RangeLaw order) (hst : StableOrder order) (defaults env overrides : GoMap)
    (e : Str × Str)
    (h : TrimSpace e.1 = [] ∨
      (TrimSpace e.2 = [] ∧
        ToLower lower (TrimSpace e.1) ∉ defaults.map Prod.fst ∧
        ToLower lower (TrimSpace e.1) ∉ env.map Prod.fst ∧
        ∀ y ∈ overrides.erase e,
          ToLower lower (TrimSpace y.1) ≠ ToLower lower (TrimSpace e.1)))
    (b : Str) :
    suffixForBranch lower (buildResolver lower order defaults env overrides) b
      = suffixForBranch lower (buildResolver lower order defaults env (overrides.erase e))
          b := by
  rw [buildResolver_erase lower order ho hst defaults env overrides e h]

/-- C20 at the built-in defaults with the overrides `main ↦ " "` and
`dev ↦ rc`, and at the overrides ` ↦ alpha` and `dev ↦ rc`: with and without
the first entry the branch `dev` resolves to `rc`. -/
theorem empty_override_discarded_witness :
    (suffixForBranch Char.toLower
        (newBranchSuffixResolver Char.toLower id []
          [("main".toList, " ".toList), ("dev".toList, "rc".toList)]) "dev".toList
      = suffixForBranch Char.toLower
        (newBranchSuffixResolver Char.toLower id []
          ([("main".toList, " ".toList), ("dev".toList, "rc".toList)].erase
            ("main".toList, " ".toList))) "dev".toList) ∧
    (suffixForBranch Char.toLower
        (newBranchSuffixResolver Char.toLower id []
          [(" ".toList, "alpha".toList), ("dev".toList, "rc".toList)]) "dev".toList
      = suffixForBranch Char.toLower
        (newBranchSuffixResolver Char.toLower id []
          ([(" ".toList, "alpha".toList), ("dev".toList, "rc".toList)].erase
            (" ".toList, "alpha".toList))) "dev".toList) :=
  ⟨empty_override_discarded Char.toLower id rangeLaw_id stableOrder_id
      defaultBranchSuffixMapping [] [("main".toList, " ".toList), ("dev".toList, "rc".toList)]
      ("main".toList, " ".toList)
      (Or.inr ⟨by decide, by decide, by decide, by decide⟩) "dev".toList,
   empty_override_discarded Char.toLower id rangeLaw_id stableOrder_id
      defaultBranchSuffixMapping [] [(" ".toList, "alpha".toList), ("dev".toList, "rc".toList)]
      (" ".toList, "alpha".toList) (Or.inl (by decide)) "dev".toList⟩

/-! ## Splitting at a one-character separator -/

theorem Split_of_none (s p : Str) (hp : p ≠ []) (h : Index s p = none) : Split s p = [s] := by
  rw [Split_eq s p hp, genSplitLoop_none p _ s h]

theorem Split_of_some (s p : Str) (hp : p ≠ []) (m : Nat) (h : Index s p = some m) :
    Split s p = s.take m :: Split (s.drop (m + p.length)) p := by
  rw [Split_eq s p hp, Split_eq _ p hp]
  have hp1 : 0 < p.length := List.length_pos.mpr hp
  have hb := Index_some_bound h
  obtain ⟨k, hk⟩ : ∃ k, s.length = k + 1 := ⟨s.length - 1, by omega⟩
  rw [hk]
  simp only [countLoop, h, genSplitLoop]
  rw [countLoop_fuel p hp k (s.drop (m + p.length)) (by rw [List.length_drop]; omega)]

theorem Index_single_cons (x c : Char) (s : Str) :
    Index (x :: s) [c] = if x = c then some 0 else (Index s [c]).map (· + 1) := by
  have hpre : HasPrefix (x :: s) [c] = decide (x = c) := by
    unfold HasPrefix
    by_cases h : x = c
    · subst h
      simp [List.isPrefixOf]
    · have h' : ¬ c = x := fun e => h e.symm
      simp [List.isPrefixOf, h, h']
  rw [Index, hpre]
  by_cases h : x = c
  · simp [h]
  · simp [h]

theorem Split_single_nil (c : Char) : Split [] [c] = [[]] :=
  Split_of_none [] [c] (by simp) (Index_nil_none [c] (by simp))

theorem Split_cons_sep (c : Char) (s : Str) : Split (c :: s) [c] = [] :: Split s [c] := by
  have h : Index (c :: s) [c] = some 0 := by rw [Index_single_cons, if_pos rfl]
  rw [Split_of_some _ _ (by simp) 0 h]
  rfl

theorem Split_cons_other (x c : Char) (s : Str) (hx : x ≠ c) :
    Split (x :: s) [c] = (x :: (Split s [c]).headD []) :: (Split s [c]).tail := by
  have h : Index (x :: s) [c] = (Index s [c]).map (· + 1) := by
    rw [Index_single_cons, if_neg hx]
  cases hi : Index s [c] with
  | none =>
    rw [hi] at h
    rw [Split_of_none _ _ (by simp) h, Split_of_none _ _ (by simp) hi]
    rfl
  | some m =>
    rw [hi] at h
    rw [Split_of_some _ _ (by simp) (m + 1) h, Split_of_some _ _ (by simp) m hi]
    rfl

theorem Split_no_sep (c : Char) (d : Str) (h : c ∉ d) : Split d [c] = [d] := by
  induction d with
  | nil => exact Split_single_nil c
  | cons x d ih =>
    simp only [List.mem_cons, not_or] at h
    rw [Split_cons_other x c d (fun e => h.1 e.symm), ih h.2]
    rfl

/-- A text that ends in the separator and a last part without it splits into
the parts before and that last part. -/
theorem Split_append_sep (c : Char) (s d : Str) (h : c ∉ d) :
    Split (s ++ [c] ++ d) [c] = Split s [c] ++ [d] := by
  induction s with
  | nil =>
    show Split (c :: d) [c] = Split [] [c] ++ [d]
    rw [Split_cons_sep, Split_no_sep c d h, Split_single_nil]
    rfl
  | cons x s ih =>
    show Split (x :: (s ++ [c] ++ d)) [c] = Split (x :: s) [c] ++ [d]
    by_cases hx : x = c
    · subst hx
      rw [Split_cons_sep, Split_cons_sep, ih]
      rfl
    · have hne : Split s [c] ≠ [] := by
        rw [Split_eq s [c] (by simp)]
        exact genSplitLoop_ne_nil _ _ _
      rw [Split_cons_other x c _ hx, Split_cons_other x c s hx, ih]
      cases hS : Split s [c] with
      | nil => exact absurd hS hne
      | cons a rest => rfl

/-! ## Precedence of the next pre-release -/

theorem comparePrePart_self (x : Str) : comparePrePart x x = 0 := by
  unfold comparePrePart
  rw [if_pos rfl]

/-- The loop passes over the identifiers that both pre-releases share. -/
theorem comparePreLoop_skip (X Y : List Str) (k : Nat)
    (h : ∀ j, j < k → X.getD j [] = Y.getD j []) :
    ∀ (d i n : Nat), i + d = k →
      comparePreLoop X Y (n + d) i = comparePreLoop X Y n k := by
  intro d
  induction d with
  | zero =>
    intro i n hi
    have : i = k := by omega
    subst this
    rfl
  | succ d ih =>
    intro i n hi
    show comparePreLoop X Y ((n + d) + 1) i = _
    rw [comparePreLoop, h i (by omega), comparePrePart_self, if_neg (by simp)]
    exact ih (i + 1) n (by omega)

theorem comparePreLoop_one (X Y : List Str) (k : Nat) :
    comparePreLoop X Y 1 k = comparePrePart (X.getD k []) (Y.getD k []) := by
  rw [comparePreLoop]
  by_cases h : comparePrePart (X.getD k []) (Y.getD k []) = 0
  · rw [if_neg (fun hne => hne h), h]
    rfl
  · rw [if_pos h]

/-- Two pre-releases with the same identifiers up to the last one of the
first compare as that last one compares with what the second has in its
place. -/
theorem comparePreLoop_common (P B : List Str) (a : Str) (hB : B.length ≤ 1) :
    comparePreLoop (P ++ [a]) (P ++ B)
        (max (P ++ [a]).length (P ++ B).length) 0
      = comparePrePart a (B.getD 0 []) := by
  have hmax : max (P ++ [a]).length (P ++ B).length = 1 + P.length := by
    simp only [List.length_append, List.length_singleton]
    omega
  rw [hmax, comparePreLoop_skip (P ++ [a]) (P ++ B) P.length (fun j hj => by
      rw [List.getD_append _ _ _ _ hj, List.getD_append _ _ _ _ hj]) P.length 0 1 (by omega),
    comparePreLoop_one, List.getD_append_right _ _ _ _ (Nat.le_refl _),
    List.getD_append_right _ _ _ _ (Nat.le_refl _), Nat.sub_self]
  rfl

theorem comparePrerelease_longer (s d : Str) (hd : d ≠ []) (hdot : '.' ∉ d) :
    comparePrerelease (s ++ ".".toList ++ d) s = 1 := by
  unfold comparePrerelease
  have hsplit : Split (s ++ ".".toList ++ d) ".".toList = Split s ".".toList ++ [d] :=
    Split_append_sep '.' s d hdot
  rw [hsplit]
  have h := comparePreLoop_common (Split s ".".toList) [] d (by simp)
  rw [List.append_nil] at h
  rw [h]
  show comparePrePart d [] = 1
  unfold comparePrePart
  rw [if_neg hd, if_neg hd, if_pos rfl, if_pos hd]

theorem comparePrerelease_last (s d t : Str) (hd : '.' ∉ d) (ht : '.' ∉ t) :
    comparePrerelease (s ++ ".".toList ++ d) (s ++ ".".toList ++ t) = comparePrePart d t := by
  unfold comparePrerelease
  have h1 : Split (s ++ ".".toList ++ d) ".".toList = Split s ".".toList ++ [d] :=
    Split_append_sep '.' s d hd
  have h2 : Split (s ++ ".".toList ++ t) ".".toList = Split s ".".toList ++ [t] :=
    Split_append_sep '.' s t ht
  rw [h1, h2, comparePreLoop_common (Split s ".".toList) [t] d (by simp)]
  rfl

theorem purelyNumeric_digits {t : Str} (h : purelyNumeric t = true) :
    t ≠ [] ∧ t.all isDigit = true := by
  unfold purelyNumeric at h
  simp only [Bool.and_eq_true, Bool.not_eq_true', List.isEmpty_eq_false] at h
  exact h

theorem dot_not_mem_digits {t : Str} (h : t.all isDigit = true) : '.' ∉ t := by
  intro hin
  have := List.all_eq_true.mp h '.' hin
  revert this
  decide

theorem ParseUint_digits (t : Str) (ht : purelyNumeric t = true)
    (hN : digitsValue t < 2 ^ 64) : ParseUint t = some (digitsValue t) := by
  unfold ParseUint
  rw [(parseDigits_eq_some_iff t _).mpr ⟨ht, rfl⟩, Option.some_bind, if_pos hN]

/-- The decimal text of the next counter stands above every decimal text of
the counter. -/
theorem comparePrePart_counter (t : Str) (ht : purelyNumeric t = true)
    (hN : digitsValue t + 1 < 2 ^ 64) :
    comparePrePart (Nat.toDigits 10 (digitsValue t + 1)) t = 1 := by
  obtain ⟨hd1, hd2, hd3⟩ := toDigits_spec (digitsValue t + 1)
  have hdnum : purelyNumeric (Nat.toDigits 10 (digitsValue t + 1)) = true := by
    unfold purelyNumeric
    simp [hd1, hd2]
  have hPd := ParseUint_digits _ hdnum (by rw [hd3]; exact hN)
  rw [hd3] at hPd
  have hPt := ParseUint_digits t ht (by omega)
  have hne : ¬ Nat.toDigits 10 (digitsValue t + 1) = t := by
    intro e
    rw [e, hPt] at hPd
    have := Option.some.inj hPd
    omega
  unfold comparePrePart
  rw [if_neg hne, if_neg hd1, if_neg (purelyNumeric_digits ht).1, hPt, hPd]
  simp

theorem Atoi_digits (t : Str) (ht : purelyNumeric t = true) (hN : digitsValue t < 2 ^ 63) :
    Atoi t = some (digitsValue t : Int) := by
  obtain ⟨hne, hall⟩ := purelyNumeric_digits ht
  have hsign : ∀ c : Char, isDigit c = false → HasPrefix t [c] = false := by
    intro c hc
    cases t with
    | nil => exact absurd rfl hne
    | cons x r =>
      have hx : isDigit x = true := List.all_eq_true.mp hall x (List.mem_cons_self _ _)
      have hcx : ¬ c = x := fun e => by rw [e, hx] at hc; cases hc
      unfold HasPrefix
      simp [List.isPrefixOf, hcx]
  unfold Atoi
  rw [show "-".toList = ['-'] from rfl, show "+".toList = ['+'] from rfl,
    hsign '-' (by decide), hsign '+' (by decide)]
  simp only [Bool.false_eq_true, if_false]
  rw [(parseDigits_eq_some_iff t _).mpr ⟨ht, rfl⟩, Option.some_bind, if_pos hN]

theorem getNextPrereleaseNumber_digits (suffix t : Str) (ht : purelyNumeric t = true)
    (hN : digitsValue t + 1 < 2 ^ 63) :
    getNextPrereleaseNumber (suffix ++ ".".toList ++ t) suffix = (digitsValue t : Int) + 1 := by
  unfold getNextPrereleaseNumber
  simp only [HasPrefix_append, TrimPrefix_append, if_true, Atoi_digits t ht (by omega)]
  exact int64_of_range _ (by omega) (by omega)

theorem getNextPrereleaseNumber_self (suffix : Str) :
    getNextPrereleaseNumber suffix suffix = 1 := by
  unfold getNextPrereleaseNumber
  have h : ¬ HasPrefix suffix (suffix ++ ".".toList) = true := by
    intro h
    obtain ⟨r, hr⟩ := (HasPrefix_iff _ _).mp h
    have := congrArg List.length hr
    simp only [List.length_append] at this
    have h1 : ".".toList.length = 1 := rfl
    omega
  simp only
  rw [if_neg h]

/-- Versions with the same major, minor and patch and a pre-release each
compare as their pre-releases. -/
theorem Compare_same_core (v o : Version) (h1 : v.major = o.major) (h2 : v.minor = o.minor)
    (h3 : v.patch = o.patch) (hv : v.pre ≠ []) (ho : o.pre ≠ []) :
    v.Compare o = comparePrerelease v.pre o.pre := by
  unfold Version.Compare
  rw [h1, h2, h3, if_neg (Nat.lt_irrefl _), if_neg (Nat.lt_irrefl _), if_neg (Nat.lt_irrefl _),
    if_neg (Nat.lt_irrefl _), if_neg (Nat.lt_irrefl _), if_neg (Nat.lt_irrefl _),
    if_neg (fun h => hv h.1), if_neg hv, if_neg ho]

/-- On a prior tag of the same major, minor and patch with a pre-release,
`applyBranchSuffix` sets the suffix and the counter that
`getNextPrereleaseNumber` computed, when the library accepts them. -/
theorem applyBranchSuffix_same_core (lower : Char → Char) (lib : Semver) (w : World)
    (version : Version) (pfx : Str) (overrides : GoMap) (s tag : Str) (ev : Version)
    (hs : suffixForBranch lower (newBranchSuffixResolver lower w.order w.env overrides)
      w.CurrentBranch = s)
    (hne : s ≠ []) (hget : GetLatestTagWithSuffix w.allTags s = Except.ok tag)
    (htag : tag ≠ []) (hparse : versionFromTag lib.NewVersion tag pfx = some ev)
    (hcore : ev.major = version.major ∧ ev.minor = version.minor ∧ ev.patch = version.patch)
    (hpne : ev.pre ≠ [])
    (hv : lib.validatePrerelease
      (s ++ ".".toList ++ Itoa (getNextPrereleaseNumber ev.pre s)) = true) :
    applyBranchSuffix lower lib w version pfx overrides
      = Except.ok (Version.reoriginal version
          { version with pre := s ++ ".".toList ++ Itoa (getNextPrereleaseNumber ev.pre s) }) := by
  unfold applyBranchSuffix
  simp only [hs, hne, if_false, hget, htag, hparse, hcore, and_self, if_true, hpne,
    SetPrerelease_valid _ _ _ hv]

/-- C18, amended. Pre-release numbering is increasing over the prior tags
whose counter the code reads: for every base version, every non-empty
resolved suffix `s` and every latest prior `s`-suffixed tag that parses to
the base version's major, minor and patch with the pre-release `s` alone or
`s`, a dot and a run of decimal digits whose value plus one fits in `int`,
and provided the library accepts the computed pre-release, `applyBranchSuffix`
returns a version of strictly higher precedence than that prior tag. -/
theorem applyBranchSuffix_above_prior (lower : Char → Char) (lib : Semver) (w : World)
    (version : Version) (pfx : Str) (overrides : GoMap) (s tag : Str) (ev : Version)
    (hs : suffixForBranch lower (newBranchSuffixResolver lower w.order w.env overrides)
      w.CurrentBranch = s)
    (hne : s ≠ []) (hget : GetLatestTagWithSuffix w.allTags s = Except.ok tag)
    (htag : tag ≠ []) (hparse : versionFromTag lib.NewVersion tag pfx = some ev)
    (hcore : ev.major = version.major ∧ ev.minor = version.minor ∧ ev.patch = version.patch)
    (hform : ev.pre = s ∨
      ∃ t : Str, ev.pre = s ++ ".".toList ++ t ∧ purelyNumeric t = true ∧
        digitsValue t + 1 < 2 ^ 63)
    (hv : lib.validatePrerelease
      (s ++ ".".toList ++ Itoa (getNextPrereleaseNumber ev.pre s)) = true) :
    ∃ r : Version, applyBranchSuffix lower lib w version pfx overrides = Except.ok r ∧
      r.Compare ev = 1 := by
  have hpne : ev.pre ≠ [] := by
    rcases hform with h | ⟨t, h, _, _⟩
    · rw [h]
      exact hne
    · rw [h]
      intro h0
      have := congrArg List.length h0
      simp only [List.length_append, List.length_nil] at this
      have h1 : ".".toList.length = 1 := rfl
      omega
  refine ⟨_, applyBranchSuffix_same_core lower lib w version pfx overrides s tag ev hs hne
    hget htag hparse hcore hpne hv, ?_⟩
  have hrne : s ++ ".".toList ++ Itoa (getNextPrereleaseNumber ev.pre s) ≠ [] := by
    intro h0
    have := congrArg List.length h0
    simp only [List.length_append, List.length_nil] at this
    have h1 : ".".toList.length = 1 := rfl
    omega
  rw [Compare_same_core
    (Version.reoriginal version
      { version with pre := s ++ ".".toList ++ Itoa (getNextPrereleaseNumber ev.pre s) })
    ev (show version.major = ev.major from hcore.1.symm)
    (show version.minor = ev.minor from hcore.2.1.symm)
    (show version.patch = ev.patch from hcore.2.2.symm) hrne hpne]
  show comparePrerelease (s ++ ".".toList ++ Itoa (getNextPrereleaseNumber ev.pre s)) ev.pre = 1
  rcases hform with h | ⟨t, h, ht, hN⟩
  · rw [h, getNextPrereleaseNumber_self]
    exact comparePrerelease_longer s (Itoa 1) (by decide) (by decide)
  · rw [h, getNextPrereleaseNumber_digits s t ht hN]
    have hI : Itoa ((digitsValue t : Int) + 1) = Nat.toDigits 10 (digitsValue t + 1) := by
      rw [← Itoa_natCast]
      congr 1
    rw [hI, comparePrerelease_last s _ t
      (dot_not_mem_digits (toDigits_spec _).2.1) (dot_not_mem_digits (purelyNumeric_digits ht).2)]
    exact comparePrePart_counter t ht (by omega)

/-- C18 at the base version 1.3.0 on branch `develop` with the prior tag
`v1.3.0-beta.2`: the call returns a version above `1.3.0-beta.2`. -/
theorem applyBranchSuffix_above_prior_witness :
    ∃ r : Version,
      applyBranchSuffix Char.toLower semverStrict
        ⟨id, [], "develop".toList, Except.ok ["v1.3.0-beta.2".toList, "v1.2.0".toList]⟩
        ⟨1, 3, 0, [], [], "1.3.0".toList⟩ "v".toList [] = Except.ok r ∧
      r.Compare ⟨1, 3, 0, "beta.2".toList, [], "1.3.0-beta.2".toList⟩ = 1 :=
  applyBranchSuffix_above_prior Char.toLower semverStrict
    ⟨id, [], "develop".toList, Except.ok ["v1.3.0-beta.2".toList, "v1.2.0".toList]⟩
    ⟨1, 3, 0, [], [], "1.3.0".toList⟩ "v".toList [] "beta".toList "v1.3.0-beta.2".toList
    ⟨1, 3, 0, "beta.2".toList, [], "1.3.0-beta.2".toList⟩
    (by decide) (by decide) (by rfl) (by decide) (by decide) (by decide)
    (Or.inr ⟨"2".toList, by rfl, by decide, by decide⟩) (by decide)

end Semtag
